import Mathlib

/-!
Verification of the threadtally mention-extraction / entity-resolution engine.

The Python sources are shallowly embedded over `List Char`.  Pure string
functions become Lean functions; the regular expressions of the source are
embedded as explicit scanners with Python `re` semantics (leftmost match,
greedy quantifiers with backtracking, no rescan of replaced text, `\b`
boundaries computed on the original string).  Machine floats of the source
are modelled as exact rationals.

Modelling notes, fixed throughout the file:
* `unicodedata.normalize("NFKC", s)` is modelled as the identity map; this is
  exact on strings already in NFKC normal form, in particular on all ASCII
  strings.  Every character class manipulated by the source's own patterns is
  ASCII.
* Python's `\w` (word character) is modelled as ASCII alphanumeric or
  underscore, with non-ASCII codepoints outside the whitespace/dash/quote
  sets below conservatively classified as word characters.  Python classifies
  non-ASCII codepoints by Unicode category; the two classifications agree on
  letters and digits, which dominate, and on every character the source's
  regexes can themselves produce.
* Python's `\s` and `str.strip()` whitespace is the exact finite set of
  Unicode whitespace codepoints, enumerated below.
* Scanners are written with a fuel argument to keep them structurally
  recursive (hence kernel-computable); wrappers instantiate the fuel with the
  input length, which is always sufficient since every step consumes at least
  one character.
-/

namespace ThreadTally

/-- Python regex `\s` and `str.strip` whitespace, as the exact finite set of
Unicode whitespace codepoints. -/
def pySpace (c : Char) : Bool :=
  [' ', '\t', '\n', '\x0b', '\x0c', '\r',
   '\x1c', '\x1d', '\x1e', '\x1f', '\x85', '\xa0',
   ' ', ' ', ' ', ' ', ' ', ' ', ' ',
   ' ', ' ', ' ', ' ', ' ',
   ' ', ' ', ' ', ' ', '　'].contains c

def asciiUpperAlpha (c : Char) : Bool := 'A' ≤ c && c ≤ 'Z'

def asciiLowerAlpha (c : Char) : Bool := 'a' ≤ c && c ≤ 'z'

def asciiAlpha (c : Char) : Bool := asciiUpperAlpha c || asciiLowerAlpha c

def asciiDigit (c : Char) : Bool := '0' ≤ c && c ≤ '9'

def asciiAlnum (c : Char) : Bool := asciiAlpha c || asciiDigit c

/-- The Unicode dash variants of `_DASH_CHARS` in model_normalize.py. -/
def uniDash (c : Char) : Bool :=
  ['‐', '‑', '‒', '–', '—', '−',
   '﹘', '﹣', '－'].contains c

/-- Python regex `\w`: ASCII alphanumerics and underscore; non-ASCII
codepoints outside the enumerated whitespace/dash/quote sets are classified
as word characters (see the modelling notes). -/
def pyWord (c : Char) : Bool :=
  asciiAlnum c || c = '_' ||
    (128 ≤ c.toNat && !(pySpace c) && !(uniDash c) && !(c = '’') && !(c = '”'))

/-- Character class of `_TRAIL_RE` in model_normalize.py:
whitespace, trailing punctuation, brackets and quotes. -/
def trailPunct (c : Char) : Bool :=
  pySpace c ||
    ['.', ',', ';', ':', '!', '?', ')', ']', '}', '>', '"', '\'',
     '’', '”'].contains c

/-- Python `str.strip()`. -/
def pyStrip (l : List Char) : List Char :=
  ((l.dropWhile pySpace).reverse.dropWhile pySpace).reverse

/-- Python `str.upper()`, on the ASCII range (the only range the pipeline
upper-cases after tokenization by ASCII-class regexes). -/
def pyUpper (l : List Char) : List Char :=
  l.map fun c => if asciiLowerAlpha c then Char.ofNat (c.toNat - 32) else c

/-- Python `str.lower()`, on the ASCII range (non-ASCII letters are left
unchanged; in `canonical_key` they are deleted by the final filter either
way). -/
def pyLower (l : List Char) : List Char :=
  l.map fun c => if asciiUpperAlpha c then Char.ofNat (c.toNat + 32) else c

/-- The substitution `_DASH_RE.sub("-", s)`: rewrite Unicode dash variants
to an ASCII hyphen. -/
def dashMap (l : List Char) : List Char :=
  l.map fun c => if uniDash c then '-' else c

/-- Fuel-indexed scanner for `re.sub(r"\s*-\s*", "-", s)`: every maximal
whitespace-padded hyphen becomes a bare hyphen (leftmost-match, global). -/
def subDashWsF : Nat → List Char → List Char
  | 0, l => l
  | _ + 1, [] => []
  | f + 1, c :: cs =>
    if pySpace c then
      match (c :: cs).dropWhile pySpace with
      | '-' :: rs => '-' :: subDashWsF f (rs.dropWhile pySpace)
      | _ => (c :: cs).takeWhile pySpace ++ subDashWsF f ((c :: cs).dropWhile pySpace)
    else if c = '-' then '-' :: subDashWsF f (cs.dropWhile pySpace)
    else c :: subDashWsF f cs

def subDashWs (l : List Char) : List Char := subDashWsF l.length l

/-- The substitution `_TRAIL_RE.sub("", s)`: strip the maximal trailing run
of whitespace/punctuation/bracket/quote characters. -/
def stripTrailing (l : List Char) : List Char :=
  (l.reverse.dropWhile trailPunct).reverse

/-- State machine for `_WS_RE.sub(" ", s)`: each maximal whitespace run
becomes a single ASCII space.  `inRun` records whether the previous input
character was whitespace. -/
def wsGo (inRun : Bool) : List Char → List Char
  | [] => []
  | c :: cs =>
    if pySpace c then
      if inRun then wsGo true cs else ' ' :: wsGo true cs
    else c :: wsGo false cs

/-- `ModelNormalizer._collapse_ws`: `_WS_RE.sub(" ", s).strip()`. -/
def collapse_ws (l : List Char) : List Char := pyStrip (wsGo false l)

def headIsWord : List Char → Bool
  | [] => false
  | c :: _ => pyWord c

/-- Match attempt for `\s*-\s*(\d{2,4})\b` immediately after a candidate
letter (the tail of `_SINGLE_LETTER_DIGITS_DASH_RE`).  Greedy `\s*` needs no
backtracking since `-` and digits are not whitespace; `\d{2,4}\b` succeeds
exactly when the maximal digit run has length 2..4 and is followed by a
non-word character or the end (shorter prefixes are always followed by a
digit, a word character).  Returns the digit group and the rest. -/
def sub6Try (cs : List Char) : Option (List Char × List Char) :=
  match cs.dropWhile pySpace with
  | '-' :: t2 =>
    let t3 := t2.dropWhile pySpace
    let ds := t3.takeWhile asciiDigit
    let rest := t3.dropWhile asciiDigit
    if 2 ≤ ds.length && ds.length ≤ 4 && !(headIsWord rest) then some (ds, rest)
    else none
  | _ => none

/-- Fuel-indexed scanner for
`_SINGLE_LETTER_DIGITS_DASH_RE.sub(r"\1\2", s)` with pattern
`\b([A-Za-z])\s*-\s*(\d{2,4})\b`.  `prevW` is the word-character status of
the previous character of the original string (`\b` before the letter).
On a match the replacement is letter ++ digits and scanning resumes after
the match (Python `re.sub` does not rescan replaced text). -/
def sub6F : Nat → Bool → List Char → List Char
  | 0, _, l => l
  | _ + 1, _, [] => []
  | f + 1, prevW, c :: cs =>
    if !prevW && asciiAlpha c then
      match sub6Try cs with
      | some (ds, rest) => c :: (ds ++ sub6F f true rest)
      | none => c :: sub6F f true cs
    else c :: sub6F f (pyWord c) cs

def sub6 (prevW : Bool) (l : List Char) : List Char := sub6F l.length prevW l

/-- Match attempt for `\s+(\d{2,4})\b` immediately after a candidate letter
(the tail of `_SINGLE_LETTER_DIGITS_SPACE_RE`); the whitespace run must be
nonempty. -/
def sub7Try (cs : List Char) : Option (List Char × List Char) :=
  if cs.takeWhile pySpace = [] then none
  else
    let t2 := cs.dropWhile pySpace
    let ds := t2.takeWhile asciiDigit
    let rest := t2.dropWhile asciiDigit
    if 2 ≤ ds.length && ds.length ≤ 4 && !(headIsWord rest) then some (ds, rest)
    else none

/-- Fuel-indexed scanner for
`_SINGLE_LETTER_DIGITS_SPACE_RE.sub(r"\1\2", s)` with pattern
`\b([A-Za-z])\s+(\d{2,4})\b`. -/
def sub7F : Nat → Bool → List Char → List Char
  | 0, _, l => l
  | _ + 1, _, [] => []
  | f + 1, prevW, c :: cs =>
    if !prevW && asciiAlpha c then
      match sub7Try cs with
      | some (ds, rest) => c :: (ds ++ sub7F f true rest)
      | none => c :: sub7F f true cs
    else c :: sub7F f (pyWord c) cs

def sub7 (prevW : Bool) (l : List Char) : List Char := sub7F l.length prevW l

/-- `ModelNormalizer.normalize_display` (model_normalize.py lines 79-95).
NFKC normalization is modelled as the identity (see the file header); the
remaining steps are, in source order: `strip`, `_normalize_dashes`
(dash rewriting then `\s*-\s*` collapsing), `_strip_trailing_punct`,
`_collapse_ws`, then the two letter-digits fusions. -/
def normalize_display (raw : List Char) : List Char :=
  sub7 false (sub6 false (collapse_ws (stripTrailing (subDashWs (dashMap (pyStrip raw))))))

/-- ASCII lower-casing of one character, for case-insensitive matching. -/
def lcChar (c : Char) : Char :=
  if asciiUpperAlpha c then Char.ofNat (c.toNat + 32) else c

/-- Case-insensitive prefix test (`w` is compared after ASCII lowercasing of
both sides). -/
def startsCI (w l : List Char) : Bool :=
  (l.take w.length).map lcChar == w.map lcChar

/-- Fuel-indexed scanner for `_BW_PHRASE_RE.sub(repl, s)` with the
case-insensitive pattern
`\b(bowers\s*(?:&|and)?\s*wilkins|bowers\s+wilkins)\b`.
The second alternative is the first with the optional group empty, so only
the first is tried; committing to a present `&`/`and` is sound because the
empty-option path would next require a `w` where `&`/`a` was read.  After a
match the original string's last matched character is `s` (word), so
scanning resumes with `prevW = true`. -/
def bwPhraseSubF (repl : List Char) : Nat → Bool → List Char → List Char
  | 0, _, l => l
  | _ + 1, _, [] => []
  | f + 1, prevW, c :: cs =>
    if !prevW && startsCI "bowers".toList (c :: cs) then
      let r1 := (c :: cs).drop 6
      let r2 := r1.dropWhile pySpace
      let r3 :=
        if r2.head? = some '&' then r2.drop 1
        else if startsCI "and".toList r2 then r2.drop 3
        else r2
      let r4 := r3.dropWhile pySpace
      if startsCI "wilkins".toList r4 && !(headIsWord (r4.drop 7)) then
        repl ++ bwPhraseSubF repl f true (r4.drop 7)
      else c :: bwPhraseSubF repl f (pyWord c) cs
    else c :: bwPhraseSubF repl f (pyWord c) cs

def bwPhraseSub (repl : List Char) (l : List Char) : List Char :=
  bwPhraseSubF repl l.length false l

/-- Fuel-indexed scanner for `_BW_RE.sub(repl, s)` with the case-insensitive
pattern `\b(b\s*&\s*w|b\s+and\s+w|bw)\b`.  After the leading `b` the three
alternatives are distinguished by mutually exclusive next characters
(`&` after optional space, `a` after mandatory space, `w` immediately), so
at most one alternative can match at a position.  A match always ends in a
`w` (word), so scanning resumes with `prevW = true`. -/
def bwSubF (repl : List Char) : Nat → Bool → List Char → List Char
  | 0, _, l => l
  | _ + 1, _, [] => []
  | f + 1, prevW, c :: cs =>
    if !prevW && lcChar c = 'b' then
      let alt1 :=
        let j := cs.dropWhile pySpace
        if j.head? = some '&' then
          let k := (j.drop 1).dropWhile pySpace
          if (k.head?.map lcChar) = some 'w' then some (k.drop 1) else none
        else none
      let alt2 :=
        if cs.takeWhile pySpace ≠ [] then
          let r := cs.dropWhile pySpace
          if startsCI "and".toList r then
            let r3 := r.drop 3
            if r3.takeWhile pySpace ≠ [] then
              let k := r3.dropWhile pySpace
              if (k.head?.map lcChar) = some 'w' then some (k.drop 1) else none
            else none
          else none
        else none
      let alt3 :=
        if (cs.head?.map lcChar) = some 'w' then some (cs.drop 1) else none
      match alt1.orElse fun _ => alt2.orElse fun _ => alt3 with
      | some e =>
        if headIsWord e then c :: bwSubF repl f (pyWord c) cs
        else repl ++ bwSubF repl f true e
      | none => c :: bwSubF repl f (pyWord c) cs
    else c :: bwSubF repl f (pyWord c) cs

def bwSub (repl : List Char) (l : List Char) : List Char :=
  bwSubF repl l.length false l

/-- `ModelNormalizer.canonical_key` (model_normalize.py lines 97-109):
normalize the display form, collapse B&W brand variants, lowercase, and
delete every character that is not a lowercase ASCII letter or digit
(`re.sub(r"[^a-z0-9]+", "", s)`). -/
def canonical_key (raw : List Char) : List Char :=
  (pyLower (bwSub "bw".toList (bwPhraseSub "bw".toList (normalize_display raw)))).filter
    fun c => asciiLowerAlpha c || asciiDigit c

/-- `ModelNormalizer.prepare_text_for_matching` (model_normalize.py lines
52-63): NFKC (modelled as identity), Unicode dashes to ASCII hyphen, and
`Bowers & Wilkins` phrases collapsed to the single token `B&W`. -/
def prepare_text_for_matching (text : List Char) : List Char :=
  bwPhraseSub "B&W".toList (dashMap text)

/-- `AliasRecord` of model_normalize.py. -/
structure AliasRecord where
  canonical_key : List Char
  display_name : List Char
deriving DecidableEq, Repr

/-- The loaded alias table `ModelNormalizer.alias_map`, keyed by
`canonical_key(alias)`.  CSV loading is I/O and is not modelled; the claims
quantify over an arbitrary loaded table. -/
def AliasMap : Type := List (List Char × AliasRecord)

def aliasLookup (m : AliasMap) (k : List Char) : Option AliasRecord :=
  match m with
  | [] => none
  | (k', r) :: rest => if k' = k then some r else aliasLookup rest k

/-- `ModelNormalizer.has_alias`. -/
def has_alias (m : AliasMap) (raw : List Char) : Bool :=
  let k := canonical_key raw
  !(k.isEmpty) && (aliasLookup m k).isSome

/-- `ModelNormalizer.normalize` (model_normalize.py lines 115-128): returns
`(canonical_key, display_name)`, applying alias overrides when present. -/
def normalize (m : AliasMap) (raw : List Char) : List Char × List Char :=
  let display := normalize_display raw
  let key := canonical_key display
  if key.isEmpty then ([], display)
  else
    match aliasLookup m key with
    | some r => (r.canonical_key, r.display_name)
    | none => (key, display)

/-- Python `str.replace(pat, repl)` (fuel-indexed): replace every
non-overlapping occurrence of `pat`, scanning left to right. -/
def replaceAllF (pat repl : List Char) : Nat → List Char → List Char
  | 0, l => l
  | _ + 1, [] => []
  | f + 1, c :: cs =>
    if !pat.isEmpty && (c :: cs).take pat.length = pat then
      repl ++ replaceAllF pat repl f ((c :: cs).drop pat.length)
    else c :: replaceAllF pat repl f cs

def replaceAll (pat repl l : List Char) : List Char := replaceAllF pat repl l.length l

/-- `norm_space` of extract_mentions_v2.py and `_collapse_ws` of
score_votes_v2.py: `re.sub(r"\s+", " ", s.strip())`. -/
def norm_space (l : List Char) : List Char := wsGo false (pyStrip l)

/-- Character class of `TRAILING_PUNCT_RE` in score_votes_v2.py (note: no
whitespace, unlike the normalizer's `_TRAIL_RE`). -/
def svTrailPunct (c : Char) : Bool :=
  ['.', ',', ';', ':', '!', '?', ')', ']', '}'].contains c

/-- `TRAILING_PUNCT_RE.sub("", s)` of score_votes_v2.py. -/
def svStripTrailing (l : List Char) : List Char :=
  (l.reverse.dropWhile svTrailPunct).reverse

/-- `canonical_key_from_model` (score_votes_v2.py lines 58-87): the grouping
key of the vote-scoring stage, built from the mention's `canonical_model`
string.  Note that unlike `ModelNormalizer.canonical_key` it keeps the brand
part upper-case and may keep spaces and ampersands. -/
def canonical_key_from_model (canonical_model : List Char) : List Char :=
  let cm := svStripTrailing (pyUpper (norm_space canonical_model))
  let parts := cm.splitOn ' '
  if parts.length < 2 then cm.filter fun c => asciiUpperAlpha c || asciiDigit c
  else
    let model_tok := parts.getLastD []
    let brand0 := List.intercalate [' '] parts.dropLast
    let brand1 := pyUpper (norm_space brand0)
    let brand2 := replaceAll "QACOUSTICS".toList "Q ACOUSTICS".toList brand1
    let brand3 := if brand2 = "BW".toList || brand2 = "BOWERS".toList then "B&W".toList else brand2
    let brand := pyStrip (brand3.filter fun c => asciiUpperAlpha c || asciiDigit c || c = '&' || c = ' ')
    let model_norm := (pyUpper model_tok).filter fun c => asciiUpperAlpha c || asciiDigit c
    pyStrip (brand ++ ' ' :: model_norm)

/-- `clean_display_model` (score_votes_v2.py lines 90-97). -/
def clean_display_model (canonical_model : List Char) : List Char :=
  svStripTrailing (pyUpper (norm_space canonical_model))

/-- The `BRANDS` catalog of extract_mentions_v2.py (source order, including
the duplicated YAMAHA entry). -/
def BRANDS : List (List Char) :=
  ["KEF", "ELAC", "POLK", "SVS", "KLIPSCH", "JBL", "SONY", "YAMAHA", "DENON",
   "MARANTZ", "ONKYO", "PIONEER", "WHARFEDALE", "FOCAL", "DALI", "PARADIGM",
   "EMOTIVA", "FLUANCE", "MICCA", "EDIFIER", "MONOPRICE", "B&W", "BW",
   "BOWERS", "WILKINS", "Q ACOUSTICS", "QACOUSTICS", "JAMO", "NEUMI", "RSL",
   "HSU", "ASCEND", "AR", "AUDIOENGINE", "CAMBRIDGE", "CANTON", "CERWIN",
   "CHANE", "DYNACO", "DYNAUDIO", "GENELEC", "HARBETH", "INFINITY",
   "MAGNEPAN", "MISSION", "MONITOR AUDIO", "NHT", "PSB", "REVEL", "SALK",
   "SENNHEISER", "TANNOY", "TEAC", "TRIANGLE", "VANDERSTEEN",
   "VIENNA", "YAMAHA"].map String.toList

/-- Stable insertion of `x` into `acc`: `x` is placed before the first
element it strictly precedes under `lt`. -/
def insertBy (lt : α → α → Bool) (x : α) : List α → List α
  | [] => [x]
  | y :: ys => if lt x y then x :: y :: ys else y :: insertBy lt x ys

/-- Stable insertion sort (matches Python's stable `sorted`, and numpy's
introsort on the tie-free or small inputs exercised here): elements are
inserted in input order, each settling after all earlier elements it does
not strictly precede. -/
def isortBy (lt : α → α → Bool) (l : List α) : List α :=
  l.foldl (fun acc x => insertBy lt x acc) []

/-- The brand alternation `BRAND_RE`: `sorted(set(BRANDS), key=len,
reverse=True)`.  Alternatives are tried longest first; the relative order of
equal-length brands is irrelevant since two distinct upper-case brands can
never match the same span case-insensitively. -/
def brandsByLength : List (List Char) :=
  isortBy (fun a b => b.length < a.length) BRANDS.dedup

/-- `SPEAKER_CONTEXT` of extract_mentions_v2.py. -/
def SPEAKER_CONTEXT : List (List Char) :=
  ["speaker", "speakers", "bookshelf", "bookself", "monitor", "monitors",
   "pair", "pairs", "stands", "nearfield", "passive", "amp", "receiver",
   "integrated", "sub", "subwoofer", "stereo", "2.0", "2.1"].map String.toList

/-- `BAD_TOKENS` of extract_mentions_v2.py. -/
def BAD_TOKENS : List (List Char) :=
  ["2.0", "2.1", "5.1", "7.1", "3.5", "6.5", "8.0", "10.0", "12.0", "14.0",
   "1080", "1440", "4K", "8K"].map String.toList

/-- Character class `[A-Z0-9.\-]` of `MODEL_TOKEN_RE` (case-insensitive). -/
def tokClass (c : Char) : Bool := asciiAlnum c || c = '.' || c = '-'

/-- Descending list `[n, n-1, ..., 0]`, the greedy backtracking order of a
bounded quantifier. -/
def downFrom (n : Nat) : List Nat := (List.range (n + 1)).reverse

/-- The `C{1,20}\d[C]{0,20}` tail of `MODEL_TOKEN_RE` with trailing `(?!\w)`,
with greedy backtracking over both counted quantifiers.  Returns the matched
tail and the rest. -/
def modelTryC (t : List Char) : Option (List Char × List Char) :=
  let maxk := min 20 (t.takeWhile tokClass).length
  (downFrom maxk).findSome? fun k =>
    if k = 0 then none
    else
      match (t.drop k).head? with
      | some d =>
        if asciiDigit d then
          let t2 := t.drop (k + 1)
          let maxj := min 20 (t2.takeWhile tokClass).length
          (downFrom maxj).findSome? fun j =>
            if headIsWord (t2.drop j) then none
            else some (t.take k ++ d :: t2.take j, t2.drop j)
        else none
      | none => none

/-- The `[A-Z0-9][A-Z0-9.\-]{1,20}\d[A-Z0-9.\-]{0,20}` part of
`MODEL_TOKEN_RE` (the whole pattern with the optional letter absent). -/
def modelTryB (l : List Char) : Option (List Char × List Char) :=
  match l with
  | b :: t =>
    if asciiAlnum b then
      (modelTryC t).map fun (p : List Char × List Char) => (b :: p.1, p.2)
    else none
  | [] => none

/-- `MODEL_TOKEN_RE` = `[A-Z]?[A-Z0-9][A-Z0-9.\-]{1,20}\d[A-Z0-9.\-]{0,20}`
(case-insensitive) followed by `(?!\w)`, matched at the head of `l`.  The
optional leading letter is tried present first, per greedy `?`; if the rest
of the pattern fails after it, the engine retries with the letter absent. -/
def modelTry (l : List Char) : Option (List Char × List Char) :=
  match l with
  | c :: cs =>
    if asciiAlpha c then
      match modelTryB cs with
      | some p => some (c :: p.1, p.2)
      | none => modelTryB (c :: cs)
    else modelTryB (c :: cs)
  | [] => none

/-- Fuel-indexed `STANDALONE_RE.finditer`: leftmost non-overlapping matches
of `(?<!\w)(MODEL_TOKEN_RE)(?!\w)`, returning the matched groups in text
order.  `prevW` is the word status of the previous original character
(the `(?<!\w)` lookbehind). -/
def standaloneF : Nat → Bool → List Char → List (List Char)
  | 0, _, _ => []
  | _ + 1, _, [] => []
  | f + 1, prevW, c :: cs =>
    if !prevW then
      match modelTry (c :: cs) with
      | some (tok, rest) => tok :: standaloneF f (pyWord (tok.getLastD ' ')) rest
      | none => standaloneF f (pyWord c) cs
    else standaloneF f (pyWord c) cs

def standaloneTokens (l : List Char) : List (List Char) := standaloneF l.length false l

/-- One match of `MENTION_RE_1`: the brand group, the model group and the
whole matched span. -/
structure P1Match where
  brand : List Char
  model : List Char
  full : List Char
deriving DecidableEq, Repr

/-- Try the Pass-1 pattern `(?<!\w)(BRAND_RE)\s+(MODEL_TOKEN_RE)(?!\w)` at
the head of `l`: alternatives longest-first, and on failure of the tail the
next brand alternative is tried (regex alternation backtracking). -/
def pass1TryAt (l : List Char) : Option (P1Match × List Char) :=
  brandsByLength.findSome? fun b =>
    if startsCI b l then
      let after := l.drop b.length
      let ws := after.takeWhile pySpace
      if ws.isEmpty then none
      else
        match modelTry (after.dropWhile pySpace) with
        | some (tok, rest) =>
          some ({ brand := l.take b.length, model := tok,
                  full := l.take (b.length + ws.length + tok.length) }, rest)
        | none => none
    else none

/-- Fuel-indexed `MENTION_RE_1.finditer` (Pass 1). -/
def pass1F : Nat → Bool → List Char → List P1Match
  | 0, _, _ => []
  | _ + 1, _, [] => []
  | f + 1, prevW, c :: cs =>
    if !prevW then
      match pass1TryAt (c :: cs) with
      | some (m, rest) => m :: pass1F f (pyWord (m.model.getLastD ' ')) rest
      | none => pass1F f (pyWord c) cs
    else pass1F f (pyWord c) cs

def pass1Matches (l : List Char) : List P1Match := pass1F l.length false l

/-- `norm_brand` (extract_mentions_v2.py lines 72-77). -/
def norm_brand (b : List Char) : List Char :=
  let b1 := pyUpper (norm_space b)
  let b2 := replaceAll "QACOUSTICS".toList "Q ACOUSTICS".toList b1
  if b2 = "BW".toList || b2 = "BOWERS".toList || b2 = "WILKINS".toList then
    "B&W".toList
  else b2

/-- `extract_context_words` (extract_mentions_v2.py lines 80-82): the
speaker-context words occurring as substrings of the lower-cased raw text. -/
def extract_context_words (text : List Char) : List (List Char) :=
  SPEAKER_CONTEXT.filter fun w => decide (w <:+: pyLower text)

/-- Increment a counter key, preserving insertion order (Python dict /
`Counter` semantics). -/
def counterAdd : List (List Char × Nat) → List Char → List (List Char × Nat)
  | [], k => [(k, 1)]
  | (k', n) :: t, k => if k' = k then (k', n + 1) :: t else (k', n) :: counterAdd t k

/-- `Counter.most_common(1)[0][0]`: the first key attaining the maximal
count (ties resolved by insertion order, as `heapq.nlargest` is stable). -/
def mostCommon1 : List (List Char × Nat) → Option (List Char)
  | [] => none
  | x :: xs => some (xs.foldl (fun best p => if best.2 < p.2 then p else best) x).1

/-- `pick_brand_from_thread` (extract_mentions_v2.py lines 85-90). -/
def pick_brand_from_thread (thread_brands doc_brands : List (List Char × Nat)) :
    Option (List Char) :=
  if !doc_brands.isEmpty then mostCommon1 doc_brands
  else if !thread_brands.isEmpty then mostCommon1 thread_brands
  else none

/-- `looks_like_real_model` (extract_mentions_v2.py lines 93-103). -/
def looks_like_real_model (token : List Char) : Bool :=
  let t := pyStrip (pyUpper token)
  if t.isEmpty then false
  else if BAD_TOKENS.contains t then false
  else if t.length < 2 || 25 < t.length then false
  else if t.all fun c => asciiDigit c || c = '.' || c = '-' then false
  else true

/-- Detection method of a Mention. -/
inductive Method where
  | brand_token
  | alias_token
  | inferred_brand
deriving DecidableEq, Repr

/-- One document handed to the extractor (the `reddit_docs.csv` fields the
claims depend on; the remaining provenance columns are copied through
unchanged by the source and carry no logic). -/
structure Doc where
  text : List Char
  thread_id : List Char
  doc_kind : List Char
  score : ℚ
deriving DecidableEq, Repr

/-- One output Mention row of extract_mentions_v2.py (the provenance
passthrough columns beyond `doc_kind`/`thread_id`/`score` are omitted; the
source copies them verbatim from the document). -/
structure Mention where
  canonical_key : List Char
  canonical_model : List Char
  brand : List Char
  model_token : List Char
  found_text : List Char
  method : Method
  confidence : ℚ
  doc_kind : List Char
  thread_id : List Char
  score : ℚ
deriving DecidableEq, Repr

/-- Python `canonical_model.split(" ", 1)[0] if " " in canonical_model else
dflt`. -/
def firstSpaceField (cm : List Char) (dflt : List Char) : List Char :=
  if cm.contains ' ' then cm.takeWhile (fun c => !(c = ' ')) else dflt

/-- Result of handling one Pass-2 standalone token: the emitted row, if any,
and whether the token was recorded in the candidate tracker. -/
structure Pass2Result where
  row : Option Mention
  candidate : Bool
deriving DecidableEq, Repr

/-- The alias-resolved Mention row of extract_mentions_v2.py lines 217-239
(method `alias_token`, confidence 0.95). -/
def aliasRow (m : AliasMap) (doc : Doc) (token_norm : List Char) : Mention :=
  let kd := normalize m token_norm
  let brand_guess := firstSpaceField kd.2 []
  { canonical_key := kd.1, canonical_model := kd.2,
    brand := if !brand_guess.isEmpty then norm_brand brand_guess else [],
    model_token := token_norm, found_text := token_norm,
    method := Method.alias_token, confidence := 19/20,
    doc_kind := doc.doc_kind, thread_id := doc.thread_id, score := doc.score }

/-- The inference-resolved Mention row of extract_mentions_v2.py lines
245-270 (method `inferred_brand`, confidence 0.65). -/
def inferredRow (m : AliasMap) (doc : Doc) (inferred_brand token_norm : List Char) :
    Mention :=
  let combined := pyStrip (inferred_brand ++ ' ' :: token_norm)
  let kd := normalize m combined
  { canonical_key := kd.1, canonical_model := kd.2,
    brand := firstSpaceField kd.2 inferred_brand, model_token := token_norm,
    found_text := token_norm, method := Method.inferred_brand,
    confidence := 13/20, doc_kind := doc.doc_kind, thread_id := doc.thread_id,
    score := doc.score }

/-- The Pass-2 loop body of extract_mentions_v2.py (lines 204-270) for a
single standalone token occurrence `token_raw`:
junk filtering, candidate recording, alias resolution, speaker-context
gating and brand inference, in source order. -/
def pass2HandleToken (m : AliasMap) (speaker_ctx : List (List Char))
    (thread_counts doc_brands : List (List Char × Nat)) (doc : Doc)
    (token_raw : List Char) : Pass2Result :=
  let token_norm := pyUpper (normalize_display token_raw)
  if !looks_like_real_model token_norm then ⟨none, false⟩
  else if has_alias m token_norm then ⟨some (aliasRow m doc token_norm), true⟩
  else if speaker_ctx.isEmpty then ⟨none, true⟩
  else
    match pick_brand_from_thread thread_counts doc_brands with
    | none => ⟨none, true⟩
    | some inferred_brand =>
      ⟨some (inferredRow m doc inferred_brand token_norm), true⟩

/-- The Pass-1 row construction of extract_mentions_v2.py (lines 171-199)
for one `MENTION_RE_1` match. -/
def mkPass1Row (m : AliasMap) (doc : Doc) (pm : P1Match) : Mention :=
  let model_tok := pyUpper (normalize_display pm.model)
  let brand_tok := norm_brand pm.brand
  let combined := pyStrip (brand_tok ++ ' ' :: model_tok)
  let kd := normalize m combined
  let out_brand := firstSpaceField kd.2 brand_tok
  { canonical_key := kd.1, canonical_model := kd.2, brand := out_brand,
    model_token := model_tok, found_text := pm.full,
    method := Method.brand_token, confidence := 1,
    doc_kind := doc.doc_kind, thread_id := doc.thread_id, score := doc.score }

/-- The per-document extraction of extract_mentions_v2.py (lines 147-270):
Pass-1 explicit brand+model rows followed by Pass-2 standalone-token rows.
`thread_counts` is the thread-level brand counter built over the whole batch
before extraction (lines 129-140); the claims quantify over it. -/
def extractDoc (m : AliasMap) (thread_counts : List (List Char × Nat))
    (doc : Doc) : List Mention :=
  let text := prepare_text_for_matching doc.text
  let doc_brands :=
    ((pass1Matches text).map fun pm => norm_brand pm.brand).foldl counterAdd []
  let speaker_ctx := extract_context_words doc.text
  let p1 := (pass1Matches text).map (mkPass1Row m doc)
  let p2 := (standaloneTokens text).filterMap fun tok =>
    (pass2HandleToken m speaker_ctx thread_counts doc_brands doc (pyStrip tok)).row
  p1 ++ p2

/-- Lexicographic order on strings by code point (Python `str` comparison,
used by `sorted`, tuple keys and pandas object-dtype sorts). -/
def strLt : List Char → List Char → Bool
  | [], [] => false
  | [], _ :: _ => true
  | _ :: _, [] => false
  | a :: as, b :: bs =>
    if a.toNat < b.toNat then true
    else if b.toNat < a.toNat then false
    else strLt as bs

/-- One mention row as seen by the aggregation of score_votes_v2.py after
lines 157-164: `canonical_model` (raw), `thread_id`, the numeric `score`,
and the per-row weight `vote_w` produced by `vote_weight` (its numeric value
is opaque to the aggregation algebra, so it is carried as a field). -/
structure ScoredMention where
  canonical_model : List Char
  thread_id : List Char
  vote_w : ℚ
  score : ℚ
deriving DecidableEq, Repr

/-- The grouping key of a mention row (score_votes_v2.py line 159). -/
def mentionKey (r : ScoredMention) : List Char :=
  canonical_key_from_model r.canonical_model

/-- One per-key aggregate row of `votes_v2.csv` (the `canonical_model` /
`variants` display columns are not part of the aggregation algebra the
claims quantify over). -/
structure Agg where
  mentions : ℕ
  unique_threads : ℕ
  vote_score : ℚ
  avg_vote : ℚ
  avg_doc_score : ℚ
deriving DecidableEq, Repr

/-- The per-key aggregation of score_votes_v2.py (lines 166-177):
`mentions` = group size, `unique_threads` = `nunique` over thread ids,
`vote_score` = sum of weights, `avg_vote` / `avg_doc_score` = means.
In exact rationals a mean over an empty group is 0 (such keys produce no
output row in the source). -/
def aggKey (l : List ScoredMention) (k : List Char) : Agg :=
  let g := l.filter fun r => mentionKey r = k
  { mentions := g.length,
    unique_threads := (g.map fun r => r.thread_id).dedup.length,
    vote_score := (g.map fun r => r.vote_w).sum,
    avg_vote := (g.map fun r => r.vote_w).sum / g.length,
    avg_doc_score := (g.map fun r => r.score).sum / g.length }

/-- The merge rule of rank_models_v2.py (lines 71-85) applied to two partial
aggregates of the same key: sums for `vote_score` and `mentions`, `max` for
`unique_threads` (the source comments this choice), and mention-weighted
means with a zero denominator replaced by 1
(`denom = agg["mentions"].replace(0, 1)`). -/
def mergeAgg (a b : Agg) : Agg :=
  let mentions := a.mentions + b.mentions
  let denom : ℚ := if mentions = 0 then 1 else (mentions : ℚ)
  { mentions := mentions,
    unique_threads := max a.unique_threads b.unique_threads,
    vote_score := a.vote_score + b.vote_score,
    avg_vote := (a.avg_vote * a.mentions + b.avg_vote * b.mentions) / denom,
    avg_doc_score :=
      (a.avg_doc_score * a.mentions + b.avg_doc_score * b.mentions) / denom }

/-- One input row of rank_models_v2.py (`votes_v2.csv` after the numeric
coercion of lines 40-49). -/
structure VoteRow where
  canonical_model : List Char
  mentions : ℚ
  unique_threads : ℚ
  vote_score : ℚ
  avg_vote : ℚ
  avg_doc_score : ℚ
deriving DecidableEq, Repr

/-- A vote row after the re-normalization of rank_models_v2.py lines 52-54:
`canonical_key` and `canonical_model` recomputed through
`ModelNormalizer.normalize`. -/
structure NormRow where
  canonical_key : List Char
  canonical_model : List Char
  mentions : ℚ
  unique_threads : ℚ
  vote_score : ℚ
  avg_vote : ℚ
  avg_doc_score : ℚ
deriving DecidableEq, Repr

def rankNormalize (m : AliasMap) (r : VoteRow) : NormRow :=
  let kd := normalize m r.canonical_model
  { canonical_key := kd.1, canonical_model := kd.2, mentions := r.mentions,
    unique_threads := r.unique_threads, vote_score := r.vote_score,
    avg_vote := r.avg_vote, avg_doc_score := r.avg_doc_score }

/-- `_pick_display` of rank_models_v2.py (lines 61-69): empty if every value
is blank, else the most frequent value (`value_counts`), ties sorted by
`(-len(x), x)` and the first taken.  Note the source counts over the full
series, blanks included, once some value is nonblank. -/
def pick_display (vals : List (List Char)) : List Char :=
  if (vals.filter fun v => !(pyStrip v).isEmpty).isEmpty then []
  else
    let distinct := vals.dedup
    let top := (distinct.map fun v => vals.count v).foldr max 0
    let cands := distinct.filter fun v => vals.count v = top
    (isortBy (fun a b =>
        b.length < a.length || (a.length = b.length && strLt a b)) cands).headD []

/-- Maximum of a list of rationals with first element as seed (pandas
`max` over a nonempty group). -/
def listMax : List ℚ → ℚ
  | [] => 0
  | x :: xs => xs.foldl max x

/-- One output row of rank_models_v2.py before ranking. -/
structure RankAgg where
  canonical_key : List Char
  canonical_model : List Char
  vote_score : ℚ
  mentions : ℚ
  unique_threads : ℚ
  avg_vote : ℚ
  avg_doc_score : ℚ
deriving DecidableEq, Repr

/-- The per-key merge of rank_models_v2.py (lines 71-86) over the normalized
table. -/
def rankAggKey (nrows : List NormRow) (k : List Char) : RankAgg :=
  let g := nrows.filter fun r => r.canonical_key = k
  let mentions := (g.map fun r => r.mentions).sum
  let denom : ℚ := if mentions = 0 then 1 else mentions
  { canonical_key := k,
    canonical_model := pick_display (g.map fun r => r.canonical_model),
    vote_score := (g.map fun r => r.vote_score).sum,
    mentions := mentions,
    unique_threads := listMax (g.map fun r => r.unique_threads),
    avg_vote := (g.map fun r => r.avg_vote * r.mentions).sum / denom,
    avg_doc_score := (g.map fun r => r.avg_doc_score * r.mentions).sum / denom }

/-- `score_v2` (rank_models_v2.py lines 89-93):
`vote_score + 0.75 * unique_threads + 0.10 * mentions`. -/
def scoreV2 (a : RankAgg) : ℚ :=
  a.vote_score + (3 / 4) * a.unique_threads + (1 / 10) * a.mentions

/-- One row of `ranked_models_v2.csv`. -/
structure RankedRow where
  rank : ℕ
  canonical_model : List Char
  canonical_key : List Char
  score_v2 : ℚ
  vote_score : ℚ
  unique_threads : ℚ
  mentions : ℚ
  avg_vote : ℚ
  avg_doc_score : ℚ
deriving DecidableEq, Repr

/-- The ranking stage of rank_models_v2.py (lines 52-99).  `groupby` sorts
the group keys ascending (pandas default `sort=True`, a documented
guarantee).  `sort_values` with `ascending=False` and the default
`kind='quicksort'` (numpy introsort) guarantees only a weakly descending
permutation: the relative order of equal scores is implementation-defined,
since introsort is stable only below its insertion-sort cutoff.  The model
instantiates that contract with a stable insertion sort; universally
quantified theorems about this pipeline assert only sort-agnostic
properties (rank consecutiveness and weak descent in score), and the
model's tie order is relied on only at two-element inputs, where introsort
coincides with insertion sort.  `rank` is the post-sort position plus
one. -/
def rankPipeline (m : AliasMap) (rows : List VoteRow) : List RankedRow :=
  let nrows := rows.map (rankNormalize m)
  let keys := isortBy strLt (nrows.map fun r => r.canonical_key).dedup
  let aggs := keys.map (rankAggKey nrows)
  let sorted := isortBy (fun a b => decide (scoreV2 b < scoreV2 a)) aggs
  sorted.enum.map fun p =>
    { rank := p.1 + 1, canonical_model := p.2.canonical_model,
      canonical_key := p.2.canonical_key, score_v2 := scoreV2 p.2,
      vote_score := p.2.vote_score, unique_threads := p.2.unique_threads,
      mentions := p.2.mentions, avg_vote := p.2.avg_vote,
      avg_doc_score := p.2.avg_doc_score }

/-- Adjacent-pair predicate: `ok` holds for every pair of neighbouring
characters. -/
def adjOk (ok : Char → Char → Bool) : List Char → Bool
  | [] => true
  | [_] => true
  | a :: b :: t => ok a b && adjOk ok (b :: t)

/-- The pair condition under which `re.sub(r"\s*-\s*", "-", s)` is the
identity: no whitespace character adjacent to a hyphen, on either side. -/
def okPair (a b : Char) : Bool :=
  !(pySpace a && b = '-') && !(a = '-' && pySpace b)

/-- The pair condition for single-space runs: no two adjacent whitespace
characters. -/
def noSpPair (a b : Char) : Bool := !(pySpace a && pySpace b)

/-- Word status of the character preceding the continuation after a
letter-free segment `w` was scanned (with `p` the status before `w`). -/
def lastWord (w : List Char) (p : Bool) : Bool :=
  match w.getLast? with
  | some c => pyWord c
  | none => p

/-! ### Generic list lemmas -/

theorem dedup_length_le_of_sublist {α} [DecidableEq α] {l₁ l₂ : List α}
    (h : List.Sublist l₁ l₂) : l₁.dedup.length ≤ l₂.dedup.length := by
  rw [← List.card_toFinset, ← List.card_toFinset]
  refine Finset.card_le_card fun x hx => ?_
  simp only [List.mem_toFinset] at hx ⊢
  exact h.subset hx

theorem sum_eq_zero_of_len_zero (l : List ℚ) (h : l.length = 0) : l.sum = 0 := by
  rw [List.length_eq_zero.mp h]; rfl

/-- The weighted-mean merge identity in exact rationals: partial means
weighted back by their counts recover the global mean, with the source's
zero-denominator guard. -/
theorem weighted_mean_merge (S₁ S₂ : ℚ) (n₁ n₂ : ℕ)
    (h₁ : n₁ = 0 → S₁ = 0) (h₂ : n₂ = 0 → S₂ = 0) :
    (S₁ / (n₁ : ℚ) * (n₁ : ℚ) + S₂ / (n₂ : ℚ) * (n₂ : ℚ)) /
        (if n₁ + n₂ = 0 then (1 : ℚ) else ((n₁ + n₂ : ℕ) : ℚ)) =
      (S₁ + S₂) / ((n₁ + n₂ : ℕ) : ℚ) := by
  have recover : ∀ (S : ℚ) (n : ℕ), (n = 0 → S = 0) → S / (n : ℚ) * (n : ℚ) = S := by
    intro S n h
    rcases Nat.eq_zero_or_pos n with h0 | hpos
    · simp [h0, h h0]
    · have : (n : ℚ) ≠ 0 := by exact_mod_cast Nat.pos_iff_ne_zero.mp hpos
      exact div_mul_cancel₀ S this
  rw [recover S₁ n₁ h₁, recover S₂ n₂ h₂]
  rcases Nat.eq_zero_or_pos (n₁ + n₂) with h0 | hpos
  · have e1 : n₁ = 0 := Nat.eq_zero_of_add_eq_zero_right h0
    have e2 : n₂ = 0 := Nat.eq_zero_of_add_eq_zero_left h0
    simp [h0, h₁ e1, h₂ e2]
  · have hne : n₁ + n₂ ≠ 0 := Nat.pos_iff_ne_zero.mp hpos
    simp [hne]

/-! ### Claim C9: canonical-key stability on the documented spelling
variants -/

/-- Claim C9: the canonical-key function maps the listed spelling variants
to one identical key: `canonicalKey("Q-150") == canonicalKey("Q 150") ==
canonicalKey("Q150")`, and `canonicalKey("Bowers & Wilkins 606") ==
canonicalKey("B&W 606") == canonicalKey("bw606")`. -/
theorem claim_C9 :
    canonical_key "Q-150".toList = canonical_key "Q 150".toList ∧
    canonical_key "Q 150".toList = canonical_key "Q150".toList ∧
    canonical_key "Bowers & Wilkins 606".toList = canonical_key "B&W 606".toList ∧
    canonical_key "B&W 606".toList = canonical_key "bw606".toList := by
  decide

/-! ### Claim C3: canonical keys and their character set

`ModelNormalizer.canonical_key` indeed yields only lowercase ASCII letters
and digits, for every input.  But the claim extends this to "every
canonical_key the pipeline produces, including the grouping key derived
again at the vote-scoring stage", and the vote-scoring stage's
`canonical_key_from_model` keeps the brand upper-case with spaces and
ampersands: on the pipeline-produced `canonical_model` value `KEF Q150` it
returns `KEF Q150` itself, which contains a space. -/

/-- Claim C3, counterexample: the extractor produces the canonical_model
value `KEF Q150` (empty alias table), and the vote-scoring stage's grouping
key for it is `KEF Q150` itself — it contains a space and upper-case
letters, refuting "never contains whitespace ... lowercase letters and
digits only" for the key derived at the vote-scoring stage. -/
theorem claim_C3_counterexample :
    (extractDoc [] [] ⟨"KEF Q150".toList, "t1".toList, "post".toList, 10⟩).map
        (fun r => r.canonical_model) = ["KEF Q150".toList] ∧
    canonical_key_from_model "KEF Q150".toList = "KEF Q150".toList ∧
    ("KEF Q150".toList.contains ' ' = true) ∧
    ("KEF Q150".toList.all (fun c => asciiLowerAlpha c || asciiDigit c) = false) := by
  decide

/-- Claim C3, amended: `ModelNormalizer.canonical_key` is a pure function of
its input string (the alias table is not consulted when deriving the key)
and always consists of lowercase ASCII letters and digits only; the claim's
extension to the vote-scoring stage's regrouping key fails (see the
counterexample). -/
theorem claim_C3_amended (raw : List Char) :
    (canonical_key raw).all (fun c => asciiLowerAlpha c || asciiDigit c) = true := by
  rw [List.all_eq_true]
  intro c hc
  exact (List.mem_filter.mp hc).2

/-! ### Claim C1: aggregation split/merge commutativity

The split/merge identity holds exactly (in exact rationals) for
`vote_score`, `mentions`, `avg_vote` and `avg_doc_score` — but not for
`unique_threads`: the final merge takes the `max` of the partial distinct
counts (rank_models_v2.py line 78, "MAX (safer than sum)"), which
undercounts when the two partitions contribute different threads. -/

/-- Claim C1, counterexample: two mentions of one key in two different
threads, split one per partition.  Aggregating the whole batch gives
`unique_threads = 2`; aggregating each partition and merging gives
`max 1 1 = 1`. -/
theorem claim_C1_counterexample :
    (mergeAgg (aggKey [⟨"KEF Q150".toList, "t1".toList, 1, 2⟩] "KEF Q150".toList)
        (aggKey [⟨"KEF Q150".toList, "t2".toList, 3, 4⟩] "KEF Q150".toList)).unique_threads = 1 ∧
    (aggKey [⟨"KEF Q150".toList, "t1".toList, 1, 2⟩,
        ⟨"KEF Q150".toList, "t2".toList, 3, 4⟩] "KEF Q150".toList).unique_threads = 2 := by
  decide

/-- Claim C1, amended: for every batch of mention rows split into two
partitions and every canonical key, aggregating each partition and merging
with the weighted-mean merge rule reproduces the whole-batch `vote_score`,
`mentions`, `avg_vote` and `avg_doc_score` exactly; `unique_threads`,
however, is merged as the maximum of the two partial distinct-thread
counts, which is only a lower bound on the whole-batch distinct-thread
count. -/
theorem claim_C1_amended (l₁ l₂ : List ScoredMention) (k : List Char) :
    (mergeAgg (aggKey l₁ k) (aggKey l₂ k)).vote_score = (aggKey (l₁ ++ l₂) k).vote_score ∧
    (mergeAgg (aggKey l₁ k) (aggKey l₂ k)).mentions = (aggKey (l₁ ++ l₂) k).mentions ∧
    (mergeAgg (aggKey l₁ k) (aggKey l₂ k)).avg_vote = (aggKey (l₁ ++ l₂) k).avg_vote ∧
    (mergeAgg (aggKey l₁ k) (aggKey l₂ k)).avg_doc_score = (aggKey (l₁ ++ l₂) k).avg_doc_score ∧
    (mergeAgg (aggKey l₁ k) (aggKey l₂ k)).unique_threads =
      max (aggKey l₁ k).unique_threads (aggKey l₂ k).unique_threads ∧
    (mergeAgg (aggKey l₁ k) (aggKey l₂ k)).unique_threads ≤
      (aggKey (l₁ ++ l₂) k).unique_threads := by
  have hfil : (l₁ ++ l₂).filter (fun r => mentionKey r = k) =
      l₁.filter (fun r => mentionKey r = k) ++ l₂.filter (fun r => mentionKey r = k) :=
    List.filter_append _ _
  refine ⟨?_, ?_, ?_, ?_, rfl, ?_⟩
  · simp [mergeAgg, aggKey, hfil]
  · simp [mergeAgg, aggKey, hfil]
  · show (_ / _ * _ + _ / _ * _) / _ = _
    simp only [mergeAgg, aggKey, hfil, List.map_append, List.sum_append,
      List.length_append]
    exact weighted_mean_merge _ _ _ _
      (fun h => sum_eq_zero_of_len_zero _ (by simpa using h))
      (fun h => sum_eq_zero_of_len_zero _ (by simpa using h))
  · show (_ / _ * _ + _ / _ * _) / _ = _
    simp only [mergeAgg, aggKey, hfil, List.map_append, List.sum_append,
      List.length_append]
    exact weighted_mean_merge _ _ _ _
      (fun h => sum_eq_zero_of_len_zero _ (by simpa using h))
      (fun h => sum_eq_zero_of_len_zero _ (by simpa using h))
  · show max _ _ ≤ _
    simp only [aggKey, hfil, List.map_append]
    refine max_le ?_ ?_
    · exact dedup_length_le_of_sublist (List.sublist_append_left _ _)
    · exact dedup_length_le_of_sublist (List.sublist_append_right _ _)

/-! ### Claim C10: the zero-denominator guard of the final merge -/

/-- Claim C10: in the final ranking stage's merge, the weighted-average
denominator replaces a zero summed mention count by 1
(`denom = agg["mentions"].replace(0, 1)`), so the denominator used is never
zero, the computed `avg_vote` genuinely satisfies the division identity
against it, and a merged group whose summed mention count is 0 gets
`avg_vote` and `avg_doc_score` equal to its weighted sums. -/
theorem claim_C10 (nrows : List NormRow) (k : List Char) :
    (if ((nrows.filter fun r => r.canonical_key = k).map fun r => r.mentions).sum = 0
        then (1 : ℚ)
        else ((nrows.filter fun r => r.canonical_key = k).map fun r => r.mentions).sum) ≠ 0 ∧
    (rankAggKey nrows k).avg_vote *
        (if ((nrows.filter fun r => r.canonical_key = k).map fun r => r.mentions).sum = 0
          then (1 : ℚ)
          else ((nrows.filter fun r => r.canonical_key = k).map fun r => r.mentions).sum) =
      ((nrows.filter fun r => r.canonical_key = k).map fun r => r.avg_vote * r.mentions).sum ∧
    (((nrows.filter fun r => r.canonical_key = k).map fun r => r.mentions).sum = 0 →
      (rankAggKey nrows k).avg_vote =
          ((nrows.filter fun r => r.canonical_key = k).map fun r => r.avg_vote * r.mentions).sum ∧
        (rankAggKey nrows k).avg_doc_score =
          ((nrows.filter fun r => r.canonical_key = k).map fun r => r.avg_doc_score * r.mentions).sum) := by
  by_cases h0 : ((nrows.filter fun r => r.canonical_key = k).map fun r => r.mentions).sum = 0
  · refine ⟨by simp [h0], ?_, ?_⟩
    · simp [rankAggKey, h0]
    · intro _
      constructor
      · simp [rankAggKey, h0]
      · simp [rankAggKey, h0]
  · refine ⟨by simp [h0], ?_, fun h => absurd h h0⟩
    simp only [rankAggKey, if_neg h0]
    exact div_mul_cancel₀ _ h0

/-- Claim C10, witness: a concrete merged group whose summed mention count
is zero: the guard denominator is nonzero and the averages equal the
weighted sums. -/
theorem claim_C10_witness :
    (if ((([] : List NormRow).filter fun r => r.canonical_key = "k".toList).map
          fun r => r.mentions).sum = 0
        then (1 : ℚ)
        else ((([] : List NormRow).filter fun r => r.canonical_key = "k".toList).map
          fun r => r.mentions).sum) ≠ 0 ∧
    (rankAggKey ([] : List NormRow) "k".toList).avg_vote =
        ((([] : List NormRow).filter fun r => r.canonical_key = "k".toList).map
          fun r => r.avg_vote * r.mentions).sum ∧
    (rankAggKey ([] : List NormRow) "k".toList).avg_doc_score =
        ((([] : List NormRow).filter fun r => r.canonical_key = "k".toList).map
          fun r => r.avg_doc_score * r.mentions).sum := by
  exact ⟨(claim_C10 [] "k".toList).1, (claim_C10 [] "k".toList).2.2 rfl⟩

/-! ### Claim C4: the confidence partition -/

/-- Every row emitted by the Pass-2 handler is an alias row with confidence
0.95 or an inferred row with confidence 0.65. -/
theorem pass2_row_shape (m : AliasMap) (ctx : List (List Char))
    (tc db : List (List Char × Nat)) (doc : Doc) (tok : List Char) (r : Mention)
    (h : (pass2HandleToken m ctx tc db doc tok).row = some r) :
    (r.method = Method.alias_token ∧ r.confidence = 19 / 20) ∨
      (r.method = Method.inferred_brand ∧ r.confidence = 13 / 20) := by
  unfold pass2HandleToken at h
  cases hA : looks_like_real_model (pyUpper (normalize_display tok)) with
  | false => simp [hA] at h
  | true =>
    simp only [hA] at h
    cases hB : has_alias m (pyUpper (normalize_display tok)) with
    | true =>
      simp [hB] at h
      exact Or.inl (by rw [← h]; exact ⟨rfl, rfl⟩)
    | false =>
      simp only [hB] at h
      cases hC : ctx.isEmpty with
      | true => simp [hC] at h
      | false =>
        simp only [hC] at h
        cases hD : pick_brand_from_thread tc db with
        | none => simp [hD] at h
        | some ib =>
          simp [hD] at h
          exact Or.inr (by rw [← h]; exact ⟨rfl, rfl⟩)

/-- Claim C4: every Mention row the extractor emits has confidence exactly
1.0, 0.95 or 0.65, and method `brand_token` iff confidence 1.0,
`alias_token` iff 0.95, `inferred_brand` iff 0.65. -/
theorem claim_C4 (m : AliasMap) (tc : List (List Char × Nat)) (doc : Doc)
    (row : Mention) (h : row ∈ extractDoc m tc doc) :
    (row.confidence = 1 ∨ row.confidence = 19 / 20 ∨ row.confidence = 13 / 20) ∧
    (row.method = Method.brand_token ↔ row.confidence = 1) ∧
    (row.method = Method.alias_token ↔ row.confidence = 19 / 20) ∧
    (row.method = Method.inferred_brand ↔ row.confidence = 13 / 20) := by
  have hshape : (row.method = Method.brand_token ∧ row.confidence = 1) ∨
      (row.method = Method.alias_token ∧ row.confidence = 19 / 20) ∨
      (row.method = Method.inferred_brand ∧ row.confidence = 13 / 20) := by
    unfold extractDoc at h
    rcases List.mem_append.mp h with h1 | h2
    · rcases List.mem_map.mp h1 with ⟨pm, _, rfl⟩
      exact Or.inl ⟨rfl, rfl⟩
    · rcases List.mem_filterMap.mp h2 with ⟨tok, _, hsome⟩
      rcases pass2_row_shape _ _ _ _ _ _ _ hsome with h' | h'
      · exact Or.inr (Or.inl h')
      · exact Or.inr (Or.inr h')
  have ha : (1 : ℚ) ≠ 19 / 20 := by norm_num
  have hb : (1 : ℚ) ≠ 13 / 20 := by norm_num
  have hc : (19 / 20 : ℚ) ≠ 13 / 20 := by norm_num
  rcases hshape with ⟨hm, hcf⟩ | ⟨hm, hcf⟩ | ⟨hm, hcf⟩
  · refine ⟨Or.inl hcf, ⟨fun _ => hcf, fun _ => hm⟩, ?_, ?_⟩
    · exact ⟨fun h' => absurd hm (h' ▸ by simp), fun h' => absurd (hcf ▸ h') ha⟩
    · exact ⟨fun h' => absurd hm (h' ▸ by simp), fun h' => absurd (hcf ▸ h') hb⟩
  · refine ⟨Or.inr (Or.inl hcf), ?_, ⟨fun _ => hcf, fun _ => hm⟩, ?_⟩
    · exact ⟨fun h' => absurd hm (h' ▸ by simp), fun h' => absurd (hcf ▸ h') (Ne.symm ha)⟩
    · exact ⟨fun h' => absurd hm (h' ▸ by simp), fun h' => absurd (hcf ▸ h') hc⟩
  · refine ⟨Or.inr (Or.inr hcf), ?_, ?_, ⟨fun _ => hcf, fun _ => hm⟩⟩
    · exact ⟨fun h' => absurd hm (h' ▸ by simp), fun h' => absurd (hcf ▸ h') (Ne.symm hb)⟩
    · exact ⟨fun h' => absurd hm (h' ▸ by simp), fun h' => absurd (hcf ▸ h') (Ne.symm hc)⟩

/-- Claim C4, witness: the Pass-1 row extracted from the document
`KEF Q150` satisfies the confidence partition. -/
theorem claim_C4_witness :
    (let row : Mention :=
      { canonical_key := "kefq150".toList, canonical_model := "KEF Q150".toList,
        brand := "KEF".toList, model_token := "Q150".toList,
        found_text := "KEF Q150".toList, method := Method.brand_token,
        confidence := 1, doc_kind := "post".toList, thread_id := "t1".toList,
        score := 10 }
     row ∈ extractDoc [] [] ⟨"KEF Q150".toList, "t1".toList, "post".toList, 10⟩ ∧
       (row.confidence = 1 ∨ row.confidence = 19 / 20 ∨ row.confidence = 13 / 20) ∧
       (row.method = Method.brand_token ↔ row.confidence = 1)) :=
  ⟨by decide,
   (claim_C4 [] [] ⟨"KEF Q150".toList, "t1".toList, "post".toList, 10⟩ _ (by decide)).1,
   (claim_C4 [] [] ⟨"KEF Q150".toList, "t1".toList, "post".toList, 10⟩ _ (by decide)).2.1⟩

/-! ### Claim C6: the speaker-context gate -/

/-- Claim C6: a standalone token with no alias match, in a document with no
speaker-context word, never produces a Mention; its only trace is the
candidate tracker (where it is recorded exactly when it survives the
junk-token filter). -/
theorem claim_C6 (m : AliasMap) (tc db : List (List Char × Nat)) (doc : Doc)
    (tok : List Char)
    (h1 : extract_context_words doc.text = [])
    (h2 : has_alias m (pyUpper (normalize_display tok)) = false) :
    (pass2HandleToken m (extract_context_words doc.text) tc db doc tok).row = none ∧
    (pass2HandleToken m (extract_context_words doc.text) tc db doc tok).candidate =
      looks_like_real_model (pyUpper (normalize_display tok)) := by
  rw [h1]
  unfold pass2HandleToken
  by_cases hl : looks_like_real_model (pyUpper (normalize_display tok)) = true
  · simp [hl, h2]
  · simp only [Bool.not_eq_true] at hl
    simp [hl]

/-- Claim C6, witness: the token `Q9999` in the document `test Q9999 here`
(no speaker-context word, empty alias table) produces no Mention but is
recorded as a candidate. -/
theorem claim_C6_witness :
    (pass2HandleToken [] (extract_context_words "test Q9999 here".toList) [] []
        ⟨"test Q9999 here".toList, "t1".toList, "comment".toList, 0⟩
        "Q9999".toList).row = none ∧
    (pass2HandleToken [] (extract_context_words "test Q9999 here".toList) [] []
        ⟨"test Q9999 here".toList, "t1".toList, "comment".toList, 0⟩
        "Q9999".toList).candidate =
      looks_like_real_model (pyUpper (normalize_display "Q9999".toList)) :=
  claim_C6 [] [] [] ⟨"test Q9999 here".toList, "t1".toList, "comment".toList, 0⟩
    "Q9999".toList (by decide) (by decide)

/-! ### Claim C8: the shape of model tokens

The spec says the model-token pattern matches a 2-22 character run; the
actual pattern `[A-Z]?[A-Z0-9][A-Z0-9.\-]{1,20}\d[A-Z0-9.\-]{0,20}` matches
runs of 3 to 43 characters (1+1+20+1+20), and a 23-character digit run is
matched whole. -/

theorem mem_take_of_le_takeWhile {p : Char → Bool} :
    ∀ (t : List Char) (k : Nat), k ≤ (t.takeWhile p).length →
      ∀ c ∈ t.take k, p c = true := by
  intro t
  induction t with
  | nil => intro k h c hc; simp at hc
  | cons a t ih =>
    intro k h c hc
    cases k with
    | zero => simp at hc
    | succ k =>
      by_cases hp : p a
      · rw [List.takeWhile_cons, if_pos hp] at h
        simp only [List.length_cons, Nat.succ_le_succ_iff] at h
        rw [List.take_succ_cons] at hc
        rcases List.mem_cons.mp hc with rfl | hc
        · exact hp
        · exact ih k h c hc
      · rw [List.takeWhile_cons, if_neg hp] at h
        simp at h



theorem digit_tokClass {c : Char} (h : asciiDigit c = true) : tokClass c = true := by
  simp [tokClass, asciiAlnum, h]

theorem mem_downFrom {k m : Nat} (h : k ∈ downFrom m) : k ≤ m := by
  unfold downFrom at h
  rw [List.mem_reverse, List.mem_range] at h
  omega

/-- Specification of the counted tail of `MODEL_TOKEN_RE`: every match
consists of 2 to 41 characters of the token class and contains a digit. -/
theorem modelTryC_spec (t tl rest : List Char) (h : modelTryC t = some (tl, rest)) :
    (∀ c ∈ tl, tokClass c = true) ∧ (∃ c ∈ tl, asciiDigit c = true) ∧
      2 ≤ tl.length ∧ tl.length ≤ 41 := by
  unfold modelTryC at h
  rcases List.exists_of_findSome?_eq_some h with ⟨k, hk, hkeq⟩
  have hkle : k ≤ min 20 (t.takeWhile tokClass).length := mem_downFrom hk
  split at hkeq
  · exact absurd hkeq (by simp)
  · split at hkeq
    · rename_i d hd
      split at hkeq
      · rename_i hdig
        rcases List.exists_of_findSome?_eq_some hkeq with ⟨j, hj, hjeq⟩
        have hjle : j ≤ min 20 ((t.drop (k + 1)).takeWhile tokClass).length :=
          mem_downFrom hj
        split at hjeq
        · exact absurd hjeq (by simp)
        · simp only [Option.some.injEq, Prod.mk.injEq] at hjeq
          obtain ⟨rfl, rfl⟩ := hjeq
          have hkt : k ≤ (t.takeWhile tokClass).length :=
            le_trans hkle (min_le_right _ _)
          have hjt : j ≤ ((t.drop (k + 1)).takeWhile tokClass).length :=
            le_trans hjle (min_le_right _ _)
          have hklen : (t.take k).length = k := by
            rw [List.length_take]
            have hw : (t.takeWhile tokClass).length ≤ t.length :=
              ( List.takeWhile_prefix _).length_le
            omega
          have hjlen : ((t.drop (k + 1)).take j).length = j := by
            rw [List.length_take]
            have hw : ((t.drop (k + 1)).takeWhile tokClass).length ≤ (t.drop (k + 1)).length :=
              ( List.takeWhile_prefix _).length_le
            omega
          refine ⟨?_, ⟨d, by simp, hdig⟩, ?_, ?_⟩
          · intro c hc
            rcases List.mem_append.mp hc with hc | hc
            · exact mem_take_of_le_takeWhile t k hkt c hc
            · rcases List.mem_cons.mp hc with rfl | hc
              · exact digit_tokClass hdig
              · exact mem_take_of_le_takeWhile _ j hjt c hc
          · simp only [List.length_append, List.length_cons, hklen, hjlen]
            omega
          · simp only [List.length_append, List.length_cons, hklen, hjlen]
            have h20 : k ≤ 20 := le_trans hkle (min_le_left _ _)
            have h20' : j ≤ 20 := le_trans hjle (min_le_left _ _)
            omega
      · exact absurd hkeq (by simp)
    · exact absurd hkeq (by simp)

/-- Specification of `MODEL_TOKEN_RE` with the optional letter absent:
3 to 42 characters of the token class, containing a digit. -/
theorem modelTryB_spec (l tok rest : List Char) (h : modelTryB l = some (tok, rest)) :
    (∀ c ∈ tok, tokClass c = true) ∧ (∃ c ∈ tok, asciiDigit c = true) ∧
      3 ≤ tok.length ∧ tok.length ≤ 42 := by
  unfold modelTryB at h
  split at h
  · rename_i b t
    split at h
    · rename_i hb
      cases hC : modelTryC t with
      | none => rw [hC] at h; exact absurd h (by simp)
      | some p =>
        rw [hC] at h
        simp only [Option.map_some', Option.some.injEq, Prod.mk.injEq] at h
        obtain ⟨rfl, rfl⟩ := h
        obtain ⟨h1, ⟨d, hd, hdd⟩, h3, h4⟩ := modelTryC_spec t p.1 p.2 (by rw [hC])
        refine ⟨?_, ⟨d, List.mem_cons_of_mem _ hd, hdd⟩, ?_, ?_⟩
        · intro c hc
          rcases List.mem_cons.mp hc with rfl | hc
          · simp [tokClass, hb]
          · exact h1 c hc
        · simp only [List.length_cons]; omega
        · simp only [List.length_cons]; omega
    · exact absurd h (by simp)
  · exact absurd h (by simp)

/-- Specification of `MODEL_TOKEN_RE`: every matched token is made of
letters, digits, dots and hyphens, contains at least one digit, and is 3 to
43 characters long. -/
theorem modelTry_spec (l tok rest : List Char) (h : modelTry l = some (tok, rest)) :
    (∀ c ∈ tok, tokClass c = true) ∧ (∃ c ∈ tok, asciiDigit c = true) ∧
      3 ≤ tok.length ∧ tok.length ≤ 43 := by
  unfold modelTry at h
  split at h
  · rename_i c cs
    split at h
    · rename_i hc
      split at h
      · rename_i p hp
        simp only [Option.some.injEq, Prod.mk.injEq] at h
        obtain ⟨rfl, rfl⟩ := h
        obtain ⟨h1, ⟨d, hd, hdd⟩, h3, h4⟩ := modelTryB_spec cs p.1 p.2 hp
        refine ⟨?_, ⟨d, List.mem_cons_of_mem _ hd, hdd⟩, ?_, ?_⟩
        · intro x hx
          rcases List.mem_cons.mp hx with rfl | hx
          · simp [tokClass, asciiAlnum, hc]
          · exact h1 x hx
        · simp only [List.length_cons]; omega
        · simp only [List.length_cons]; omega
      · obtain ⟨h1, h2, h3, h4⟩ := modelTryB_spec _ _ _ h
        exact ⟨h1, h2, h3, by omega⟩
    · obtain ⟨h1, h2, h3, h4⟩ := modelTryB_spec _ _ _ h
      exact ⟨h1, h2, h3, by omega⟩
  · exact absurd h (by simp)

/-- Every token emitted by the standalone scanner satisfies the
`MODEL_TOKEN_RE` shape. -/
theorem standaloneF_spec :
    ∀ (f : Nat) (p : Bool) (l tok : List Char), tok ∈ standaloneF f p l →
      (∀ c ∈ tok, tokClass c = true) ∧ (∃ c ∈ tok, asciiDigit c = true) ∧
        3 ≤ tok.length ∧ tok.length ≤ 43 := by
  intro f
  induction f with
  | zero => intro p l tok h; exact absurd h (by simp [standaloneF])
  | succ f ih =>
    intro p l tok h
    cases l with
    | nil => exact absurd h (by simp [standaloneF])
    | cons c cs =>
      unfold standaloneF at h
      split at h
      · split at h
        · rename_i a b hpr
          rcases List.mem_cons.mp h with rfl | h
          · exact modelTry_spec (c :: cs) tok b hpr
          · exact ih _ _ _ h
        · exact ih _ _ _ h
      · exact ih _ _ _ h

/-- Claim C8, counterexample: a 23-character digit run is matched whole as
one model token, refuting the claimed 2-22 character bound. -/
theorem claim_C8_counterexample :
    standaloneTokens (List.replicate 23 '1') = [List.replicate 23 '1'] ∧
    (List.replicate 23 '1').length = 23 ∧ ¬(23 ≤ 22) := by
  refine ⟨by decide, by decide, by omega⟩

/-- Claim C8, amended: every string matched as a model token (the pattern
used in both Pass 1 and Pass 2) contains at least one digit and is a run of
letters, digits, dots and hyphens whose length is between 3 and 43
characters (1 optional leading letter + 1 + 1..20 + 1 + 0..20), optionally
beginning with a bare letter. -/
theorem claim_C8_amended (text tok : List Char) (h : tok ∈ standaloneTokens text) :
    (∀ c ∈ tok, tokClass c = true) ∧ (∃ c ∈ tok, asciiDigit c = true) ∧
      3 ≤ tok.length ∧ tok.length ≤ 43 :=
  standaloneF_spec text.length false text tok h

/-- Claim C8, witness: the 23-digit token of the counterexample satisfies
the amended bounds. -/
theorem claim_C8_witness :
    (∀ c ∈ List.replicate 23 '1', tokClass c = true) ∧
      (∃ c ∈ List.replicate 23 '1', asciiDigit c = true) ∧
      3 ≤ (List.replicate 23 '1').length ∧ (List.replicate 23 '1').length ≤ 43 :=
  claim_C8_amended (List.replicate 23 '1') (List.replicate 23 '1') (by decide)

/-! ### Claim C2: the ranking order and its tie-break

The source sorts by `score_v2` only (`agg.sort_values("score_v2",
ascending=False)`, rank_models_v2.py line 95) — there is no display-name
tie-break.  Equal scores keep the order the rows had before the sort, which
is the `groupby`'s ascending `canonical_key` order, and canonical_key order
need not agree with display-name order. -/

theorem mem_insertBy {α} (lt : α → α → Bool) (x : α) :
    ∀ (l : List α) (a : α), a ∈ insertBy lt x l ↔ a = x ∨ a ∈ l := by
  intro l
  induction l with
  | nil => intro a; simp [insertBy]
  | cons y ys ih =>
    intro a
    unfold insertBy
    split
    · simp [or_comm, or_assoc, or_left_comm]
    · simp only [List.mem_cons, ih a]
      tauto

/-- Order invariant of one stable insertion: the accumulator stays
`R`-pairwise provided `lt`-precedence implies `R` and propagates over it,
and the new element relates back to every element it does not strictly
precede. -/
theorem insertBy_pairwise {α} (lt : α → α → Bool) (R : α → α → Prop)
    (htrans : ∀ a b c, lt a b = true → R b c → R a c)
    (hin : ∀ a b, lt a b = true → R a b) (x : α) :
    ∀ (acc : List α), acc.Pairwise R →
      (∀ y ∈ acc, lt x y = false → R y x) →
      (insertBy lt x acc).Pairwise R := by
  intro acc
  induction acc with
  | nil => intro _ _; simp [insertBy]
  | cons y ys ih =>
    intro hacc hpass
    rcases List.pairwise_cons.mp hacc with ⟨hy, hys⟩
    unfold insertBy
    split
    · rename_i hxy
      refine List.pairwise_cons.mpr ⟨?_, hacc⟩
      intro z hz
      rcases List.mem_cons.mp hz with rfl | hz
      · exact hin x z hxy
      · exact htrans x y z hxy (hy z hz)
    · rename_i hxy
      refine List.pairwise_cons.mpr ⟨?_, ?_⟩
      · intro z hz
        rcases (mem_insertBy lt x ys z).mp hz with rfl | hz
        · exact hpass y (List.mem_cons_self y ys) (Bool.not_eq_true _ ▸ hxy)
        · exact hy z hz
      · exact ih hys fun z hz hlt => hpass z (List.mem_cons_of_mem y hz) hlt

theorem strLt_trans : ∀ a b c : List Char,
    strLt a b = true → strLt b c = true → strLt a c = true := by
  intro a
  induction a with
  | nil =>
    intro b c hab hbc
    cases b with
    | nil => exact hbc
    | cons y ys =>
      cases c with
      | nil => simp [strLt] at hbc
      | cons z zs => simp [strLt]
  | cons x xs ih =>
    intro b c hab hbc
    cases b with
    | nil => simp [strLt] at hab
    | cons y ys =>
      cases c with
      | nil => simp [strLt] at hbc
      | cons z zs =>
        simp only [strLt] at hab hbc ⊢
        split at hab
        · rename_i h1
          split at hbc
          · rename_i h2
            rw [if_pos (by omega)]
          · split at hbc
            · simp at hbc
            · rename_i h2 h3
              have : y.toNat = z.toNat := by omega
              rw [if_pos (by omega)]
        · split at hab
          · simp at hab
          · rename_i h1 h2
            have hxy : x.toNat = y.toNat := by omega
            split at hbc
            · rename_i h3
              rw [if_pos (by omega)]
            · split at hbc
              · simp at hbc
              · rename_i h3 h4
                have hyz : y.toNat = z.toNat := by omega
                rw [if_neg (by omega), if_neg (by omega)]
                exact ih ys zs hab hbc

theorem char_eq_of_toNat_eq {a b : Char} (h : a.toNat = b.toNat) : a = b := by
  rw [← Char.ofNat_toNat a, ← Char.ofNat_toNat b, h]

theorem strLt_total : ∀ a b : List Char, a ≠ b →
    strLt a b = true ∨ strLt b a = true := by
  intro a
  induction a with
  | nil =>
    intro b hne
    cases b with
    | nil => exact absurd rfl hne
    | cons y ys => left; simp [strLt]
  | cons x xs ih =>
    intro b hne
    cases b with
    | nil => right; simp [strLt]
    | cons y ys =>
      by_cases hx : x.toNat < y.toNat
      · left; simp [strLt, hx]
      · by_cases hy : y.toNat < x.toNat
        · right; simp [strLt, hy]
        · have hxy : x = y := char_eq_of_toNat_eq (by omega)
          subst hxy
          have hne' : xs ≠ ys := fun h => hne (by rw [h])
          rcases ih ys hne' with h | h
          · left; simp [strLt, h]
          · right; simp [strLt, h]

/-- The insertion sort by `strLt` of a duplicate-free list is strictly
ascending (generalized over the accumulator for the fold). -/
theorem isortBy_strLt_pairwise :
    ∀ (l acc : List (List Char)), l.Nodup →
      acc.Pairwise (fun a b => strLt a b = true) →
      (∀ y ∈ acc, ∀ x ∈ l, y ≠ x) →
      (l.foldl (fun acc x => insertBy strLt x acc) acc).Pairwise
        (fun a b => strLt a b = true) := by
  intro l
  induction l with
  | nil => intro acc _ h _; simpa using h
  | cons x xs ih =>
    intro acc hnd hacc hdisj
    simp only [List.foldl_cons]
    apply ih _ (List.nodup_cons.mp hnd).2
    · refine insertBy_pairwise strLt _ strLt_trans (fun a b h => h) x acc hacc ?_
      intro y hy hlt
      rcases strLt_total y x (hdisj y hy x (List.mem_cons_self x xs)) with h | h
      · exact h
      · rw [hlt] at h; exact absurd h (by simp)
    · intro y hy z hz
      rcases (mem_insertBy strLt x acc y).mp hy with rfl | hy
      · exact fun he => (List.nodup_cons.mp hnd).1 (he ▸ hz)
      · exact hdisj y hy z (List.mem_cons_of_mem _ hz)

/-- The stable score sort of rank_models_v2.py: if the input rows are in
strictly ascending key order, the output is weakly descending in score and
equal scores stay in ascending key order. -/
theorem score_sort_pairwise :
    ∀ (l acc : List RankAgg),
      l.Pairwise (fun a b => strLt a.canonical_key b.canonical_key = true) →
      acc.Pairwise (fun a b => scoreV2 b < scoreV2 a ∨
        (scoreV2 a = scoreV2 b ∧ strLt a.canonical_key b.canonical_key = true)) →
      (∀ y ∈ acc, ∀ x ∈ l, strLt y.canonical_key x.canonical_key = true) →
      (l.foldl (fun acc x => insertBy (fun a b => decide (scoreV2 b < scoreV2 a)) x acc)
          acc).Pairwise
        (fun a b => scoreV2 b < scoreV2 a ∨
          (scoreV2 a = scoreV2 b ∧ strLt a.canonical_key b.canonical_key = true)) := by
  intro l
  induction l with
  | nil => intro acc _ h _; simpa using h
  | cons x xs ih =>
    intro acc hl hacc hkey
    rcases List.pairwise_cons.mp hl with ⟨hx, hxs⟩
    simp only [List.foldl_cons]
    apply ih _ hxs
    · refine insertBy_pairwise _ _ ?_ ?_ x acc hacc ?_
      · intro a b c hab hbc
        have hab' : scoreV2 b < scoreV2 a := of_decide_eq_true hab
        rcases hbc with h | ⟨h, _⟩
        · exact Or.inl (lt_trans h hab')
        · exact Or.inl (h ▸ hab')
      · intro a b h
        exact Or.inl (of_decide_eq_true h)
      · intro y hy hlt
        have hle : scoreV2 x ≤ scoreV2 y := not_lt.mp (of_decide_eq_false hlt)
        rcases lt_or_eq_of_le hle with h | h
        · exact Or.inl h
        · exact Or.inr ⟨h.symm, hkey y hy x (List.mem_cons_self x xs)⟩
    · intro y hy z hz
      rcases (mem_insertBy _ x acc y).mp hy with rfl | hy
      · exact hx z hz
      · exact hkey y hy z (List.mem_cons_of_mem _ hz)

theorem snd_mem_of_mem_enumFrom {α} :
    ∀ (l : List α) (n : Nat) (q : Nat × α), q ∈ l.enumFrom n → q.2 ∈ l := by
  intro l
  induction l with
  | nil => intro n q h; simp [List.enumFrom] at h
  | cons x xs ih =>
    intro n q h
    rcases List.mem_cons.mp h with rfl | h
    · exact List.mem_cons_self x xs
    · exact List.mem_cons_of_mem x (ih (n + 1) q h)

theorem pairwise_enumFrom {α} (S : α → α → Prop) :
    ∀ (l : List α) (n : Nat), l.Pairwise S →
      (l.enumFrom n).Pairwise fun p q => S p.2 q.2 := by
  intro l
  induction l with
  | nil => intro n _; simp
  | cons x xs ih =>
    intro n h
    rcases List.pairwise_cons.mp h with ⟨hx, hxs⟩
    refine List.pairwise_cons.mpr ⟨?_, ih (n + 1) hxs⟩
    intro q hq
    exact hx q.2 (snd_mem_of_mem_enumFrom xs (n + 1) q hq)

/-- Claim C2, counterexample: on the vote rows with `canonical_model`
values `BA 1` and `B&W 606` and all-zero numeric columns, the two ranked
entities have equal scores, yet rank 1 goes to `BA 1` (the smaller
canonical_key `ba1` < `bw606`) while the lexicographically smaller display
name `B&W606` gets rank 2 — refuting the claimed display-name tie-break.
At this two-element size numpy's introsort is an insertion sort, so the
concrete trace is exact for the real program. -/
theorem claim_C2_counterexample :
    ((rankPipeline []
        [⟨"BA 1".toList, 0, 0, 0, 0, 0⟩, ⟨"B&W 606".toList, 0, 0, 0, 0, 0⟩]).map
      fun r => (r.rank, r.canonical_model)) =
        [(1, "BA 1".toList), (2, "B&W606".toList)] ∧
    ((rankPipeline []
        [⟨"BA 1".toList, 0, 0, 0, 0, 0⟩, ⟨"B&W 606".toList, 0, 0, 0, 0, 0⟩]).map
      fun r => r.score_v2) = [0, 0] ∧
    strLt "B&W606".toList "BA 1".toList = true := by
  have hn : ([(⟨"BA 1".toList, 0, 0, 0, 0, 0⟩ : VoteRow),
      ⟨"B&W 606".toList, 0, 0, 0, 0, 0⟩].map (rankNormalize [])) =
      [⟨['b', 'a', '1'], ['B', 'A', ' ', '1'], 0, 0, 0, 0, 0⟩,
       ⟨['b', 'w', '6', '0', '6'], ['B', '&', 'W', '6', '0', '6'], 0, 0, 0, 0, 0⟩] := by decide
  have hfa : (([⟨['b', 'a', '1'], ['B', 'A', ' ', '1'], 0, 0, 0, 0, 0⟩,
       ⟨['b', 'w', '6', '0', '6'], ['B', '&', 'W', '6', '0', '6'], 0, 0, 0, 0, 0⟩] : List NormRow).filter
        fun r => r.canonical_key = ['b', 'a', '1']) = [⟨['b', 'a', '1'], ['B', 'A', ' ', '1'], 0, 0, 0, 0, 0⟩] := by decide
  have hfb : (([⟨['b', 'a', '1'], ['B', 'A', ' ', '1'], 0, 0, 0, 0, 0⟩,
       ⟨['b', 'w', '6', '0', '6'], ['B', '&', 'W', '6', '0', '6'], 0, 0, 0, 0, 0⟩] : List NormRow).filter
        fun r => r.canonical_key = ['b', 'w', '6', '0', '6']) = [⟨['b', 'w', '6', '0', '6'], ['B', '&', 'W', '6', '0', '6'], 0, 0, 0, 0, 0⟩] := by decide
  have hA : scoreV2 (rankAggKey [⟨['b', 'a', '1'], ['B', 'A', ' ', '1'], 0, 0, 0, 0, 0⟩,
       ⟨['b', 'w', '6', '0', '6'], ['B', '&', 'W', '6', '0', '6'], 0, 0, 0, 0, 0⟩] ['b', 'a', '1']) = 0 := by
    simp [scoreV2, rankAggKey, hfa, listMax]
  have hB : scoreV2 (rankAggKey [⟨['b', 'a', '1'], ['B', 'A', ' ', '1'], 0, 0, 0, 0, 0⟩,
       ⟨['b', 'w', '6', '0', '6'], ['B', '&', 'W', '6', '0', '6'], 0, 0, 0, 0, 0⟩] ['b', 'w', '6', '0', '6']) = 0 := by
    simp [scoreV2, rankAggKey, hfb, listMax]
  have hAm : (rankAggKey [⟨['b', 'a', '1'], ['B', 'A', ' ', '1'], 0, 0, 0, 0, 0⟩,
       ⟨['b', 'w', '6', '0', '6'], ['B', '&', 'W', '6', '0', '6'], 0, 0, 0, 0, 0⟩] ['b', 'a', '1']).canonical_model = ['B', 'A', ' ', '1'] := by decide
  have hBm : (rankAggKey [⟨['b', 'a', '1'], ['B', 'A', ' ', '1'], 0, 0, 0, 0, 0⟩,
       ⟨['b', 'w', '6', '0', '6'], ['B', '&', 'W', '6', '0', '6'], 0, 0, 0, 0, 0⟩] ['b', 'w', '6', '0', '6']).canonical_model = ['B', '&', 'W', '6', '0', '6'] := by decide
  have hkeys2 : isortBy strLt (([['b', 'a', '1'], ['b', 'w', '6', '0', '6']] : List (List Char)).dedup) =
      [['b', 'a', '1'], ['b', 'w', '6', '0', '6']] := by decide
  have hsorted : isortBy
      (fun a b : RankAgg => decide (scoreV2 b < scoreV2 a))
      [rankAggKey [⟨['b', 'a', '1'], ['B', 'A', ' ', '1'], 0, 0, 0, 0, 0⟩,
       ⟨['b', 'w', '6', '0', '6'], ['B', '&', 'W', '6', '0', '6'], 0, 0, 0, 0, 0⟩] ['b', 'a', '1'], rankAggKey [⟨['b', 'a', '1'], ['B', 'A', ' ', '1'], 0, 0, 0, 0, 0⟩,
       ⟨['b', 'w', '6', '0', '6'], ['B', '&', 'W', '6', '0', '6'], 0, 0, 0, 0, 0⟩] ['b', 'w', '6', '0', '6']] =
      [rankAggKey [⟨['b', 'a', '1'], ['B', 'A', ' ', '1'], 0, 0, 0, 0, 0⟩,
       ⟨['b', 'w', '6', '0', '6'], ['B', '&', 'W', '6', '0', '6'], 0, 0, 0, 0, 0⟩] ['b', 'a', '1'], rankAggKey [⟨['b', 'a', '1'], ['B', 'A', ' ', '1'], 0, 0, 0, 0, 0⟩,
       ⟨['b', 'w', '6', '0', '6'], ['B', '&', 'W', '6', '0', '6'], 0, 0, 0, 0, 0⟩] ['b', 'w', '6', '0', '6']] := by
    unfold isortBy
    simp only [List.foldl_cons, List.foldl_nil]
    show insertBy _ _ [_] = _
    unfold insertBy
    rw [if_neg]
    · rfl
    · rw [hA, hB]
      simp
  refine ⟨?_, ?_, by decide⟩
  all_goals
    simp only [rankPipeline, hn, List.map_cons, List.map_nil]
    rw [hkeys2]
    simp only [List.map_cons, List.map_nil]
    rw [hsorted]
    simp [List.enum, List.enumFrom, hAm, hBm, hA, hB]

theorem ranks_enumFrom_range {α β} (g : Nat × α → β) (rk : β → ℕ)
    (hg : ∀ p, rk (g p) = p.1 + 1) :
    ∀ (l : List α) (n : Nat),
      ((l.enumFrom n).map g).map rk = List.range' (n + 1) l.length := by
  intro l
  induction l with
  | nil => intro n; simp
  | cons x xs ih =>
    intro n
    show rk (g (n, x)) :: _ = _
    rw [hg (n, x), List.length_cons, List.range'_succ, ih (n + 1)]

theorem ranks_are_range {α β} (g : Nat × α → β) (rk : β → ℕ)
    (hg : ∀ p, rk (g p) = p.1 + 1) (l : List α) :
    (l.enum.map g).map rk = List.range' 1 (l.enum.map g).length := by
  rw [List.length_map, List.enum_length]
  exact ranks_enumFrom_range g rk hg l 0

/-- Claim C2, amended: ranks are consecutive and 1-based (rank = position
after the sort, plus one), and the output is weakly descending in
`score_v2`.  No display-name tie-break exists; the relative order of
equal-score entities is implementation-defined (the sort is pandas'
default numpy quicksort, which is not stable in general), so no tie order
is asserted. -/
theorem claim_C2_amended (m : AliasMap) (rows : List VoteRow) :
    ((rankPipeline m rows).map fun r => r.rank) =
      List.range' 1 (rankPipeline m rows).length ∧
    (rankPipeline m rows).Pairwise (fun a b => b.score_v2 ≤ a.score_v2) := by
  constructor
  · show ((_ : List RankAgg).enum.map _).map _ =
      List.range' 1 ((_ : List RankAgg).enum.map _).length
    apply ranks_are_range
    intro p
    rfl
  · show ((_ : List RankAgg).enum.map _).Pairwise _
    rw [List.pairwise_map]
    have hkeys : (isortBy strLt
        (((rows.map (rankNormalize m)).map fun r => r.canonical_key).dedup)).Pairwise
        (fun a b => strLt a b = true) := by
      refine isortBy_strLt_pairwise _ [] (List.nodup_dedup _) (by simp) (by simp)
    have haggs : ((isortBy strLt
        (((rows.map (rankNormalize m)).map fun r => r.canonical_key).dedup)).map
          (rankAggKey (rows.map (rankNormalize m)))).Pairwise
        (fun a b => strLt a.canonical_key b.canonical_key = true) := by
      rw [List.pairwise_map]
      exact hkeys
    have hsorted := score_sort_pairwise _ [] haggs (by simp) (by simp)
    have henum := pairwise_enumFrom _ _ 0 hsorted
    exact henum.imp fun h => h.elim le_of_lt (fun hec => le_of_eq hec.1.symm)

/-! ### Claim C7: idempotence of display normalization

`normalize_display` is a composition of seven stages.  The development
below shows each stage leaves the final output fixed: the output satisfies
a family of invariants (no edge whitespace, no Unicode dashes, no
whitespace adjacent to a hyphen, no trailing punctuation, single-space
runs, and no residual letter-digit fusion opportunities), and each stage
is the identity on strings satisfying its invariant. -/

theorem pySpace_mem {c : Char} (h : pySpace c = true) :
    c ∈ [' ', '\t', '\n', '\x0b', '\x0c', '\r',
   '\x1c', '\x1d', '\x1e', '\x1f', '\x85', '\xa0',
   ' ', ' ', ' ', ' ', ' ', ' ', ' ',
   ' ', ' ', ' ', ' ', ' ',
   ' ', ' ', ' ', ' ', '　'] := by
  have h' : List.elem c [' ', '\t', '\n', '\x0b', '\x0c', '\r',
   '\x1c', '\x1d', '\x1e', '\x1f', '\x85', '\xa0',
   ' ', ' ', ' ', ' ', ' ', ' ', ' ',
   ' ', ' ', ' ', ' ', ' ',
   ' ', ' ', ' ', ' ', '　'] = true := h
  exact List.elem_iff.mp h'

theorem trailPunct_cases {c : Char} (h : trailPunct c = true) :
    pySpace c = true ∨
      c ∈ ['.', ',', ';', ':', '!', '?', ')', ']', '}', '>', '"', '\'',
        '’', '”'] := by
  rcases Bool.or_eq_true _ _ |>.mp h with h' | h'
  · exact Or.inl h'
  · exact Or.inr (List.elem_iff.mp h')

theorem alpha_toNat {c : Char} (h : asciiAlpha c = true) :
    (65 ≤ c.toNat ∧ c.toNat ≤ 90) ∨ (97 ≤ c.toNat ∧ c.toNat ≤ 122) := by
  simp only [asciiAlpha, asciiUpperAlpha, asciiLowerAlpha, Bool.or_eq_true,
    Bool.and_eq_true, decide_eq_true_eq] at h
  rcases h with ⟨h1, h2⟩ | ⟨h1, h2⟩
  · exact Or.inl ⟨h1, h2⟩
  · exact Or.inr ⟨h1, h2⟩

theorem digit_toNat {c : Char} (h : asciiDigit c = true) :
    48 ≤ c.toNat ∧ c.toNat ≤ 57 := by
  simp only [asciiDigit, Bool.and_eq_true, decide_eq_true_eq] at h
  exact ⟨h.1, h.2⟩

theorem alpha_not_space {c : Char} (ha : asciiAlpha c = true) :
    pySpace c = false := by
  cases hs : pySpace c
  · rfl
  · have hm := pySpace_mem hs
    exact absurd ha (by fin_cases hm <;> decide)

theorem alpha_not_digit {c : Char} (ha : asciiAlpha c = true) :
    asciiDigit c = false := by
  cases hd : asciiDigit c
  · rfl
  · rcases alpha_toNat ha with ⟨h1, _⟩ | ⟨h1, _⟩ <;>
      rcases digit_toNat hd with ⟨_, h4⟩ <;> omega

theorem digit_not_alpha {c : Char} (hd : asciiDigit c = true) :
    asciiAlpha c = false := by
  cases ha : asciiAlpha c
  · rfl
  · rcases alpha_toNat ha with ⟨h1, _⟩ | ⟨h1, _⟩ <;>
      rcases digit_toNat hd with ⟨_, h4⟩ <;> omega

theorem alpha_ne_dash {c : Char} (ha : asciiAlpha c = true) : c ≠ '-' := by
  rintro rfl
  exact absurd ha (by decide)

theorem digit_ne_dash {c : Char} (hd : asciiDigit c = true) : c ≠ '-' := by
  rintro rfl
  exact absurd hd (by decide)

theorem alpha_pyWord {c : Char} (ha : asciiAlpha c = true) :
    pyWord c = true := by
  simp [pyWord, asciiAlnum, ha]

theorem digit_pyWord {c : Char} (hd : asciiDigit c = true) :
    pyWord c = true := by
  simp [pyWord, asciiAlnum, hd]

theorem digit_not_space {c : Char} (hd : asciiDigit c = true) :
    pySpace c = false := by
  cases hs : pySpace c
  · rfl
  · have hm := pySpace_mem hs
    exact absurd hd (by fin_cases hm <;> decide)

theorem digit_not_trail {c : Char} (hd : asciiDigit c = true) :
    trailPunct c = false := by
  cases ht : trailPunct c
  · rfl
  · rcases trailPunct_cases ht with h' | h'
    · exact absurd (digit_not_space hd) (by simp [h'])
    · exact absurd hd (by fin_cases h' <;> decide)

theorem sp_not_alpha {c : Char} (hs : pySpace c = true) :
    asciiAlpha c = false := by
  cases ha : asciiAlpha c
  · rfl
  · have hm := pySpace_mem hs
    exact absurd ha (by fin_cases hm <;> decide)

theorem not_space_of_not_trail {c : Char} (h : trailPunct c = false) :
    pySpace c = false := by
  cases hs : pySpace c
  · rfl
  · rw [show trailPunct c = true by simp [trailPunct, hs]] at h
    cases h

/-! Generic helpers about `takeWhile`, `dropWhile`, heads, last elements
and the adjacency predicate. -/

theorem head?_dropWhile_not (p : Char → Bool) :
    ∀ {l : List Char} {c : Char}, (l.dropWhile p).head? = some c → p c = false
  | [], c => by intro h; simp at h
  | a :: t, c => by
    intro h
    by_cases hp : p a
    · rw [List.dropWhile_cons, if_pos hp] at h
      exact head?_dropWhile_not p h
    · rw [List.dropWhile_cons, if_neg hp] at h
      simp only [List.head?_cons, Option.some.injEq] at h
      subst h
      simpa using hp

theorem getLast?_cons_of_ne_nil {α} {a : α} {t : List α} (h : t ≠ []) :
    (a :: t).getLast? = t.getLast? :=
  List.getLast?_append_of_ne_nil [a] h

theorem getLast?_of_suffix {α} {u v : List α} (h : u <:+ v) (hu : u ≠ []) :
    v.getLast? = u.getLast? := by
  obtain ⟨pre, rfl⟩ := h
  exact List.getLast?_append_of_ne_nil pre hu

theorem head?_of_pref {α} {u v : List α} (h : u <+: v) (hu : u ≠ []) :
    v.head? = u.head? := by
  obtain ⟨t, rfl⟩ := h
  exact List.head?_append_of_ne_nil u hu

theorem dropWhile_eq_self_of_head (p : Char → Bool) (r : List Char)
    (hr : ∀ c, r.head? = some c → p c = false) : r.dropWhile p = r := by
  cases r with
  | nil => rfl
  | cons c t =>
    rw [List.dropWhile_cons, if_neg]
    simp [hr c rfl]

theorem dropWhile_append_notHead (p : Char → Bool) (w r : List Char)
    (hr : ∀ c, r.head? = some c → p c = false) :
    (w ++ r).dropWhile p = w.dropWhile p ++ r := by
  rw [List.dropWhile_append]
  by_cases hw : (w.dropWhile p).isEmpty
  · rw [if_pos hw]
    rw [List.isEmpty_iff] at hw
    rw [hw, List.nil_append]
    exact dropWhile_eq_self_of_head p r hr
  · rw [if_neg hw]

theorem takeWhile_length_add (p : Char → Bool) (w : List Char) :
    (w.takeWhile p).length + (w.dropWhile p).length = w.length := by
  conv_rhs => rw [← List.takeWhile_append_dropWhile p w]
  exact (List.length_append _ _).symm

theorem takeWhile_append_of_all (p : Char → Bool) (w r : List Char)
    (hw : w.dropWhile p = []) : (w ++ r).takeWhile p = w ++ r.takeWhile p := by
  rw [List.takeWhile_append, if_pos]
  have := takeWhile_length_add p w
  rw [hw] at this
  simpa using this

theorem takeWhile_append_of_drop_ne (p : Char → Bool) (w r : List Char)
    (hw : w.dropWhile p ≠ []) : (w ++ r).takeWhile p = w.takeWhile p := by
  rw [List.takeWhile_append, if_neg]
  have := takeWhile_length_add p w
  intro hlen
  rw [hlen] at this
  have hz : (w.dropWhile p).length = 0 := by omega
  exact hw (List.length_eq_zero.mp hz)

theorem adjOk_cons (ok : Char → Char → Bool) (x : Char) (t : List Char) :
    adjOk ok (x :: t) = true ↔
      (∀ y, t.head? = some y → ok x y = true) ∧ adjOk ok t = true := by
  cases t with
  | nil => simp [adjOk]
  | cons b t' => simp [adjOk, Bool.and_eq_true]

theorem adjOk_suffix {ok : Char → Char → Bool} {u v : List Char}
    (h : u <:+ v) (hv : adjOk ok v = true) : adjOk ok u = true := by
  obtain ⟨pre, rfl⟩ := h
  induction pre with
  | nil => exact hv
  | cons a pre' ih => exact ih ((adjOk_cons ok a (pre' ++ u)).mp hv).2

theorem adjOk_pref {ok : Char → Char → Bool} :
    ∀ {u v : List Char}, u <+: v → adjOk ok v = true → adjOk ok u = true := by
  intro u
  induction u with
  | nil => intro v _ _; rfl
  | cons a u' ih =>
    intro v h hv
    obtain ⟨t, rfl⟩ := h
    rw [List.cons_append] at hv
    rcases (adjOk_cons ok a (u' ++ t)).mp hv with ⟨hhd, htl⟩
    refine (adjOk_cons ok a u').mpr ⟨?_, ih ⟨t, rfl⟩ htl⟩
    intro y hy
    refine hhd y ?_
    have hne : u' ≠ [] := by
      intro hnil
      rw [hnil] at hy
      cases hy
    rw [List.head?_append_of_ne_nil u' hne]
    exact hy

theorem adjOk_infix {ok : Char → Char → Bool} {u v : List Char}
    (h : u <:+: v) (hv : adjOk ok v = true) : adjOk ok u = true := by
  obtain ⟨s, t, rfl⟩ := h
  exact adjOk_pref ⟨t, rfl⟩ (adjOk_suffix ⟨s, by simp⟩ hv)

theorem adjOk_append_of (ok : Char → Char → Bool) :
    ∀ (u v : List Char), adjOk ok u = true → adjOk ok v = true →
      (∀ a b, u.getLast? = some a → v.head? = some b → ok a b = true) →
      adjOk ok (u ++ v) = true
  | [], v, _, hv, _ => hv
  | [a], v, _, hv, hseam => by
    refine (adjOk_cons ok a v).mpr ⟨?_, hv⟩
    intro y hy
    exact hseam a y rfl hy
  | a :: b :: u₂, v, hu, hv, hseam => by
    rcases (adjOk_cons ok a (b :: u₂)).mp hu with ⟨hhd, htl⟩
    rw [List.cons_append]
    refine (adjOk_cons ok a (b :: u₂ ++ v)).mpr ⟨?_, ?_⟩
    · intro y hy
      rw [List.cons_append, List.head?_cons, Option.some.injEq] at hy
      subst hy
      exact hhd b rfl
    · refine adjOk_append_of ok (b :: u₂) v htl hv ?_
      intro x y hx hy
      refine hseam x y ?_ hy
      rw [getLast?_cons_of_ne_nil (by simp : (b :: u₂ : List Char) ≠ [])]
      exact hx

theorem adjOk_of_all (ok : Char → Char → Bool) :
    ∀ (l : List Char), (∀ a ∈ l, ∀ b ∈ l, ok a b = true) → adjOk ok l = true
  | [], _ => rfl
  | [_], _ => rfl
  | a :: b :: t, h => by
    simp only [adjOk, Bool.and_eq_true]
    refine ⟨h a (by simp) b (by simp), adjOk_of_all ok (b :: t) ?_⟩
    intro x hx y hy
    exact h x (List.mem_cons_of_mem a hx) y (List.mem_cons_of_mem a hy)

theorem okPair_safe_left {a : Char} (ha : pySpace a = false) (hd : a ≠ '-')
    (b : Char) : okPair a b = true := by
  simp [okPair, ha, hd]

theorem okPair_dash_right {b : Char} (hb : pySpace b = false) :
    okPair '-' b = true := by
  simp [okPair, hb, (show pySpace '-' = false by decide)]

/-! Fuel irrelevance and step equations for `subDashWsF`. -/

theorem subDashWsF_nil : ∀ f, subDashWsF f [] = []
  | 0 => rfl
  | _ + 1 => rfl

theorem subDashWsF_sp_dash {c : Char} {cs rs : List Char} (f : Nat)
    (hsp : pySpace c = true) (hdr : (c :: cs).dropWhile pySpace = '-' :: rs) :
    subDashWsF (f + 1) (c :: cs) = '-' :: subDashWsF f (rs.dropWhile pySpace) := by
  simp only [subDashWsF, hsp]
  rw [if_pos trivial, hdr]
  rfl

theorem subDashWsF_sp_nil {c : Char} {cs : List Char} (f : Nat)
    (hsp : pySpace c = true) (hdr : (c :: cs).dropWhile pySpace = []) :
    subDashWsF (f + 1) (c :: cs) = c :: cs := by
  simp only [subDashWsF, hsp]
  rw [if_pos trivial, hdr]
  show (c :: cs).takeWhile pySpace ++ subDashWsF f [] = c :: cs
  rw [subDashWsF_nil, List.append_nil]
  have h2 := List.takeWhile_append_dropWhile pySpace (c :: cs)
  rw [hdr, List.append_nil] at h2
  exact h2

theorem subDashWsF_sp_cons {c d : Char} {cs rs : List Char} (f : Nat)
    (hsp : pySpace c = true) (hdr : (c :: cs).dropWhile pySpace = d :: rs)
    (hd : d ≠ '-') :
    subDashWsF (f + 1) (c :: cs) =
      (c :: cs).takeWhile pySpace ++ subDashWsF f (d :: rs) := by
  simp only [subDashWsF, hsp]
  rw [if_pos trivial, hdr]
  split
  · rename_i rs' heq
    injection heq with h1 _
    exact absurd h1 hd
  · rfl

theorem subDashWsF_dash (f : Nat) (cs : List Char) :
    subDashWsF (f + 1) ('-' :: cs) = '-' :: subDashWsF f (cs.dropWhile pySpace) := by
  simp only [subDashWsF]
  rw [if_neg (by decide), if_pos trivial]

theorem subDashWsF_other {c : Char} (f : Nat) (cs : List Char)
    (hsp : pySpace c = false) (hd : c ≠ '-') :
    subDashWsF (f + 1) (c :: cs) = c :: subDashWsF f cs := by
  simp only [subDashWsF]
  rw [if_neg (by simp [hsp]), if_neg hd]

theorem subDashWsF_irrel :
    ∀ (n : Nat) (l : List Char), l.length ≤ n → ∀ f₁ f₂, l.length ≤ f₁ →
      l.length ≤ f₂ → subDashWsF f₁ l = subDashWsF f₂ l := by
  intro n
  induction n with
  | zero =>
    intro l hl f₁ f₂ _ _
    have hnil : l = [] := List.eq_nil_of_length_eq_zero (Nat.le_zero.mp hl)
    subst hnil
    rw [subDashWsF_nil, subDashWsF_nil]
  | succ n ih =>
    intro l hl f₁ f₂ h1 h2
    cases l with
    | nil => rw [subDashWsF_nil, subDashWsF_nil]
    | cons c cs =>
      obtain ⟨g₁, rfl⟩ : ∃ g, f₁ = g + 1 := ⟨f₁ - 1, by simp at h1; omega⟩
      obtain ⟨g₂, rfl⟩ : ∃ g, f₂ = g + 1 := ⟨f₂ - 1, by simp at h2; omega⟩
      have hlen : cs.length ≤ n := by simp at hl; omega
      have hg₁ : cs.length ≤ g₁ := by simp at h1; omega
      have hg₂ : cs.length ≤ g₂ := by simp at h2; omega
      cases hsp : pySpace c with
      | true =>
        cases hdr : (c :: cs).dropWhile pySpace with
        | nil => rw [subDashWsF_sp_nil g₁ hsp hdr, subDashWsF_sp_nil g₂ hsp hdr]
        | cons d rs =>
          have hdc : (c :: cs).dropWhile pySpace = cs.dropWhile pySpace := by
            rw [List.dropWhile_cons, if_pos hsp]
          rw [hdc] at hdr
          have hrs1 : rs.length + 1 ≤ cs.length := by
            have := (List.dropWhile_suffix pySpace :
              cs.dropWhile pySpace <:+ cs).length_le
            rw [hdr] at this
            simpa using this
          by_cases hd : d = '-'
          · subst hd
            rw [subDashWsF_sp_dash g₁ hsp (hdc.trans hdr),
              subDashWsF_sp_dash g₂ hsp (hdc.trans hdr)]
            have hA : (rs.dropWhile pySpace).length ≤ rs.length :=
              (List.dropWhile_suffix pySpace : rs.dropWhile pySpace <:+ rs).length_le
            exact congrArg (List.cons '-')
              (ih (rs.dropWhile pySpace) (by omega) g₁ g₂ (by omega) (by omega))
          · rw [subDashWsF_sp_cons g₁ hsp (hdc.trans hdr) hd,
              subDashWsF_sp_cons g₂ hsp (hdc.trans hdr) hd]
            exact congrArg _ (ih (d :: rs) (by simp; omega) g₁ g₂ (by simp; omega)
              (by simp; omega))
      | false =>
        by_cases hd : c = '-'
        · subst hd
          rw [subDashWsF_dash g₁, subDashWsF_dash g₂]
          have hA : (cs.dropWhile pySpace).length ≤ cs.length :=
            (List.dropWhile_suffix pySpace : cs.dropWhile pySpace <:+ cs).length_le
          exact congrArg _ (ih (cs.dropWhile pySpace) (by omega) g₁ g₂ (by omega)
            (by omega))
        · rw [subDashWsF_other g₁ cs hsp hd, subDashWsF_other g₂ cs hsp hd]
          exact congrArg _ (ih cs hlen g₁ g₂ hg₁ hg₂)

theorem subDashWs_eq_F (l : List Char) (f : Nat) (h : l.length ≤ f) :
    subDashWs l = subDashWsF f l :=
  subDashWsF_irrel l.length l le_rfl l.length f le_rfl h

theorem subDashWs_nil : subDashWs [] = [] := rfl

theorem subDashWs_sp_dash {c : Char} {cs rs : List Char}
    (hsp : pySpace c = true) (hdr : (c :: cs).dropWhile pySpace = '-' :: rs) :
    subDashWs (c :: cs) = '-' :: subDashWs (rs.dropWhile pySpace) := by
  have hrs1 : rs.length + 1 ≤ cs.length := by
    have h0 : (c :: cs).dropWhile pySpace = cs.dropWhile pySpace := by
      rw [List.dropWhile_cons, if_pos hsp]
    have := (List.dropWhile_suffix pySpace : cs.dropWhile pySpace <:+ cs).length_le
    rw [← h0, hdr] at this
    simpa using this
  have hA : (rs.dropWhile pySpace).length ≤ rs.length :=
    (List.dropWhile_suffix pySpace : rs.dropWhile pySpace <:+ rs).length_le
  show subDashWsF (cs.length + 1) (c :: cs) = _
  rw [subDashWsF_sp_dash cs.length hsp hdr]
  exact congrArg _ (subDashWs_eq_F (rs.dropWhile pySpace) cs.length (by omega)).symm

theorem subDashWs_sp_nil {c : Char} {cs : List Char}
    (hsp : pySpace c = true) (hdr : (c :: cs).dropWhile pySpace = []) :
    subDashWs (c :: cs) = c :: cs := by
  show subDashWsF (cs.length + 1) (c :: cs) = _
  exact subDashWsF_sp_nil cs.length hsp hdr

theorem subDashWs_sp_cons {c d : Char} {cs rs : List Char}
    (hsp : pySpace c = true) (hdr : (c :: cs).dropWhile pySpace = d :: rs)
    (hd : d ≠ '-') :
    subDashWs (c :: cs) = (c :: cs).takeWhile pySpace ++ subDashWs (d :: rs) := by
  have hrs1 : rs.length + 1 ≤ cs.length := by
    have h0 : (c :: cs).dropWhile pySpace = cs.dropWhile pySpace := by
      rw [List.dropWhile_cons, if_pos hsp]
    have := (List.dropWhile_suffix pySpace : cs.dropWhile pySpace <:+ cs).length_le
    rw [← h0, hdr] at this
    simpa using this
  show subDashWsF (cs.length + 1) (c :: cs) = _
  rw [subDashWsF_sp_cons cs.length hsp hdr hd]
  exact congrArg _ (subDashWs_eq_F (d :: rs) cs.length (by simp; omega)).symm

theorem subDashWs_dash (cs : List Char) :
    subDashWs ('-' :: cs) = '-' :: subDashWs (cs.dropWhile pySpace) := by
  have hA : (cs.dropWhile pySpace).length ≤ cs.length :=
    (List.dropWhile_suffix pySpace : cs.dropWhile pySpace <:+ cs).length_le
  show subDashWsF (cs.length + 1) ('-' :: cs) = _
  rw [subDashWsF_dash cs.length cs]
  exact congrArg _ (subDashWs_eq_F (cs.dropWhile pySpace) cs.length hA).symm

theorem subDashWs_other {c : Char} (cs : List Char)
    (hsp : pySpace c = false) (hd : c ≠ '-') :
    subDashWs (c :: cs) = c :: subDashWs cs := by
  show subDashWsF (cs.length + 1) (c :: cs) = _
  rw [subDashWsF_other cs.length cs hsp hd]
  rfl

/-! Decomposition of successful `sub6Try` / `sub7Try` attempts, fuel
irrelevance and step equations for the two fusion scanners. -/

theorem sub6Try_eq {cs ds rest : List Char} (h : sub6Try cs = some (ds, rest)) :
    ∃ t2, cs.dropWhile pySpace = '-' :: t2 ∧
      ds = (t2.dropWhile pySpace).takeWhile asciiDigit ∧
      rest = (t2.dropWhile pySpace).dropWhile asciiDigit ∧
      2 ≤ ds.length ∧ ds.length ≤ 4 ∧ headIsWord rest = false := by
  unfold sub6Try at h
  split at h
  · rename_i t2 heq
    dsimp only at h
    split_ifs at h with hc
    · rw [Option.some.injEq, Prod.mk.injEq] at h
      obtain ⟨h1, h2⟩ := h
      subst h1
      subst h2
      simp only [Bool.and_eq_true, decide_eq_true_eq, Bool.not_eq_true'] at hc
      exact ⟨t2, heq, rfl, rfl, hc.1.1, hc.1.2, hc.2⟩
  · exact absurd h (by simp)

theorem sub7Try_eq {cs ds rest : List Char} (h : sub7Try cs = some (ds, rest)) :
    cs.takeWhile pySpace ≠ [] ∧
      ds = (cs.dropWhile pySpace).takeWhile asciiDigit ∧
      rest = (cs.dropWhile pySpace).dropWhile asciiDigit ∧
      2 ≤ ds.length ∧ ds.length ≤ 4 ∧ headIsWord rest = false := by
  unfold sub7Try at h
  by_cases h0 : cs.takeWhile pySpace = []
  · rw [if_pos h0] at h
    exact absurd h (by simp)
  · rw [if_neg h0] at h
    dsimp only at h
    split_ifs at h with hc
    rw [Option.some.injEq, Prod.mk.injEq] at h
    obtain ⟨h1, h2⟩ := h
    subst h1
    subst h2
    simp only [Bool.and_eq_true, decide_eq_true_eq, Bool.not_eq_true'] at hc
    exact ⟨h0, rfl, rfl, hc.1.1, hc.1.2, hc.2⟩

theorem sub6Try_suffix {cs ds rest : List Char}
    (h : sub6Try cs = some (ds, rest)) : ds ++ rest <:+ cs := by
  obtain ⟨t2, hdr, hds, hrest, -⟩ := sub6Try_eq h
  have h1 : t2.dropWhile pySpace <:+ t2 := List.dropWhile_suffix _
  have h2 : t2 <:+ '-' :: t2 := List.suffix_cons '-' t2
  have h3 : '-' :: t2 <:+ cs := hdr ▸ List.dropWhile_suffix pySpace
  rw [hds, hrest, List.takeWhile_append_dropWhile]
  exact h1.trans (h2.trans h3)

theorem sub7Try_suffix {cs ds rest : List Char}
    (h : sub7Try cs = some (ds, rest)) : ds ++ rest <:+ cs := by
  obtain ⟨-, hds, hrest, -⟩ := sub7Try_eq h
  rw [hds, hrest, List.takeWhile_append_dropWhile]
  exact List.dropWhile_suffix pySpace

theorem sub6Try_rest_le {cs ds rest : List Char}
    (h : sub6Try cs = some (ds, rest)) : rest.length ≤ cs.length :=
  ((List.suffix_append ds rest).trans (sub6Try_suffix h)).length_le

theorem sub7Try_rest_le {cs ds rest : List Char}
    (h : sub7Try cs = some (ds, rest)) : rest.length ≤ cs.length :=
  ((List.suffix_append ds rest).trans (sub7Try_suffix h)).length_le

theorem sub6F_nil : ∀ f p, sub6F f p [] = []
  | 0, _ => rfl
  | _ + 1, _ => rfl

theorem sub7F_nil : ∀ f p, sub7F f p [] = []
  | 0, _ => rfl
  | _ + 1, _ => rfl

theorem sub6F_some {prevW : Bool} {c : Char} {cs ds rest : List Char} (f : Nat)
    (hc : (!prevW && asciiAlpha c) = true) (ht : sub6Try cs = some (ds, rest)) :
    sub6F (f + 1) prevW (c :: cs) = c :: (ds ++ sub6F f true rest) := by
  simp only [sub6F, hc]
  rw [if_pos trivial, ht]

theorem sub6F_none {prevW : Bool} {c : Char} {cs : List Char} (f : Nat)
    (hc : (!prevW && asciiAlpha c) = true) (ht : sub6Try cs = none) :
    sub6F (f + 1) prevW (c :: cs) = c :: sub6F f true cs := by
  simp only [sub6F, hc]
  rw [if_pos trivial, ht]

theorem sub6F_skip {prevW : Bool} {c : Char} {cs : List Char} (f : Nat)
    (hc : (!prevW && asciiAlpha c) = false) :
    sub6F (f + 1) prevW (c :: cs) = c :: sub6F f (pyWord c) cs := by
  simp only [sub6F, hc]
  rw [if_neg (by simp)]

theorem sub7F_some {prevW : Bool} {c : Char} {cs ds rest : List Char} (f : Nat)
    (hc : (!prevW && asciiAlpha c) = true) (ht : sub7Try cs = some (ds, rest)) :
    sub7F (f + 1) prevW (c :: cs) = c :: (ds ++ sub7F f true rest) := by
  simp only [sub7F, hc]
  rw [if_pos trivial, ht]

theorem sub7F_none {prevW : Bool} {c : Char} {cs : List Char} (f : Nat)
    (hc : (!prevW && asciiAlpha c) = true) (ht : sub7Try cs = none) :
    sub7F (f + 1) prevW (c :: cs) = c :: sub7F f true cs := by
  simp only [sub7F, hc]
  rw [if_pos trivial, ht]

theorem sub7F_skip {prevW : Bool} {c : Char} {cs : List Char} (f : Nat)
    (hc : (!prevW && asciiAlpha c) = false) :
    sub7F (f + 1) prevW (c :: cs) = c :: sub7F f (pyWord c) cs := by
  simp only [sub7F, hc]
  rw [if_neg (by simp)]

theorem sub6F_irrel :
    ∀ (n : Nat) (l : List Char), l.length ≤ n → ∀ p f₁ f₂, l.length ≤ f₁ →
      l.length ≤ f₂ → sub6F f₁ p l = sub6F f₂ p l := by
  intro n
  induction n with
  | zero =>
    intro l hl p f₁ f₂ _ _
    have hnil : l = [] := List.eq_nil_of_length_eq_zero (Nat.le_zero.mp hl)
    subst hnil
    rw [sub6F_nil, sub6F_nil]
  | succ n ih =>
    intro l hl p f₁ f₂ h1 h2
    cases l with
    | nil => rw [sub6F_nil, sub6F_nil]
    | cons c cs =>
      obtain ⟨g₁, rfl⟩ : ∃ g, f₁ = g + 1 := ⟨f₁ - 1, by simp at h1; omega⟩
      obtain ⟨g₂, rfl⟩ : ∃ g, f₂ = g + 1 := ⟨f₂ - 1, by simp at h2; omega⟩
      have hlen : cs.length ≤ n := by simp at hl; omega
      have hg₁ : cs.length ≤ g₁ := by simp at h1; omega
      have hg₂ : cs.length ≤ g₂ := by simp at h2; omega
      cases hc : (!p && asciiAlpha c) with
      | true =>
        cases ht : sub6Try cs with
        | none =>
          rw [sub6F_none g₁ hc ht, sub6F_none g₂ hc ht]
          exact congrArg _ (ih cs hlen true g₁ g₂ hg₁ hg₂)
        | some pr =>
          obtain ⟨ds, rest⟩ := pr
          have hrl := sub6Try_rest_le ht
          rw [sub6F_some g₁ hc ht, sub6F_some g₂ hc ht]
          exact congrArg _ (congrArg _
            (ih rest (by omega) true g₁ g₂ (by omega) (by omega)))
      | false =>
        rw [sub6F_skip g₁ hc, sub6F_skip g₂ hc]
        exact congrArg _ (ih cs hlen (pyWord c) g₁ g₂ hg₁ hg₂)

theorem sub7F_irrel :
    ∀ (n : Nat) (l : List Char), l.length ≤ n → ∀ p f₁ f₂, l.length ≤ f₁ →
      l.length ≤ f₂ → sub7F f₁ p l = sub7F f₂ p l := by
  intro n
  induction n with
  | zero =>
    intro l hl p f₁ f₂ _ _
    have hnil : l = [] := List.eq_nil_of_length_eq_zero (Nat.le_zero.mp hl)
    subst hnil
    rw [sub7F_nil, sub7F_nil]
  | succ n ih =>
    intro l hl p f₁ f₂ h1 h2
    cases l with
    | nil => rw [sub7F_nil, sub7F_nil]
    | cons c cs =>
      obtain ⟨g₁, rfl⟩ : ∃ g, f₁ = g + 1 := ⟨f₁ - 1, by simp at h1; omega⟩
      obtain ⟨g₂, rfl⟩ : ∃ g, f₂ = g + 1 := ⟨f₂ - 1, by simp at h2; omega⟩
      have hlen : cs.length ≤ n := by simp at hl; omega
      have hg₁ : cs.length ≤ g₁ := by simp at h1; omega
      have hg₂ : cs.length ≤ g₂ := by simp at h2; omega
      cases hc : (!p && asciiAlpha c) with
      | true =>
        cases ht : sub7Try cs with
        | none =>
          rw [sub7F_none g₁ hc ht, sub7F_none g₂ hc ht]
          exact congrArg _ (ih cs hlen true g₁ g₂ hg₁ hg₂)
        | some pr =>
          obtain ⟨ds, rest⟩ := pr
          have hrl := sub7Try_rest_le ht
          rw [sub7F_some g₁ hc ht, sub7F_some g₂ hc ht]
          exact congrArg _ (congrArg _
            (ih rest (by omega) true g₁ g₂ (by omega) (by omega)))
      | false =>
        rw [sub7F_skip g₁ hc, sub7F_skip g₂ hc]
        exact congrArg _ (ih cs hlen (pyWord c) g₁ g₂ hg₁ hg₂)

theorem sub6_eq_F (p : Bool) (l : List Char) (f : Nat) (h : l.length ≤ f) :
    sub6 p l = sub6F f p l :=
  sub6F_irrel l.length l le_rfl p l.length f le_rfl h

theorem sub7_eq_F (p : Bool) (l : List Char) (f : Nat) (h : l.length ≤ f) :
    sub7 p l = sub7F f p l :=
  sub7F_irrel l.length l le_rfl p l.length f le_rfl h

theorem sub6_nil (p : Bool) : sub6 p [] = [] := rfl

theorem sub7_nil (p : Bool) : sub7 p [] = [] := rfl

theorem sub6_some {prevW : Bool} {c : Char} {cs ds rest : List Char}
    (hc : (!prevW && asciiAlpha c) = true) (ht : sub6Try cs = some (ds, rest)) :
    sub6 prevW (c :: cs) = c :: (ds ++ sub6 true rest) := by
  have hrl := sub6Try_rest_le ht
  show sub6F (cs.length + 1) prevW (c :: cs) = _
  rw [sub6F_some cs.length hc ht]
  exact congrArg _ (congrArg _ (sub6_eq_F true rest cs.length hrl).symm)

theorem sub6_none {prevW : Bool} {c : Char} {cs : List Char}
    (hc : (!prevW && asciiAlpha c) = true) (ht : sub6Try cs = none) :
    sub6 prevW (c :: cs) = c :: sub6 true cs := by
  show sub6F (cs.length + 1) prevW (c :: cs) = _
  rw [sub6F_none cs.length hc ht]
  rfl

theorem sub6_skip {prevW : Bool} {c : Char} {cs : List Char}
    (hc : (!prevW && asciiAlpha c) = false) :
    sub6 prevW (c :: cs) = c :: sub6 (pyWord c) cs := by
  show sub6F (cs.length + 1) prevW (c :: cs) = _
  rw [sub6F_skip cs.length hc]
  rfl

theorem sub7_some {prevW : Bool} {c : Char} {cs ds rest : List Char}
    (hc : (!prevW && asciiAlpha c) = true) (ht : sub7Try cs = some (ds, rest)) :
    sub7 prevW (c :: cs) = c :: (ds ++ sub7 true rest) := by
  have hrl := sub7Try_rest_le ht
  show sub7F (cs.length + 1) prevW (c :: cs) = _
  rw [sub7F_some cs.length hc ht]
  exact congrArg _ (congrArg _ (sub7_eq_F true rest cs.length hrl).symm)

theorem sub7_none {prevW : Bool} {c : Char} {cs : List Char}
    (hc : (!prevW && asciiAlpha c) = true) (ht : sub7Try cs = none) :
    sub7 prevW (c :: cs) = c :: sub7 true cs := by
  show sub7F (cs.length + 1) prevW (c :: cs) = _
  rw [sub7F_none cs.length hc ht]
  rfl

theorem sub7_skip {prevW : Bool} {c : Char} {cs : List Char}
    (hc : (!prevW && asciiAlpha c) = false) :
    sub7 prevW (c :: cs) = c :: sub7 (pyWord c) cs := by
  show sub7F (cs.length + 1) prevW (c :: cs) = _
  rw [sub7F_skip cs.length hc]
  rfl

theorem sub6_head (p : Bool) (c : Char) (cs : List Char) :
    ∃ t, sub6 p (c :: cs) = c :: t := by
  cases hc : (!p && asciiAlpha c) with
  | false => exact ⟨_, sub6_skip hc⟩
  | true =>
    cases ht : sub6Try cs with
    | none => exact ⟨_, sub6_none hc ht⟩
    | some pr =>
      obtain ⟨ds, rest⟩ := pr
      exact ⟨_, sub6_some hc ht⟩

theorem sub7_head (p : Bool) (c : Char) (cs : List Char) :
    ∃ t, sub7 p (c :: cs) = c :: t := by
  cases hc : (!p && asciiAlpha c) with
  | false => exact ⟨_, sub7_skip hc⟩
  | true =>
    cases ht : sub7Try cs with
    | none => exact ⟨_, sub7_none hc ht⟩
    | some pr =>
      obtain ⟨ds, rest⟩ := pr
      exact ⟨_, sub7_some hc ht⟩

theorem sub6_head? (p : Bool) (l : List Char) : (sub6 p l).head? = l.head? := by
  cases l with
  | nil => rfl
  | cons c cs =>
    obtain ⟨t, ht⟩ := sub6_head p c cs
    rw [ht]
    rfl

theorem sub7_head? (p : Bool) (l : List Char) : (sub7 p l).head? = l.head? := by
  cases l with
  | nil => rfl
  | cons c cs =>
    obtain ⟨t, ht⟩ := sub7_head p c cs
    rw [ht]
    rfl

theorem sub6_eq_nil_iff (p : Bool) (l : List Char) : sub6 p l = [] ↔ l = [] := by
  cases l with
  | nil => simp [sub6_nil]
  | cons c cs =>
    obtain ⟨t, ht⟩ := sub6_head p c cs
    simp [ht]

theorem sub7_eq_nil_iff (p : Bool) (l : List Char) : sub7 p l = [] ↔ l = [] := by
  cases l with
  | nil => simp [sub7_nil]
  | cons c cs =>
    obtain ⟨t, ht⟩ := sub7_head p c cs
    simp [ht]

theorem sub6_mem :
    ∀ (n : Nat) (l : List Char), l.length ≤ n → ∀ p x, x ∈ sub6 p l → x ∈ l := by
  intro n
  induction n with
  | zero =>
    intro l hl p x hx
    have hnil : l = [] := List.eq_nil_of_length_eq_zero (Nat.le_zero.mp hl)
    subst hnil
    simpa [sub6_nil] using hx
  | succ n ih =>
    intro l hl p x hx
    cases l with
    | nil => simpa [sub6_nil] using hx
    | cons c cs =>
      have hlen : cs.length ≤ n := by simp at hl; omega
      cases hc : (!p && asciiAlpha c) with
      | false =>
        rw [sub6_skip hc] at hx
        rcases List.mem_cons.mp hx with rfl | hx'
        · exact List.mem_cons_self _ _
        · exact List.mem_cons_of_mem c (ih cs hlen (pyWord c) x hx')
      | true =>
        cases ht : sub6Try cs with
        | none =>
          rw [sub6_none hc ht] at hx
          rcases List.mem_cons.mp hx with rfl | hx'
          · exact List.mem_cons_self _ _
          · exact List.mem_cons_of_mem c (ih cs hlen true x hx')
        | some pr =>
          obtain ⟨ds, rest⟩ := pr
          have hsuf := sub6Try_suffix ht
          have hrl := sub6Try_rest_le ht
          rw [sub6_some hc ht] at hx
          rcases List.mem_cons.mp hx with rfl | hx'
          · exact List.mem_cons_self _ _
          · rcases List.mem_append.mp hx' with hda | hra
            · exact List.mem_cons_of_mem c
                (hsuf.subset (List.mem_append_left rest hda))
            · have hxr := ih rest (by omega) true x hra
              exact List.mem_cons_of_mem c
                (hsuf.subset (List.mem_append_right ds hxr))

theorem sub7_mem :
    ∀ (n : Nat) (l : List Char), l.length ≤ n → ∀ p x, x ∈ sub7 p l → x ∈ l := by
  intro n
  induction n with
  | zero =>
    intro l hl p x hx
    have hnil : l = [] := List.eq_nil_of_length_eq_zero (Nat.le_zero.mp hl)
    subst hnil
    simpa [sub7_nil] using hx
  | succ n ih =>
    intro l hl p x hx
    cases l with
    | nil => simpa [sub7_nil] using hx
    | cons c cs =>
      have hlen : cs.length ≤ n := by simp at hl; omega
      cases hc : (!p && asciiAlpha c) with
      | false =>
        rw [sub7_skip hc] at hx
        rcases List.mem_cons.mp hx with rfl | hx'
        · exact List.mem_cons_self _ _
        · exact List.mem_cons_of_mem c (ih cs hlen (pyWord c) x hx')
      | true =>
        cases ht : sub7Try cs with
        | none =>
          rw [sub7_none hc ht] at hx
          rcases List.mem_cons.mp hx with rfl | hx'
          · exact List.mem_cons_self _ _
          · exact List.mem_cons_of_mem c (ih cs hlen true x hx')
        | some pr =>
          obtain ⟨ds, rest⟩ := pr
          have hsuf := sub7Try_suffix ht
          have hrl := sub7Try_rest_le ht
          rw [sub7_some hc ht] at hx
          rcases List.mem_cons.mp hx with rfl | hx'
          · exact List.mem_cons_self _ _
          · rcases List.mem_append.mp hx' with hda | hra
            · exact List.mem_cons_of_mem c
                (hsuf.subset (List.mem_append_left rest hda))
            · have hxr := ih rest (by omega) true x hra
              exact List.mem_cons_of_mem c
                (hsuf.subset (List.mem_append_right ds hxr))

theorem lastWord_cons (a : Char) (w : List Char) (p : Bool) :
    lastWord (a :: w) p = lastWord w (pyWord a) := by
  cases w with
  | nil => rfl
  | cons b t =>
    simp only [lastWord, List.getLast?_cons_cons]
    cases hbt : (b :: t).getLast? with
    | none => simp at hbt
    | some y => rfl

theorem sub6_pfx :
    ∀ (w : List Char) (p : Bool) (r : List Char),
      (∀ c ∈ w, asciiAlpha c = false) →
      sub6 p (w ++ r) = w ++ sub6 (lastWord w p) r
  | [], p, r, _ => by simp [lastWord]
  | a :: w', p, r, hw => by
    have ha : asciiAlpha a = false := hw a (by simp)
    have hcond : (!p && asciiAlpha a) = false := by simp [ha]
    rw [List.cons_append, sub6_skip hcond,
      sub6_pfx w' (pyWord a) r (fun c hc => hw c (by simp [hc])),
      lastWord_cons]
    rfl

theorem sub7_pfx :
    ∀ (w : List Char) (p : Bool) (r : List Char),
      (∀ c ∈ w, asciiAlpha c = false) →
      sub7 p (w ++ r) = w ++ sub7 (lastWord w p) r
  | [], p, r, _ => by simp [lastWord]
  | a :: w', p, r, hw => by
    have ha : asciiAlpha a = false := hw a (by simp)
    have hcond : (!p && asciiAlpha a) = false := by simp [ha]
    rw [List.cons_append, sub7_skip hcond,
      sub7_pfx w' (pyWord a) r (fun c hc => hw c (by simp [hc])),
      lastWord_cons]
    rfl

/-! Congruence of the match attempts: whether `sub6Try`/`sub7Try` succeed
at a position depends only on the letter-free prefix and the first letter
after it.  Since the scanners copy letter-free prefixes verbatim and
preserve the first letter, a failed attempt stays failed on scanner
output. -/

theorem sub6Try_none_of_nil (cs : List Char) (h : cs.dropWhile pySpace = []) :
    sub6Try cs = none := by
  unfold sub6Try
  rw [h]

theorem sub6Try_none_of_head_ne (cs : List Char) (d : Char) (t : List Char)
    (h : cs.dropWhile pySpace = d :: t) (hd : d ≠ '-') : sub6Try cs = none := by
  unfold sub6Try
  rw [h]
  split
  · rename_i t' heq
    injection heq with h1 _
    exact absurd h1 hd
  · rfl

theorem sub6Try_dash (cs t2 : List Char) (h : cs.dropWhile pySpace = '-' :: t2) :
    sub6Try cs =
      (if 2 ≤ ((t2.dropWhile pySpace).takeWhile asciiDigit).length &&
          ((t2.dropWhile pySpace).takeWhile asciiDigit).length ≤ 4 &&
          !(headIsWord ((t2.dropWhile pySpace).dropWhile asciiDigit))
        then some ((t2.dropWhile pySpace).takeWhile asciiDigit,
          (t2.dropWhile pySpace).dropWhile asciiDigit)
        else none) := by
  unfold sub6Try
  rw [h]
  rfl

theorem sub7Try_none_of_empty (cs : List Char) (h : cs.takeWhile pySpace = []) :
    sub7Try cs = none := by
  unfold sub7Try
  rw [if_pos h]

theorem sub7Try_pos (cs : List Char) (h : cs.takeWhile pySpace ≠ []) :
    sub7Try cs =
      (if 2 ≤ ((cs.dropWhile pySpace).takeWhile asciiDigit).length &&
          ((cs.dropWhile pySpace).takeWhile asciiDigit).length ≤ 4 &&
          !(headIsWord ((cs.dropWhile pySpace).dropWhile asciiDigit))
        then some ((cs.dropWhile pySpace).takeWhile asciiDigit,
          (cs.dropWhile pySpace).dropWhile asciiDigit)
        else none) := by
  unfold sub7Try
  rw [if_neg h]

theorem digit_scan_congr (u : List Char) {x : Char} (hx : asciiAlpha x = true)
    (s₁ s₂ : List Char) :
    (u ++ x :: s₁).takeWhile asciiDigit = (u ++ x :: s₂).takeWhile asciiDigit ∧
      headIsWord ((u ++ x :: s₁).dropWhile asciiDigit) =
        headIsWord ((u ++ x :: s₂).dropWhile asciiDigit) := by
  have hxd : asciiDigit x = false := alpha_not_digit hx
  by_cases hu : u.dropWhile asciiDigit = []
  · have htk : ∀ s : List Char, (u ++ x :: s).takeWhile asciiDigit = u := by
      intro s
      rw [takeWhile_append_of_all asciiDigit u (x :: s) hu, List.takeWhile_cons,
        if_neg (by simp [hxd]), List.append_nil]
    have hdp : ∀ s : List Char, (u ++ x :: s).dropWhile asciiDigit = x :: s := by
      intro s
      rw [List.dropWhile_append, if_pos (by simp [hu]), List.dropWhile_cons,
        if_neg (by simp [hxd])]
    exact ⟨by rw [htk s₁, htk s₂], by rw [hdp s₁, hdp s₂]; rfl⟩
  · have htk : ∀ s : List Char,
        (u ++ x :: s).takeWhile asciiDigit = u.takeWhile asciiDigit :=
      fun s => takeWhile_append_of_drop_ne asciiDigit u (x :: s) hu
    have hdp : ∀ s : List Char,
        (u ++ x :: s).dropWhile asciiDigit = u.dropWhile asciiDigit ++ x :: s := by
      intro s
      rw [List.dropWhile_append, if_neg (by simp [List.isEmpty_iff, hu])]
    refine ⟨by rw [htk s₁, htk s₂], ?_⟩
    rw [hdp s₁, hdp s₂]
    cases hud : u.dropWhile asciiDigit with
    | nil => exact absurd hud hu
    | cons f u₂ => rfl

theorem sub6Try_isNone_congr {w : List Char} (hw : ∀ c ∈ w, asciiAlpha c = false)
    {x : Char} (hx : asciiAlpha x = true) (s₁ s₂ : List Char) :
    (sub6Try (w ++ x :: s₁) = none ↔ sub6Try (w ++ x :: s₂) = none) := by
  have hxsp : pySpace x = false := alpha_not_space hx
  have hdw : ∀ s : List Char,
      (w ++ x :: s).dropWhile pySpace = w.dropWhile pySpace ++ x :: s := by
    intro s
    refine dropWhile_append_notHead pySpace w (x :: s) ?_
    intro c hc
    rw [List.head?_cons, Option.some.injEq] at hc
    subst hc
    exact hxsp
  cases hν : w.dropWhile pySpace with
  | nil =>
    have h1 : ∀ s : List Char, sub6Try (w ++ x :: s) = none := by
      intro s
      refine sub6Try_none_of_head_ne (w ++ x :: s) x s ?_ (alpha_ne_dash hx)
      rw [hdw s, hν, List.nil_append]
    rw [h1 s₁, h1 s₂]
  | cons d w₂ =>
    have hw₂ : ∀ c ∈ w₂, asciiAlpha c = false := by
      intro c hc
      apply hw
      refine (List.dropWhile_suffix pySpace).subset ?_
      rw [hν]
      exact List.mem_cons_of_mem _ hc
    by_cases hd : d = '-'
    · subst hd
      have h2 : ∀ s : List Char,
          (w ++ x :: s).dropWhile pySpace = '-' :: (w₂ ++ x :: s) := by
        intro s
        rw [hdw s, hν]
        rfl
      have hsp3 : ∀ s : List Char,
          (w₂ ++ x :: s).dropWhile pySpace = w₂.dropWhile pySpace ++ x :: s := by
        intro s
        refine dropWhile_append_notHead pySpace w₂ (x :: s) ?_
        intro c hc
        rw [List.head?_cons, Option.some.injEq] at hc
        subst hc
        exact hxsp
      obtain ⟨htk, hhw⟩ := digit_scan_congr (w₂.dropWhile pySpace) hx s₁ s₂
      rw [sub6Try_dash _ _ (h2 s₁), sub6Try_dash _ _ (h2 s₂), hsp3 s₁, hsp3 s₂,
        htk, hhw]
      split_ifs <;> simp
    · have h3 : ∀ s : List Char, sub6Try (w ++ x :: s) = none := by
        intro s
        refine sub6Try_none_of_head_ne (w ++ x :: s) d (w₂ ++ x :: s) ?_ hd
        rw [hdw s, hν]
        rfl
      rw [h3 s₁, h3 s₂]

theorem sub7Try_isNone_congr {w : List Char} (hw : ∀ c ∈ w, asciiAlpha c = false)
    {x : Char} (hx : asciiAlpha x = true) (s₁ s₂ : List Char) :
    (sub7Try (w ++ x :: s₁) = none ↔ sub7Try (w ++ x :: s₂) = none) := by
  have hxsp : pySpace x = false := alpha_not_space hx
  have hdw : ∀ s : List Char,
      (w ++ x :: s).dropWhile pySpace = w.dropWhile pySpace ++ x :: s := by
    intro s
    refine dropWhile_append_notHead pySpace w (x :: s) ?_
    intro c hc
    rw [List.head?_cons, Option.some.injEq] at hc
    subst hc
    exact hxsp
  cases hν : w.dropWhile pySpace with
  | nil =>
    have htw : ∀ s : List Char, (w ++ x :: s).takeWhile pySpace = w := by
      intro s
      rw [takeWhile_append_of_all pySpace w (x :: s) hν, List.takeWhile_cons,
        if_neg (by simp [hxsp]), List.append_nil]
    by_cases hwnil : w = []
    · have h1 : ∀ s : List Char, sub7Try (w ++ x :: s) = none := by
        intro s
        refine sub7Try_none_of_empty (w ++ x :: s) ?_
        rw [htw s, hwnil]
      rw [h1 s₁, h1 s₂]
    · have hne : ∀ s : List Char, (w ++ x :: s).takeWhile pySpace ≠ [] := by
        intro s
        rw [htw s]
        exact hwnil
      have ht2 : ∀ s : List Char, (w ++ x :: s).dropWhile pySpace = x :: s := by
        intro s
        rw [hdw s, hν, List.nil_append]
      obtain ⟨htk, hhw⟩ := digit_scan_congr [] hx s₁ s₂
      simp only [List.nil_append] at htk hhw
      rw [sub7Try_pos _ (hne s₁), sub7Try_pos _ (hne s₂), ht2 s₁, ht2 s₂, htk, hhw]
      split_ifs <;> simp
  | cons d w₂ =>
    have htw : ∀ s : List Char,
        (w ++ x :: s).takeWhile pySpace = w.takeWhile pySpace :=
      fun s => takeWhile_append_of_drop_ne pySpace w (x :: s) (by rw [hν]; simp)
    by_cases hT : w.takeWhile pySpace = []
    · have h1 : ∀ s : List Char, sub7Try (w ++ x :: s) = none := by
        intro s
        refine sub7Try_none_of_empty (w ++ x :: s) ?_
        rw [htw s, hT]
      rw [h1 s₁, h1 s₂]
    · have hne : ∀ s : List Char, (w ++ x :: s).takeWhile pySpace ≠ [] := by
        intro s
        rw [htw s]
        exact hT
      have ht2 : ∀ s : List Char,
          (w ++ x :: s).dropWhile pySpace = (d :: w₂) ++ x :: s := by
        intro s
        rw [hdw s, hν]
      obtain ⟨htk, hhw⟩ := digit_scan_congr (d :: w₂) hx s₁ s₂
      rw [sub7Try_pos _ (hne s₁), sub7Try_pos _ (hne s₂), ht2 s₁, ht2 s₂, htk, hhw]
      split_ifs <;> simp

theorem sub6_id_of_no_alpha {l : List Char}
    (h : ∀ c ∈ l, asciiAlpha c = false) (p : Bool) : sub6 p l = l := by
  have hp := sub6_pfx l p [] h
  rw [List.append_nil, sub6_nil, List.append_nil] at hp
  exact hp

theorem sub7_id_of_no_alpha {l : List Char}
    (h : ∀ c ∈ l, asciiAlpha c = false) (p : Bool) : sub7 p l = l := by
  have hp := sub7_pfx l p [] h
  rw [List.append_nil, sub7_nil, List.append_nil] at hp
  exact hp

theorem sub_shape6 (q : Bool) (cs : List Char) :
    sub6 q cs = cs ∨ ∃ w x s t, cs = w ++ x :: s ∧ sub6 q cs = w ++ x :: t ∧
      (∀ c ∈ w, asciiAlpha c = false) ∧ asciiAlpha x = true := by
  cases hd : cs.dropWhile (fun c => !asciiAlpha c) with
  | nil =>
    left
    refine sub6_id_of_no_alpha ?_ q
    intro c hc
    have hall := List.dropWhile_eq_nil_iff.mp hd
    simpa using hall c hc
  | cons x s =>
    right
    have hxa : asciiAlpha x = true := by
      have hh := head?_dropWhile_not (fun c => !asciiAlpha c)
        (show ((cs.dropWhile fun c => !asciiAlpha c)).head? = some x by rw [hd]; rfl)
      simpa using hh
    have hcs : cs = cs.takeWhile (fun c => !asciiAlpha c) ++ x :: s := by
      conv_lhs => rw [← List.takeWhile_append_dropWhile (fun c => !asciiAlpha c) cs]
      rw [hd]
    have hw : ∀ c ∈ cs.takeWhile (fun c => !asciiAlpha c), asciiAlpha c = false := by
      intro c hc
      simpa using List.mem_takeWhile_imp hc
    have h6 : sub6 q cs = cs.takeWhile (fun c => !asciiAlpha c) ++
        sub6 (lastWord (cs.takeWhile fun c => !asciiAlpha c) q) (x :: s) := by
      conv_lhs => rw [hcs]
      exact sub6_pfx _ q (x :: s) hw
    obtain ⟨t, ht⟩ := sub6_head (lastWord (cs.takeWhile fun c => !asciiAlpha c) q) x s
    exact ⟨_, x, s, t, hcs, by rw [h6, ht], hw, hxa⟩

theorem sub_shape7 (q : Bool) (cs : List Char) :
    sub7 q cs = cs ∨ ∃ w x s t, cs = w ++ x :: s ∧ sub7 q cs = w ++ x :: t ∧
      (∀ c ∈ w, asciiAlpha c = false) ∧ asciiAlpha x = true := by
  cases hd : cs.dropWhile (fun c => !asciiAlpha c) with
  | nil =>
    left
    refine sub7_id_of_no_alpha ?_ q
    intro c hc
    have hall := List.dropWhile_eq_nil_iff.mp hd
    simpa using hall c hc
  | cons x s =>
    right
    have hxa : asciiAlpha x = true := by
      have hh := head?_dropWhile_not (fun c => !asciiAlpha c)
        (show ((cs.dropWhile fun c => !asciiAlpha c)).head? = some x by rw [hd]; rfl)
      simpa using hh
    have hcs : cs = cs.takeWhile (fun c => !asciiAlpha c) ++ x :: s := by
      conv_lhs => rw [← List.takeWhile_append_dropWhile (fun c => !asciiAlpha c) cs]
      rw [hd]
    have hw : ∀ c ∈ cs.takeWhile (fun c => !asciiAlpha c), asciiAlpha c = false := by
      intro c hc
      simpa using List.mem_takeWhile_imp hc
    have h7 : sub7 q cs = cs.takeWhile (fun c => !asciiAlpha c) ++
        sub7 (lastWord (cs.takeWhile fun c => !asciiAlpha c) q) (x :: s) := by
      conv_lhs => rw [hcs]
      exact sub7_pfx _ q (x :: s) hw
    obtain ⟨t, ht⟩ := sub7_head (lastWord (cs.takeWhile fun c => !asciiAlpha c) q) x s
    exact ⟨_, x, s, t, hcs, by rw [h7, ht], hw, hxa⟩

theorem sub6Try_none_sub6 {cs : List Char} {q : Bool}
    (h : sub6Try cs = none) : sub6Try (sub6 q cs) = none := by
  rcases sub_shape6 q cs with he | ⟨w, x, s, t, hcs, hout, hw, hx⟩
  · rw [he]
    exact h
  · rw [hout]
    refine (sub6Try_isNone_congr hw hx t s).mpr ?_
    rw [← hcs]
    exact h

theorem sub6Try_none_sub7 {cs : List Char} {q : Bool}
    (h : sub6Try cs = none) : sub6Try (sub7 q cs) = none := by
  rcases sub_shape7 q cs with he | ⟨w, x, s, t, hcs, hout, hw, hx⟩
  · rw [he]
    exact h
  · rw [hout]
    refine (sub6Try_isNone_congr hw hx t s).mpr ?_
    rw [← hcs]
    exact h

theorem sub7Try_none_sub7 {cs : List Char} {q : Bool}
    (h : sub7Try cs = none) : sub7Try (sub7 q cs) = none := by
  rcases sub_shape7 q cs with he | ⟨w, x, s, t, hcs, hout, hw, hx⟩
  · rw [he]
    exact h
  · rw [hout]
    refine (sub7Try_isNone_congr hw hx t s).mpr ?_
    rw [← hcs]
    exact h

/-! Idempotence of `sub6`/`sub7` and stability of `sub6`-fixpoints under
`sub7`. -/

theorem lastWord_true_of_digits (ds : List Char) (hne : ds ≠ [])
    (hds : ∀ c ∈ ds, asciiDigit c = true) (b : Bool) : lastWord ds b = true := by
  unfold lastWord
  cases hg : ds.getLast? with
  | none => exact absurd (List.getLast?_eq_none_iff.mp hg) hne
  | some y => exact digit_pyWord (hds y (List.mem_of_mem_getLast? hg))

theorem lastWord_append_digits (W ds : List Char) (hne : ds ≠ [])
    (hds : ∀ c ∈ ds, asciiDigit c = true) (b : Bool) :
    lastWord (W ++ ds) b = true := by
  unfold lastWord
  rw [List.getLast?_append_of_ne_nil W hne]
  cases hg : ds.getLast? with
  | none => exact absurd (List.getLast?_eq_none_iff.mp hg) hne
  | some y => exact digit_pyWord (hds y (List.mem_of_mem_getLast? hg))

theorem sub6Try_none_digit (d : Char) (t : List Char) (hd : asciiDigit d = true) :
    sub6Try (d :: t) = none := by
  refine sub6Try_none_of_head_ne (d :: t) d t ?_ (digit_ne_dash hd)
  rw [List.dropWhile_cons, if_neg (by simp [digit_not_space hd])]

theorem sub7Try_none_digit (d : Char) (t : List Char) (hd : asciiDigit d = true) :
    sub7Try (d :: t) = none := by
  refine sub7Try_none_of_empty (d :: t) ?_
  rw [List.takeWhile_cons, if_neg (by simp [digit_not_space hd])]

theorem sub6_idem_aux :
    ∀ (n : Nat) (l : List Char), l.length ≤ n → ∀ p, sub6 p (sub6 p l) = sub6 p l := by
  intro n
  induction n with
  | zero =>
    intro l hl p
    have hnil : l = [] := List.eq_nil_of_length_eq_zero (Nat.le_zero.mp hl)
    subst hnil
    rw [sub6_nil, sub6_nil]
  | succ n ih =>
    intro l hl p
    cases l with
    | nil => rw [sub6_nil, sub6_nil]
    | cons c cs =>
      have hlen : cs.length ≤ n := by simp at hl; omega
      cases hc : (!p && asciiAlpha c) with
      | false => rw [sub6_skip hc, sub6_skip hc, ih cs hlen (pyWord c)]
      | true =>
        cases ht : sub6Try cs with
        | none =>
          rw [sub6_none hc ht, sub6_none hc (sub6Try_none_sub6 ht), ih cs hlen true]
        | some pr =>
          obtain ⟨ds, rest⟩ := pr
          obtain ⟨t2, hdr, hds, hrest, h2, h4, hbw⟩ := sub6Try_eq ht
          have hdig : ∀ x ∈ ds, asciiDigit x = true := by
            intro x hxm
            rw [hds] at hxm
            exact List.mem_takeWhile_imp hxm
          obtain ⟨d, ds', hdd⟩ : ∃ d ds', ds = d :: ds' := by
            cases ds with
            | nil => simp at h2
            | cons d ds' => exact ⟨d, ds', rfl⟩
          have hrl := sub6Try_rest_le ht
          rw [sub6_some hc ht]
          have htryY : sub6Try (ds ++ sub6 true rest) = none := by
            rw [hdd, List.cons_append]
            exact sub6Try_none_digit d _ (hdig d (by rw [hdd]; simp))
          rw [sub6_none hc htryY]
          have hpfx : sub6 true (ds ++ sub6 true rest) =
              ds ++ sub6 (lastWord ds true) (sub6 true rest) :=
            sub6_pfx ds true _ (fun x hxm => digit_not_alpha (hdig x hxm))
          rw [hpfx, lastWord_true_of_digits ds (by rw [hdd]; simp) hdig true,
            ih rest (by omega) true]

theorem sub7_idem_aux :
    ∀ (n : Nat) (l : List Char), l.length ≤ n → ∀ p, sub7 p (sub7 p l) = sub7 p l := by
  intro n
  induction n with
  | zero =>
    intro l hl p
    have hnil : l = [] := List.eq_nil_of_length_eq_zero (Nat.le_zero.mp hl)
    subst hnil
    rw [sub7_nil, sub7_nil]
  | succ n ih =>
    intro l hl p
    cases l with
    | nil => rw [sub7_nil, sub7_nil]
    | cons c cs =>
      have hlen : cs.length ≤ n := by simp at hl; omega
      cases hc : (!p && asciiAlpha c) with
      | false => rw [sub7_skip hc, sub7_skip hc, ih cs hlen (pyWord c)]
      | true =>
        cases ht : sub7Try cs with
        | none =>
          rw [sub7_none hc ht, sub7_none hc (sub7Try_none_sub7 ht), ih cs hlen true]
        | some pr =>
          obtain ⟨ds, rest⟩ := pr
          obtain ⟨hW, hds, hrest, h2, h4, hbw⟩ := sub7Try_eq ht
          have hdig : ∀ x ∈ ds, asciiDigit x = true := by
            intro x hxm
            rw [hds] at hxm
            exact List.mem_takeWhile_imp hxm
          obtain ⟨d, ds', hdd⟩ : ∃ d ds', ds = d :: ds' := by
            cases ds with
            | nil => simp at h2
            | cons d ds' => exact ⟨d, ds', rfl⟩
          have hrl := sub7Try_rest_le ht
          rw [sub7_some hc ht]
          have htryY : sub7Try (ds ++ sub7 true rest) = none := by
            rw [hdd, List.cons_append]
            exact sub7Try_none_digit d _ (hdig d (by rw [hdd]; simp))
          rw [sub7_none hc htryY]
          have hpfx : sub7 true (ds ++ sub7 true rest) =
              ds ++ sub7 (lastWord ds true) (sub7 true rest) :=
            sub7_pfx ds true _ (fun x hxm => digit_not_alpha (hdig x hxm))
          rw [hpfx, lastWord_true_of_digits ds (by rw [hdd]; simp) hdig true,
            ih rest (by omega) true]

theorem no_fix_of_sub6Try_some {p : Bool} {c : Char} {cs ds6 rest6 : List Char}
    (hc : (!p && asciiAlpha c) = true) (ht6 : sub6Try cs = some (ds6, rest6))
    (h6 : sub6 p (c :: cs) = c :: cs) : False := by
  rw [sub6_some hc ht6] at h6
  have hcs : cs = ds6 ++ sub6 true rest6 := by
    injection h6 with _ h'
    exact h'.symm
  obtain ⟨t2, hdr, hds, -, h2, -, -⟩ := sub6Try_eq ht6
  have hdig : ∀ x ∈ ds6, asciiDigit x = true := by
    intro x hxm
    rw [hds] at hxm
    exact List.mem_takeWhile_imp hxm
  obtain ⟨d, ds', hdd⟩ : ∃ d ds', ds6 = d :: ds' := by
    cases ds6 with
    | nil => simp at h2
    | cons d ds' => exact ⟨d, ds', rfl⟩
  have hdgt : asciiDigit d = true := hdig d (by rw [hdd]; simp)
  have hcs' : cs = d :: (ds' ++ sub6 true rest6) := by
    rw [hcs, hdd]
    rfl
  rw [hcs', List.dropWhile_cons, if_neg (by simp [digit_not_space hdgt])] at hdr
  injection hdr with h1 _
  exact digit_ne_dash hdgt h1

theorem sub6_fix_sub7_aux :
    ∀ (n : Nat) (l : List Char), l.length ≤ n → ∀ p, sub6 p l = l →
      sub6 p (sub7 p l) = sub7 p l := by
  intro n
  induction n with
  | zero =>
    intro l hl p _
    have hnil : l = [] := List.eq_nil_of_length_eq_zero (Nat.le_zero.mp hl)
    subst hnil
    rw [sub7_nil, sub6_nil]
  | succ n ih =>
    intro l hl p h6
    cases l with
    | nil => rw [sub7_nil, sub6_nil]
    | cons c cs =>
      have hlen : cs.length ≤ n := by simp at hl; omega
      cases hc : (!p && asciiAlpha c) with
      | false =>
        rw [sub6_skip hc] at h6
        have hfix : sub6 (pyWord c) cs = cs := by
          injection h6 with _ h'
        rw [sub7_skip hc, sub6_skip hc, ih cs hlen (pyWord c) hfix]
      | true =>
        cases ht7 : sub7Try cs with
        | none =>
          rw [sub7_none hc ht7]
          cases ht6 : sub6Try cs with
          | none =>
            rw [sub6_none hc ht6] at h6
            have hfix : sub6 true cs = cs := by
              injection h6 with _ h'
            rw [sub6_none hc (sub6Try_none_sub7 ht6), ih cs hlen true hfix]
          | some pr6 =>
            obtain ⟨ds6, rest6⟩ := pr6
            exact absurd h6 (fun hh => no_fix_of_sub6Try_some hc ht6 hh)
        | some pr7 =>
          obtain ⟨ds, rest⟩ := pr7
          obtain ⟨hW, hds, hrest, h2, h4, hbw⟩ := sub7Try_eq ht7
          have hdig : ∀ x ∈ ds, asciiDigit x = true := by
            intro x hxm
            rw [hds] at hxm
            exact List.mem_takeWhile_imp hxm
          obtain ⟨d, ds', hdd⟩ : ∃ d ds', ds = d :: ds' := by
            cases ds with
            | nil => simp at h2
            | cons d ds' => exact ⟨d, ds', rfl⟩
          have hrl := sub7Try_rest_le ht7
          have hinner : ds ++ rest = cs.dropWhile pySpace := by
            rw [hds, hrest]
            exact List.takeWhile_append_dropWhile _ _
          have hsplit : cs = (cs.takeWhile pySpace ++ ds) ++ rest := by
            rw [List.append_assoc, hinner, List.takeWhile_append_dropWhile]
          cases ht6 : sub6Try cs with
          | some pr6 =>
            obtain ⟨ds6, rest6⟩ := pr6
            exact absurd h6 (fun hh => no_fix_of_sub6Try_some hc ht6 hh)
          | none =>
            rw [sub6_none hc ht6] at h6
            have hfix : sub6 true cs = cs := by
              injection h6 with _ h'
            have hWds_noalpha :
                ∀ x ∈ cs.takeWhile pySpace ++ ds, asciiAlpha x = false := by
              intro x hxm
              rcases List.mem_append.mp hxm with hx1 | hx2
              · exact sp_not_alpha (List.mem_takeWhile_imp hx1)
              · exact digit_not_alpha (hdig x hx2)
            have hpfx6 : sub6 true cs = (cs.takeWhile pySpace ++ ds) ++
                sub6 (lastWord (cs.takeWhile pySpace ++ ds) true) rest := by
              conv_lhs => rw [hsplit]
              exact sub6_pfx _ true rest hWds_noalpha
            have hlw : lastWord (cs.takeWhile pySpace ++ ds) true = true :=
              lastWord_append_digits _ ds (by rw [hdd]; simp) hdig true
            have hfixrest : sub6 true rest = rest := by
              have hq := hfix
              rw [hpfx6, hlw] at hq
              conv_rhs at hq => rw [hsplit]
              exact List.append_cancel_left hq
            rw [sub7_some hc ht7]
            have htryY : sub6Try (ds ++ sub7 true rest) = none := by
              rw [hdd, List.cons_append]
              exact sub6Try_none_digit d _ (hdig d (by rw [hdd]; simp))
            rw [sub6_none hc htryY]
            have hpfx : sub6 true (ds ++ sub7 true rest) =
                ds ++ sub6 (lastWord ds true) (sub7 true rest) :=
              sub6_pfx ds true _ (fun x hxm => digit_not_alpha (hdig x hxm))
            rw [hpfx, lastWord_true_of_digits ds (by rw [hdd]; simp) hdig true,
              ih rest (by omega) true hfixrest]

/-! Structure of the strip/collapse stages. -/

theorem reverse_dropWhile_pref (p : Char → Bool) (l : List Char) :
    (l.reverse.dropWhile p).reverse <+: l := by
  have h : l.reverse.dropWhile p <:+ l.reverse := List.dropWhile_suffix p
  have h2 := List.reverse_prefix.mpr h
  rwa [List.reverse_reverse] at h2

theorem stripTrailing_pref (l : List Char) : stripTrailing l <+: l :=
  reverse_dropWhile_pref trailPunct l

theorem pyStrip_inf (l : List Char) : pyStrip l <:+: l := by
  have h1 : ((l.dropWhile pySpace).reverse.dropWhile pySpace).reverse <+:
      l.dropWhile pySpace := reverse_dropWhile_pref pySpace (l.dropWhile pySpace)
  exact h1.isInfix.trans (List.dropWhile_suffix pySpace).isInfix

theorem subDashWs_mem :
    ∀ (n : Nat) (l : List Char), l.length ≤ n → ∀ x, x ∈ subDashWs l →
      x ∈ l ∨ x = '-' := by
  intro n
  induction n with
  | zero =>
    intro l hl x hx
    have hnil : l = [] := List.eq_nil_of_length_eq_zero (Nat.le_zero.mp hl)
    subst hnil
    simp [subDashWs_nil] at hx
  | succ n ih =>
    intro l hl x hx
    cases l with
    | nil => simp [subDashWs_nil] at hx
    | cons c cs =>
      have hlen : cs.length ≤ n := by simp at hl; omega
      cases hsp : pySpace c with
      | true =>
        cases hdr : (c :: cs).dropWhile pySpace with
        | nil =>
          rw [subDashWs_sp_nil hsp hdr] at hx
          exact Or.inl hx
        | cons d rs =>
          have hdc : (c :: cs).dropWhile pySpace = cs.dropWhile pySpace := by
            rw [List.dropWhile_cons, if_pos hsp]
          rw [hdc] at hdr
          have hrs1 : rs.length + 1 ≤ cs.length := by
            have := (List.dropWhile_suffix pySpace :
              cs.dropWhile pySpace <:+ cs).length_le
            rw [hdr] at this
            simpa using this
          have hsub : ∀ y, y ∈ d :: rs → y ∈ c :: cs := by
            intro y hy
            refine List.mem_cons_of_mem c ?_
            refine (List.dropWhile_suffix pySpace : cs.dropWhile pySpace <:+ cs).subset ?_
            rw [hdr]
            exact hy
          by_cases hd : d = '-'
          · subst hd
            rw [subDashWs_sp_dash hsp (hdc.trans hdr)] at hx
            rcases List.mem_cons.mp hx with rfl | hx'
            · exact Or.inr rfl
            · have hA : (rs.dropWhile pySpace).length ≤ rs.length :=
                (List.dropWhile_suffix pySpace :
                  rs.dropWhile pySpace <:+ rs).length_le
              rcases ih (rs.dropWhile pySpace) (by omega) x hx' with hm | he
              · refine Or.inl (hsub x ?_)
                exact List.mem_cons_of_mem _
                  ((List.dropWhile_suffix pySpace :
                    rs.dropWhile pySpace <:+ rs).subset hm)
              · exact Or.inr he
          · rw [subDashWs_sp_cons hsp (hdc.trans hdr) hd] at hx
            rcases List.mem_append.mp hx with hx' | hx'
            · exact Or.inl (( List.takeWhile_prefix pySpace).subset hx')
            · rcases ih (d :: rs) (by simp; omega) x hx' with hm | he
              · exact Or.inl (hsub x hm)
              · exact Or.inr he
      | false =>
        by_cases hd : c = '-'
        · subst hd
          rw [subDashWs_dash cs] at hx
          rcases List.mem_cons.mp hx with rfl | hx'
          · exact Or.inr rfl
          · have hA : (cs.dropWhile pySpace).length ≤ cs.length :=
              (List.dropWhile_suffix pySpace :
                cs.dropWhile pySpace <:+ cs).length_le
            rcases ih (cs.dropWhile pySpace) (by omega) x hx' with hm | he
            · exact Or.inl (List.mem_cons_of_mem _
                ((List.dropWhile_suffix pySpace :
                  cs.dropWhile pySpace <:+ cs).subset hm))
            · exact Or.inr he
        · rw [subDashWs_other cs hsp hd] at hx
          rcases List.mem_cons.mp hx with rfl | hx'
          · exact Or.inl (List.mem_cons_self _ _)
          · rcases ih cs hlen x hx' with hm | he
            · exact Or.inl (List.mem_cons_of_mem _ hm)
            · exact Or.inr he

theorem wsGo_mem :
    ∀ (l : List Char) (b : Bool) (x : Char), x ∈ wsGo b l → x ∈ l ∨ x = ' '
  | [], b, x => by intro hx; simp [wsGo] at hx
  | c :: cs, b, x => by
    intro hx
    cases hsp : pySpace c with
    | true =>
      cases b with
      | true =>
        rw [show wsGo true (c :: cs) = wsGo true cs by simp [wsGo, hsp]] at hx
        rcases wsGo_mem cs true x hx with hm | he
        · exact Or.inl (List.mem_cons_of_mem _ hm)
        · exact Or.inr he
      | false =>
        rw [show wsGo false (c :: cs) = ' ' :: wsGo true cs by
          simp [wsGo, hsp]] at hx
        rcases List.mem_cons.mp hx with rfl | hx'
        · exact Or.inr rfl
        · rcases wsGo_mem cs true x hx' with hm | he
          · exact Or.inl (List.mem_cons_of_mem _ hm)
          · exact Or.inr he
    | false =>
      rw [show wsGo b (c :: cs) = c :: wsGo false cs by simp [wsGo, hsp]] at hx
      rcases List.mem_cons.mp hx with rfl | hx'
      · exact Or.inl (List.mem_cons_self _ _)
      · rcases wsGo_mem cs false x hx' with hm | he
        · exact Or.inl (List.mem_cons_of_mem _ hm)
        · exact Or.inr he

theorem dashMap_noUni {l : List Char} {x : Char} (hx : x ∈ dashMap l) :
    uniDash x = false := by
  unfold dashMap at hx
  rcases List.mem_map.mp hx with ⟨a, -, ha⟩
  by_cases hu : uniDash a = true
  · rw [if_pos hu] at ha
    rw [← ha]
    decide
  · rw [if_neg hu] at ha
    rw [← ha]
    simpa using hu

theorem dashMap_id : ∀ {l : List Char}, (∀ c ∈ l, uniDash c = false) →
    dashMap l = l
  | [], _ => rfl
  | c :: t, h => by
    have hc := h c (by simp)
    show (if uniDash c then '-' else c) :: dashMap t = c :: t
    rw [if_neg (by simp [hc])]
    exact congrArg _ (dashMap_id (fun c' hc' => h c' (by simp [hc'])))

theorem pyStrip_head {l : List Char} {c : Char}
    (h : (pyStrip l).head? = some c) : pySpace c = false := by
  have hpre : pyStrip l <+: l.dropWhile pySpace :=
    reverse_dropWhile_pref pySpace (l.dropWhile pySpace)
  have hne : pyStrip l ≠ [] := by
    intro hz
    rw [hz] at h
    cases h
  have hhd := head?_of_pref hpre hne
  exact head?_dropWhile_not pySpace (hhd.trans h)

theorem pyStrip_last {l : List Char} {c : Char}
    (h : (pyStrip l).getLast? = some c) : pySpace c = false := by
  unfold pyStrip at h
  rw [List.getLast?_reverse] at h
  exact head?_dropWhile_not pySpace h

theorem stripTrailing_last {l : List Char} {c : Char}
    (h : (stripTrailing l).getLast? = some c) : trailPunct c = false := by
  unfold stripTrailing at h
  rw [List.getLast?_reverse] at h
  exact head?_dropWhile_not trailPunct h

theorem pyStrip_last_of_not_sp {l : List Char} {c : Char}
    (h : l.getLast? = some c) (hc : pySpace c = false) :
    (pyStrip l).getLast? = some c := by
  have hXne : l.dropWhile pySpace ≠ [] := by
    intro hz
    have hall := List.dropWhile_eq_nil_iff.mp hz
    have hcm : c ∈ l := List.mem_of_mem_getLast? h
    rw [hall c hcm] at hc
    cases hc
  have hXlast : (l.dropWhile pySpace).getLast? = some c :=
    (getLast?_of_suffix (List.dropWhile_suffix pySpace) hXne).symm.trans h
  unfold pyStrip
  have hrev : (l.dropWhile pySpace).reverse.dropWhile pySpace =
      (l.dropWhile pySpace).reverse := by
    refine dropWhile_eq_self_of_head pySpace _ ?_
    intro y hy
    rw [List.head?_reverse, hXlast] at hy
    injection hy with hy'
    rw [← hy']
    exact hc
  rw [hrev, List.reverse_reverse]
  exact hXlast

theorem wsGo_last :
    ∀ (l : List Char) (b : Bool) {c : Char}, l.getLast? = some c →
      pySpace c = false → (wsGo b l).getLast? = some c
  | [], b, c => by intro h _; cases h
  | a :: t, b, c => by
    intro h hc
    cases hte : t with
    | nil =>
      subst hte
      have hac : a = c := by
        rw [show ([a] : List Char).getLast? = some a from rfl,
          Option.some.injEq] at h
        exact h
      subst hac
      cases b <;> simp [wsGo, hc]
    | cons a₂ t₂ =>
      have hne : t ≠ [] := by rw [hte]; simp
      have hlast : t.getLast? = some c := (getLast?_cons_of_ne_nil hne).symm.trans h
      rw [← hte] at *
      have hwne : ∀ b', wsGo b' t ≠ [] := by
        intro b' hz
        have := wsGo_last t b' hlast hc
        rw [hz] at this
        cases this
      cases hsa : pySpace a with
      | false =>
        rw [show wsGo b (a :: t) = a :: wsGo false t by simp [wsGo, hsa],
          getLast?_cons_of_ne_nil (hwne false)]
        exact wsGo_last t false hlast hc
      | true =>
        cases b with
        | true =>
          rw [show wsGo true (a :: t) = wsGo true t by simp [wsGo, hsa]]
          exact wsGo_last t true hlast hc
        | false =>
          rw [show wsGo false (a :: t) = ' ' :: wsGo true t by simp [wsGo, hsa],
            getLast?_cons_of_ne_nil (hwne true)]
          exact wsGo_last t true hlast hc

theorem pyStrip_id {l : List Char}
    (hh : ∀ y, l.head? = some y → pySpace y = false)
    (hl : ∀ y, l.getLast? = some y → pySpace y = false) : pyStrip l = l := by
  unfold pyStrip
  rw [dropWhile_eq_self_of_head pySpace l hh,
    dropWhile_eq_self_of_head pySpace l.reverse
      (fun y hy => hl y (by rw [List.head?_reverse] at hy; exact hy)),
    List.reverse_reverse]

theorem stripTrailing_id {l : List Char}
    (hl : ∀ y, l.getLast? = some y → trailPunct y = false) :
    stripTrailing l = l := by
  unfold stripTrailing
  rw [dropWhile_eq_self_of_head trailPunct l.reverse
      (fun y hy => hl y (by rw [List.head?_reverse] at hy; exact hy)),
    List.reverse_reverse]

/-! Pair invariants: no whitespace adjacent to a hyphen (`okPair`), no two
adjacent whitespace characters (`noSpPair`); establishment by
`subDashWs`/`wsGo` and preservation by every later stage. -/

theorem okPair_sp_sp {a b : Char} (ha : pySpace a = true)
    (hb : pySpace b = true) : okPair a b = true := by
  have hane : a ≠ '-' := by
    intro he
    rw [he] at ha
    exact absurd ha (by decide)
  have hbne : b ≠ '-' := by
    intro he
    rw [he] at hb
    exact absurd hb (by decide)
  simp [okPair, hane, hbne]

theorem okPair_sp_left {a d : Char} (ha : pySpace a = true) (hd : d ≠ '-') :
    okPair a d = true := by
  have hane : a ≠ '-' := by
    intro he
    rw [he] at ha
    exact absurd ha (by decide)
  simp [okPair, hane, hd]

theorem okPair_space_right {c : Char} (hcne : c ≠ '-') : okPair c ' ' = true := by
  simp [okPair, hcne, (show ¬((' ' : Char) = '-') by decide)]

theorem okPair_dash_elim {b : Char} (h : okPair '-' b = true) :
    pySpace b = false := by
  cases hsb : pySpace b
  · rfl
  · exfalso
    simp [okPair, hsb] at h

theorem okPair_elim_right_sp {a b : Char} (h : okPair a b = true)
    (hb : pySpace b = true) : a ≠ '-' := by
  rintro rfl
  exact absurd (okPair_dash_elim h) (by simp [hb])

theorem okPair_elim_left_sp {a b : Char} (h : okPair a b = true)
    (ha : pySpace a = true) : b ≠ '-' := by
  rintro rfl
  simp [okPair, ha] at h

theorem noSpPair_left {a b : Char} (ha : pySpace a = false) :
    noSpPair a b = true := by
  simp [noSpPair, ha]

theorem noSpPair_elim {a b : Char} (h : noSpPair a b = true)
    (ha : pySpace a = true) : pySpace b = false := by
  simpa [noSpPair, ha] using h

theorem okPair_spRun : ∀ (l : List Char), adjOk okPair l = true →
    ∀ (c : Char), l.head? = some c → pySpace c = true →
    ∀ (d : Char) (t : List Char), l.dropWhile pySpace = d :: t → d ≠ '-'
  | [], _, c => by intro h; cases h
  | [c₀], hadj, c => by
    intro hhd hsp d t hdr
    rw [List.head?_cons, Option.some.injEq] at hhd
    subst hhd
    rw [List.dropWhile_cons, if_pos hsp] at hdr
    cases hdr
  | c₀ :: c₁ :: cs₁, hadj, c => by
    intro hhd hsp d t hdr
    rw [List.head?_cons, Option.some.injEq] at hhd
    subst hhd
    rw [List.dropWhile_cons, if_pos hsp] at hdr
    cases hsp₁ : pySpace c₁ with
    | true =>
      exact okPair_spRun (c₁ :: cs₁) ((adjOk_cons _ _ _).mp hadj).2 c₁ rfl hsp₁
        d t hdr
    | false =>
      rw [List.dropWhile_cons, if_neg (by simp [hsp₁])] at hdr
      injection hdr with h1 _
      subst h1
      have hok : okPair c₀ c₁ = true := ((adjOk_cons _ _ _).mp hadj).1 c₁ rfl
      exact okPair_elim_left_sp hok hsp

theorem subDashWs_head_nonsp {z : List Char} {y : Char} (hz : z.head? = some y)
    (hy : pySpace y = false) : (subDashWs z).head? = some y := by
  cases z with
  | nil => cases hz
  | cons c cs =>
    rw [List.head?_cons, Option.some.injEq] at hz
    subst hz
    by_cases hd : c = '-'
    · subst hd
      rw [subDashWs_dash]
      rfl
    · rw [subDashWs_other cs hy hd]
      rfl

theorem subDashWs_pairsOk : ∀ (n : Nat) (l : List Char), l.length ≤ n →
    adjOk okPair (subDashWs l) = true := by
  intro n
  induction n with
  | zero =>
    intro l hl
    have hnil : l = [] := List.eq_nil_of_length_eq_zero (Nat.le_zero.mp hl)
    subst hnil
    rw [subDashWs_nil]
    rfl
  | succ n ih =>
    intro l hl
    cases l with
    | nil =>
      rw [subDashWs_nil]
      rfl
    | cons c cs =>
      have hlen : cs.length ≤ n := by simp at hl; omega
      cases hsp : pySpace c with
      | true =>
        cases hdr : (c :: cs).dropWhile pySpace with
        | nil =>
          rw [subDashWs_sp_nil hsp hdr]
          have hall := List.dropWhile_eq_nil_iff.mp hdr
          exact adjOk_of_all okPair (c :: cs)
            (fun a haa b hbb => okPair_sp_sp (hall a haa) (hall b hbb))
        | cons d rs =>
          have hdc : (c :: cs).dropWhile pySpace = cs.dropWhile pySpace := by
            rw [List.dropWhile_cons, if_pos hsp]
          have hdr' : cs.dropWhile pySpace = d :: rs := hdc.symm.trans hdr
          have hrs1 : rs.length + 1 ≤ cs.length := by
            have := (List.dropWhile_suffix pySpace :
              cs.dropWhile pySpace <:+ cs).length_le
            rw [hdr'] at this
            simpa using this
          by_cases hd : d = '-'
          · subst hd
            rw [subDashWs_sp_dash hsp hdr]
            have hA : (rs.dropWhile pySpace).length ≤ rs.length :=
              (List.dropWhile_suffix pySpace :
                rs.dropWhile pySpace <:+ rs).length_le
            refine (adjOk_cons _ _ _).mpr
              ⟨?_, ih (rs.dropWhile pySpace) (by omega)⟩
            intro y hy
            cases hvh : (rs.dropWhile pySpace).head? with
            | none =>
              rw [List.head?_eq_none_iff.mp hvh, subDashWs_nil] at hy
              cases hy
            | some y₀ =>
              have hns := head?_dropWhile_not pySpace hvh
              rw [subDashWs_head_nonsp hvh hns] at hy
              injection hy with hy'
              rw [← hy']
              exact okPair_dash_right hns
          · rw [subDashWs_sp_cons hsp hdr hd]
            refine adjOk_append_of okPair _ _ ?_ ?_ ?_
            · exact adjOk_of_all okPair _ (fun a haa b hbb =>
                okPair_sp_sp (List.mem_takeWhile_imp haa)
                  (List.mem_takeWhile_imp hbb))
            · exact ih (d :: rs) (by simp; omega)
            · intro a b hga hhb
              have hsa : pySpace a = true :=
                List.mem_takeWhile_imp (List.mem_of_mem_getLast? hga)
              have hdns : pySpace d = false :=
                head?_dropWhile_not pySpace (by rw [hdr']; rfl)
              rw [subDashWs_head_nonsp
                (show (d :: rs : List Char).head? = some d from rfl) hdns] at hhb
              injection hhb with hb'
              rw [← hb']
              exact okPair_sp_left hsa hd
      | false =>
        by_cases hd : c = '-'
        · subst hd
          rw [subDashWs_dash cs]
          have hA : (cs.dropWhile pySpace).length ≤ cs.length :=
            (List.dropWhile_suffix pySpace :
              cs.dropWhile pySpace <:+ cs).length_le
          refine (adjOk_cons _ _ _).mpr
            ⟨?_, ih (cs.dropWhile pySpace) (by omega)⟩
          intro y hy
          cases hvh : (cs.dropWhile pySpace).head? with
          | none =>
            rw [List.head?_eq_none_iff.mp hvh, subDashWs_nil] at hy
            cases hy
          | some y₀ =>
            have hns := head?_dropWhile_not pySpace hvh
            rw [subDashWs_head_nonsp hvh hns] at hy
            injection hy with hy'
            rw [← hy']
            exact okPair_dash_right hns
        · rw [subDashWs_other cs hsp hd]
          exact (adjOk_cons _ _ _).mpr
            ⟨fun y _ => okPair_safe_left hsp hd y, ih cs hlen⟩

theorem subDashWs_id : ∀ (n : Nat) (l : List Char), l.length ≤ n →
    adjOk okPair l = true → subDashWs l = l := by
  intro n
  induction n with
  | zero =>
    intro l hl _
    have hnil : l = [] := List.eq_nil_of_length_eq_zero (Nat.le_zero.mp hl)
    subst hnil
    rw [subDashWs_nil]
  | succ n ih =>
    intro l hl hadj
    cases l with
    | nil => rw [subDashWs_nil]
    | cons c cs =>
      have hlen : cs.length ≤ n := by simp at hl; omega
      have htl : adjOk okPair cs = true := ((adjOk_cons _ _ _).mp hadj).2
      cases hsp : pySpace c with
      | true =>
        cases hdr : (c :: cs).dropWhile pySpace with
        | nil => exact subDashWs_sp_nil hsp hdr
        | cons d rs =>
          have hd : d ≠ '-' := okPair_spRun (c :: cs) hadj c rfl hsp d rs hdr
          have hdc : (c :: cs).dropWhile pySpace = cs.dropWhile pySpace := by
            rw [List.dropWhile_cons, if_pos hsp]
          have hdr' : cs.dropWhile pySpace = d :: rs := hdc.symm.trans hdr
          have hrs1 : rs.length + 1 ≤ cs.length := by
            have := (List.dropWhile_suffix pySpace :
              cs.dropWhile pySpace <:+ cs).length_le
            rw [hdr'] at this
            simpa using this
          rw [subDashWs_sp_cons hsp hdr hd,
            ih (d :: rs) (by simp; omega)
              (adjOk_suffix (hdr ▸ List.dropWhile_suffix pySpace) hadj),
            ← hdr, List.takeWhile_append_dropWhile]
      | false =>
        by_cases hd : c = '-'
        · subst hd
          rw [subDashWs_dash cs]
          cases hcs : cs with
          | nil => rw [show ([] : List Char).dropWhile pySpace = [] from rfl,
              subDashWs_nil]
          | cons c₁ cs₁ =>
            have hok : okPair '-' c₁ = true := by
              refine ((adjOk_cons _ _ _).mp hadj).1 c₁ ?_
              rw [hcs]
              rfl
            have hns := okPair_dash_elim hok
            have hdc : (c₁ :: cs₁).dropWhile pySpace = c₁ :: cs₁ := by
              rw [List.dropWhile_cons, if_neg (by simp [hns])]
            rw [hdc, ← hcs, ih cs hlen htl]
        · rw [subDashWs_other cs hsp hd, ih cs hlen htl]

/-! Head characterization and invariants of the whitespace collapser. -/

theorem wsGo_false_head (c : Char) (cs : List Char) :
    (wsGo false (c :: cs)).head? = some (if pySpace c then ' ' else c) := by
  cases hsp : pySpace c <;> simp [wsGo, hsp]

theorem wsGo_true_dropWhile :
    ∀ (cs : List Char), wsGo true cs = wsGo true (cs.dropWhile pySpace)
  | [] => rfl
  | c :: cs => by
    cases hsp : pySpace c with
    | true =>
      rw [show wsGo true (c :: cs) = wsGo true cs by simp [wsGo, hsp],
        List.dropWhile_cons, if_pos hsp]
      exact wsGo_true_dropWhile cs
    | false => rw [List.dropWhile_cons, if_neg (by simp [hsp])]

theorem wsGo_true_head_nonsp {cs : List Char} {y : Char}
    (h : (wsGo true cs).head? = some y) : pySpace y = false := by
  rw [wsGo_true_dropWhile] at h
  cases hdd : cs.dropWhile pySpace with
  | nil =>
    rw [hdd] at h
    cases h
  | cons d ds =>
    have hdns : pySpace d = false := head?_dropWhile_not pySpace
      (show (cs.dropWhile pySpace).head? = some d by rw [hdd]; rfl)
    rw [hdd, show wsGo true (d :: ds) = d :: wsGo false ds by
      simp [wsGo, hdns]] at h
    rw [List.head?_cons, Option.some.injEq] at h
    rw [← h]
    exact hdns

theorem wsGo_true_head_eq {cs : List Char} {d : Char} {ds : List Char}
    (hdd : cs.dropWhile pySpace = d :: ds) : (wsGo true cs).head? = some d := by
  have hdns : pySpace d = false := head?_dropWhile_not pySpace
    (show (cs.dropWhile pySpace).head? = some d by rw [hdd]; rfl)
  rw [wsGo_true_dropWhile, hdd,
    show wsGo true (d :: ds) = d :: wsGo false ds by simp [wsGo, hdns]]
  rfl

theorem wsGo_sp_space : ∀ (l : List Char) (b : Bool) (x : Char), x ∈ wsGo b l →
    pySpace x = true → x = ' '
  | [], b, x => by
    intro hx _
    simp [wsGo] at hx
  | c :: cs, b, x => by
    intro hx hsx
    cases hsp : pySpace c with
    | true =>
      cases b with
      | true =>
        rw [show wsGo true (c :: cs) = wsGo true cs by simp [wsGo, hsp]] at hx
        exact wsGo_sp_space cs true x hx hsx
      | false =>
        rw [show wsGo false (c :: cs) = ' ' :: wsGo true cs by
          simp [wsGo, hsp]] at hx
        rcases List.mem_cons.mp hx with rfl | hx'
        · rfl
        · exact wsGo_sp_space cs true x hx' hsx
    | false =>
      rw [show wsGo b (c :: cs) = c :: wsGo false cs by simp [wsGo, hsp]] at hx
      rcases List.mem_cons.mp hx with rfl | hx'
      · rw [hsp] at hsx
        cases hsx
      · exact wsGo_sp_space cs false x hx' hsx

theorem wsGo_noSpPair : ∀ (l : List Char) (b : Bool),
    adjOk noSpPair (wsGo b l) = true
  | [], _ => rfl
  | c :: cs, b => by
    cases hsp : pySpace c with
    | false =>
      rw [show wsGo b (c :: cs) = c :: wsGo false cs by simp [wsGo, hsp]]
      exact (adjOk_cons _ _ _).mpr
        ⟨fun y _ => noSpPair_left hsp, wsGo_noSpPair cs false⟩
    | true =>
      cases b with
      | true =>
        rw [show wsGo true (c :: cs) = wsGo true cs by simp [wsGo, hsp]]
        exact wsGo_noSpPair cs true
      | false =>
        rw [show wsGo false (c :: cs) = ' ' :: wsGo true cs by simp [wsGo, hsp]]
        refine (adjOk_cons _ _ _).mpr ⟨?_, wsGo_noSpPair cs true⟩
        intro y hy
        have hyns := wsGo_true_head_nonsp hy
        simp [noSpPair, hyns]

theorem wsGo_okPair : ∀ (l : List Char) (b : Bool), adjOk okPair l = true →
    adjOk okPair (wsGo b l) = true
  | [], _, _ => rfl
  | c :: cs, b, hadj => by
    have htl : adjOk okPair cs = true := ((adjOk_cons _ _ _).mp hadj).2
    cases hsp : pySpace c with
    | false =>
      rw [show wsGo b (c :: cs) = c :: wsGo false cs by simp [wsGo, hsp]]
      refine (adjOk_cons _ _ _).mpr ⟨?_, wsGo_okPair cs false htl⟩
      intro y hy
      cases hcs : cs with
      | nil =>
        rw [hcs] at hy
        simp [wsGo] at hy
      | cons c₁ cs₁ =>
        rw [hcs, wsGo_false_head] at hy
        injection hy with hy'
        have hok : okPair c c₁ = true := by
          refine ((adjOk_cons _ _ _).mp hadj).1 c₁ ?_
          rw [hcs]
          rfl
        cases hsp₁ : pySpace c₁ with
        | true =>
          rw [hsp₁] at hy'
          simp only [if_true] at hy'
          rw [← hy']
          exact okPair_space_right (okPair_elim_right_sp hok hsp₁)
        | false =>
          rw [hsp₁] at hy'
          simp only [Bool.false_eq_true, if_false] at hy'
          rw [← hy']
          exact hok
    | true =>
      cases b with
      | true =>
        rw [show wsGo true (c :: cs) = wsGo true cs by simp [wsGo, hsp]]
        exact wsGo_okPair cs true htl
      | false =>
        rw [show wsGo false (c :: cs) = ' ' :: wsGo true cs by simp [wsGo, hsp]]
        refine (adjOk_cons _ _ _).mpr ⟨?_, wsGo_okPair cs true htl⟩
        intro y hy
        cases hdd : cs.dropWhile pySpace with
        | nil =>
          rw [wsGo_true_dropWhile, hdd] at hy
          cases hy
        | cons d ds =>
          rw [wsGo_true_head_eq hdd] at hy
          injection hy with hy'
          rw [← hy']
          have hdne : d ≠ '-' := okPair_spRun (c :: cs) hadj c rfl hsp d ds
            (by rw [List.dropWhile_cons, if_pos hsp]; exact hdd)
          exact okPair_sp_left (by decide) hdne

theorem wsGo_id : ∀ (l : List Char),
    (∀ c ∈ l, pySpace c = true → c = ' ') → adjOk noSpPair l = true →
    wsGo false l = l ∧
      ((∀ y, l.head? = some y → pySpace y = false) → wsGo true l = l)
  | [], _, _ => ⟨rfl, fun _ => rfl⟩
  | c :: cs, hmem, hadj => by
    have htl := ((adjOk_cons _ _ _).mp hadj).2
    have hmem' : ∀ c' ∈ cs, pySpace c' = true → c' = ' ' :=
      fun c' hc' => hmem c' (List.mem_cons_of_mem _ hc')
    obtain ⟨ihf, iht⟩ := wsGo_id cs hmem' htl
    cases hsp : pySpace c with
    | false =>
      constructor
      · rw [show wsGo false (c :: cs) = c :: wsGo false cs by simp [wsGo, hsp],
          ihf]
      · intro _
        rw [show wsGo true (c :: cs) = c :: wsGo false cs by simp [wsGo, hsp],
          ihf]
    | true =>
      have hcsp : c = ' ' := hmem c (by simp) hsp
      constructor
      · have hhd : ∀ y, cs.head? = some y → pySpace y = false := by
          intro y hy
          exact noSpPair_elim (((adjOk_cons _ _ _).mp hadj).1 y hy) hsp
        rw [show wsGo false (c :: cs) = ' ' :: wsGo true cs by simp [wsGo, hsp],
          iht hhd, hcsp]
      · intro hhd0
        exact absurd hsp (by simp [hhd0 c rfl])

theorem adjOk_of_left_safe (ok : Char → Char → Bool)
    (hL : ∀ a b, pySpace a = false → a ≠ '-' → ok a b = true) :
    ∀ (u v : List Char), (∀ a ∈ u, pySpace a = false ∧ a ≠ '-') →
      adjOk ok v = true → adjOk ok (u ++ v) = true
  | [], _, _, hv => hv
  | a :: u', v, hu, hv => by
    rw [List.cons_append]
    refine (adjOk_cons _ _ _).mpr ⟨?_, adjOk_of_left_safe ok hL u' v
      (fun a' ha' => hu a' (List.mem_cons_of_mem _ ha')) hv⟩
    intro y _
    obtain ⟨h1, h2⟩ := hu a (by simp)
    exact hL a y h1 h2

theorem sub6_adjOk (ok : Char → Char → Bool)
    (hL : ∀ a b, pySpace a = false → a ≠ '-' → ok a b = true) :
    ∀ (n : Nat) (l : List Char), l.length ≤ n → ∀ p, adjOk ok l = true →
      adjOk ok (sub6 p l) = true := by
  intro n
  induction n with
  | zero =>
    intro l hl p _
    have hnil : l = [] := List.eq_nil_of_length_eq_zero (Nat.le_zero.mp hl)
    subst hnil
    rw [sub6_nil]
    rfl
  | succ n ih =>
    intro l hl p hadj
    cases l with
    | nil =>
      rw [sub6_nil]
      rfl
    | cons c₀ cs =>
      have hlen : cs.length ≤ n := by simp at hl; omega
      have htl : adjOk ok cs = true := ((adjOk_cons _ _ _).mp hadj).2
      cases hcnd : (!p && asciiAlpha c₀) with
      | false =>
        rw [sub6_skip hcnd]
        refine (adjOk_cons _ _ _).mpr ⟨?_, ih cs hlen (pyWord c₀) htl⟩
        intro y hy
        rw [sub6_head?] at hy
        exact ((adjOk_cons _ _ _).mp hadj).1 y hy
      | true =>
        have hca : asciiAlpha c₀ = true := by
          have hcc := hcnd
          simp only [Bool.and_eq_true] at hcc
          exact hcc.2
        cases ht : sub6Try cs with
        | none =>
          rw [sub6_none hcnd ht]
          refine (adjOk_cons _ _ _).mpr ⟨?_, ih cs hlen true htl⟩
          intro y hy
          rw [sub6_head?] at hy
          exact ((adjOk_cons _ _ _).mp hadj).1 y hy
        | some pr =>
          obtain ⟨ds, rest⟩ := pr
          obtain ⟨t2, hdr, hds, hrest, h2, h4, hbw⟩ := sub6Try_eq ht
          have hdigs : ∀ x ∈ ds, asciiDigit x = true := by
            intro x hxm
            rw [hds] at hxm
            exact List.mem_takeWhile_imp hxm
          have hrl := sub6Try_rest_le ht
          rw [sub6_some hcnd ht, ← List.cons_append]
          refine adjOk_of_left_safe ok hL (c₀ :: ds) _ ?_ ?_
          · intro a ha
            rcases List.mem_cons.mp ha with rfl | ha'
            · exact ⟨alpha_not_space hca, alpha_ne_dash hca⟩
            · exact ⟨digit_not_space (hdigs a ha'), digit_ne_dash (hdigs a ha')⟩
          · refine ih rest (by omega) true (adjOk_suffix ?_ hadj)
            exact ((List.suffix_append ds rest).trans (sub6Try_suffix ht)).trans
              (List.suffix_cons c₀ cs)

theorem sub7_adjOk (ok : Char → Char → Bool)
    (hL : ∀ a b, pySpace a = false → a ≠ '-' → ok a b = true) :
    ∀ (n : Nat) (l : List Char), l.length ≤ n → ∀ p, adjOk ok l = true →
      adjOk ok (sub7 p l) = true := by
  intro n
  induction n with
  | zero =>
    intro l hl p _
    have hnil : l = [] := List.eq_nil_of_length_eq_zero (Nat.le_zero.mp hl)
    subst hnil
    rw [sub7_nil]
    rfl
  | succ n ih =>
    intro l hl p hadj
    cases l with
    | nil =>
      rw [sub7_nil]
      rfl
    | cons c₀ cs =>
      have hlen : cs.length ≤ n := by simp at hl; omega
      have htl : adjOk ok cs = true := ((adjOk_cons _ _ _).mp hadj).2
      cases hcnd : (!p && asciiAlpha c₀) with
      | false =>
        rw [sub7_skip hcnd]
        refine (adjOk_cons _ _ _).mpr ⟨?_, ih cs hlen (pyWord c₀) htl⟩
        intro y hy
        rw [sub7_head?] at hy
        exact ((adjOk_cons _ _ _).mp hadj).1 y hy
      | true =>
        have hca : asciiAlpha c₀ = true := by
          have hcc := hcnd
          simp only [Bool.and_eq_true] at hcc
          exact hcc.2
        cases ht : sub7Try cs with
        | none =>
          rw [sub7_none hcnd ht]
          refine (adjOk_cons _ _ _).mpr ⟨?_, ih cs hlen true htl⟩
          intro y hy
          rw [sub7_head?] at hy
          exact ((adjOk_cons _ _ _).mp hadj).1 y hy
        | some pr =>
          obtain ⟨ds, rest⟩ := pr
          obtain ⟨hW, hds, hrest, h2, h4, hbw⟩ := sub7Try_eq ht
          have hdigs : ∀ x ∈ ds, asciiDigit x = true := by
            intro x hxm
            rw [hds] at hxm
            exact List.mem_takeWhile_imp hxm
          have hrl := sub7Try_rest_le ht
          rw [sub7_some hcnd ht, ← List.cons_append]
          refine adjOk_of_left_safe ok hL (c₀ :: ds) _ ?_ ?_
          · intro a ha
            rcases List.mem_cons.mp ha with rfl | ha'
            · exact ⟨alpha_not_space hca, alpha_ne_dash hca⟩
            · exact ⟨digit_not_space (hdigs a ha'), digit_ne_dash (hdigs a ha')⟩
          · refine ih rest (by omega) true (adjOk_suffix ?_ hadj)
            exact ((List.suffix_append ds rest).trans (sub7Try_suffix ht)).trans
              (List.suffix_cons c₀ cs)

theorem sub6_last_good (good : Char → Bool)
    (hdig : ∀ d, asciiDigit d = true → good d = true) :
    ∀ (n : Nat) (l : List Char), l.length ≤ n → ∀ p,
      (∀ c, l.getLast? = some c → good c = true) →
      ∀ c, (sub6 p l).getLast? = some c → good c = true := by
  intro n
  induction n with
  | zero =>
    intro l hl p _ c hc
    have hnil : l = [] := List.eq_nil_of_length_eq_zero (Nat.le_zero.mp hl)
    subst hnil
    rw [sub6_nil] at hc
    cases hc
  | succ n ih =>
    intro l hl p hg c hc
    cases l with
    | nil =>
      rw [sub6_nil] at hc
      cases hc
    | cons c₀ cs =>
      have hlen : cs.length ≤ n := by simp at hl; omega
      cases hcnd : (!p && asciiAlpha c₀) with
      | false =>
        rw [sub6_skip hcnd] at hc
        by_cases hcs : cs = []
        · subst hcs
          rw [sub6_nil] at hc
          rw [show ([c₀] : List Char).getLast? = some c₀ from rfl,
            Option.some.injEq] at hc
          subst hc
          exact hg c₀ rfl
        · have hXne : sub6 (pyWord c₀) cs ≠ [] := by
            rw [Ne, sub6_eq_nil_iff]
            exact hcs
          rw [getLast?_cons_of_ne_nil hXne] at hc
          refine ih cs hlen (pyWord c₀) ?_ c hc
          intro c' hc'
          refine hg c' ?_
          rw [getLast?_cons_of_ne_nil hcs]
          exact hc'
      | true =>
        cases ht : sub6Try cs with
        | none =>
          rw [sub6_none hcnd ht] at hc
          by_cases hcs : cs = []
          · subst hcs
            rw [sub6_nil] at hc
            rw [show ([c₀] : List Char).getLast? = some c₀ from rfl,
              Option.some.injEq] at hc
            subst hc
            exact hg c₀ rfl
          · have hXne : sub6 true cs ≠ [] := by
              rw [Ne, sub6_eq_nil_iff]
              exact hcs
            rw [getLast?_cons_of_ne_nil hXne] at hc
            refine ih cs hlen true ?_ c hc
            intro c' hc'
            refine hg c' ?_
            rw [getLast?_cons_of_ne_nil hcs]
            exact hc'
        | some pr =>
          obtain ⟨ds, rest⟩ := pr
          obtain ⟨t2, hdr, hds, hrest, h2, h4, hbw⟩ := sub6Try_eq ht
          have hdigs : ∀ x ∈ ds, asciiDigit x = true := by
            intro x hxm
            rw [hds] at hxm
            exact List.mem_takeWhile_imp hxm
          have hdsne : ds ≠ [] := by
            intro hz
            rw [hz] at h2
            simp at h2
          have hrl := sub6Try_rest_le ht
          rw [sub6_some hcnd ht] at hc
          by_cases hrest0 : rest = []
          · subst hrest0
            rw [sub6_nil, List.append_nil] at hc
            rw [getLast?_cons_of_ne_nil hdsne] at hc
            exact hdig c (hdigs c (List.mem_of_mem_getLast? hc))
          · have hYne : sub6 true rest ≠ [] := by
              rw [Ne, sub6_eq_nil_iff]
              exact hrest0
            have happne : ds ++ sub6 true rest ≠ [] := by simp [hYne]
            rw [getLast?_cons_of_ne_nil happne,
              List.getLast?_append_of_ne_nil ds hYne] at hc
            refine ih rest (by omega) true ?_ c hc
            intro c' hc'
            refine hg c' ?_
            have hsufl : rest <:+ c₀ :: cs :=
              ((List.suffix_append ds rest).trans (sub6Try_suffix ht)).trans
                (List.suffix_cons c₀ cs)
            rw [getLast?_of_suffix hsufl hrest0]
            exact hc'

theorem sub7_last_good (good : Char → Bool)
    (hdig : ∀ d, asciiDigit d = true → good d = true) :
    ∀ (n : Nat) (l : List Char), l.length ≤ n → ∀ p,
      (∀ c, l.getLast? = some c → good c = true) →
      ∀ c, (sub7 p l).getLast? = some c → good c = true := by
  intro n
  induction n with
  | zero =>
    intro l hl p _ c hc
    have hnil : l = [] := List.eq_nil_of_length_eq_zero (Nat.le_zero.mp hl)
    subst hnil
    rw [sub7_nil] at hc
    cases hc
  | succ n ih =>
    intro l hl p hg c hc
    cases l with
    | nil =>
      rw [sub7_nil] at hc
      cases hc
    | cons c₀ cs =>
      have hlen : cs.length ≤ n := by simp at hl; omega
      cases hcnd : (!p && asciiAlpha c₀) with
      | false =>
        rw [sub7_skip hcnd] at hc
        by_cases hcs : cs = []
        · subst hcs
          rw [sub7_nil] at hc
          rw [show ([c₀] : List Char).getLast? = some c₀ from rfl,
            Option.some.injEq] at hc
          subst hc
          exact hg c₀ rfl
        · have hXne : sub7 (pyWord c₀) cs ≠ [] := by
            rw [Ne, sub7_eq_nil_iff]
            exact hcs
          rw [getLast?_cons_of_ne_nil hXne] at hc
          refine ih cs hlen (pyWord c₀) ?_ c hc
          intro c' hc'
          refine hg c' ?_
          rw [getLast?_cons_of_ne_nil hcs]
          exact hc'
      | true =>
        cases ht : sub7Try cs with
        | none =>
          rw [sub7_none hcnd ht] at hc
          by_cases hcs : cs = []
          · subst hcs
            rw [sub7_nil] at hc
            rw [show ([c₀] : List Char).getLast? = some c₀ from rfl,
              Option.some.injEq] at hc
            subst hc
            exact hg c₀ rfl
          · have hXne : sub7 true cs ≠ [] := by
              rw [Ne, sub7_eq_nil_iff]
              exact hcs
            rw [getLast?_cons_of_ne_nil hXne] at hc
            refine ih cs hlen true ?_ c hc
            intro c' hc'
            refine hg c' ?_
            rw [getLast?_cons_of_ne_nil hcs]
            exact hc'
        | some pr =>
          obtain ⟨ds, rest⟩ := pr
          obtain ⟨hW, hds, hrest, h2, h4, hbw⟩ := sub7Try_eq ht
          have hdigs : ∀ x ∈ ds, asciiDigit x = true := by
            intro x hxm
            rw [hds] at hxm
            exact List.mem_takeWhile_imp hxm
          have hdsne : ds ≠ [] := by
            intro hz
            rw [hz] at h2
            simp at h2
          have hrl := sub7Try_rest_le ht
          rw [sub7_some hcnd ht] at hc
          by_cases hrest0 : rest = []
          · subst hrest0
            rw [sub7_nil, List.append_nil] at hc
            rw [getLast?_cons_of_ne_nil hdsne] at hc
            exact hdig c (hdigs c (List.mem_of_mem_getLast? hc))
          · have hYne : sub7 true rest ≠ [] := by
              rw [Ne, sub7_eq_nil_iff]
              exact hrest0
            have happne : ds ++ sub7 true rest ≠ [] := by simp [hYne]
            rw [getLast?_cons_of_ne_nil happne,
              List.getLast?_append_of_ne_nil ds hYne] at hc
            refine ih rest (by omega) true ?_ c hc
            intro c' hc'
            refine hg c' ?_
            have hsufl : rest <:+ c₀ :: cs :=
              ((List.suffix_append ds rest).trans (sub7Try_suffix ht)).trans
                (List.suffix_cons c₀ cs)
            rw [getLast?_of_suffix hsufl hrest0]
            exact hc'

/-! Assembly: the output of `normalize_display` satisfies every stage
invariant, and each stage is the identity on it. -/

theorem normalize_display_fix {u : List Char}
    (hspc : ∀ x ∈ u, pySpace x = true → x = ' ')
    (hnsp : adjOk noSpPair u = true)
    (hok : adjOk okPair u = true)
    (hud : ∀ x ∈ u, uniDash x = false)
    (htr : ∀ y, u.getLast? = some y → trailPunct y = false)
    (hhd : ∀ y, u.head? = some y → pySpace y = false)
    (h6 : sub6 false u = u) (h7 : sub7 false u = u) :
    normalize_display u = u := by
  have hglast : ∀ y, u.getLast? = some y → pySpace y = false :=
    fun y hy => not_space_of_not_trail (htr y hy)
  have e1 : pyStrip u = u := pyStrip_id hhd hglast
  have e2 : dashMap u = u := dashMap_id hud
  have e3 : subDashWs u = u := subDashWs_id u.length u le_rfl hok
  have e4 : stripTrailing u = u := stripTrailing_id htr
  have e5 : collapse_ws u = u := by
    unfold collapse_ws
    rw [(wsGo_id u hspc hnsp).1]
    exact e1
  unfold normalize_display
  rw [e1, e2, e3, e4, e5, h6, h7]

theorem nd4_spc (raw : List Char) :
    ∀ x ∈ (collapse_ws (stripTrailing (subDashWs (dashMap (pyStrip raw))))), pySpace x = true → x = ' ' := by
  intro x hx hsx
  have hx0 : x ∈ pyStrip (wsGo false (stripTrailing (subDashWs (dashMap (pyStrip raw))))) := hx
  exact wsGo_sp_space (stripTrailing (subDashWs (dashMap (pyStrip raw)))) false x
    ((pyStrip_inf (wsGo false (stripTrailing (subDashWs (dashMap (pyStrip raw)))))).subset hx0) hsx

theorem nd4_nsp (raw : List Char) : adjOk noSpPair (collapse_ws (stripTrailing (subDashWs (dashMap (pyStrip raw))))) = true :=
  adjOk_infix (pyStrip_inf (wsGo false (stripTrailing (subDashWs (dashMap (pyStrip raw)))))) (wsGo_noSpPair (stripTrailing (subDashWs (dashMap (pyStrip raw)))) false)

theorem nd4_ok (raw : List Char) : adjOk okPair (collapse_ws (stripTrailing (subDashWs (dashMap (pyStrip raw))))) = true := by
  have hok2 : adjOk okPair (subDashWs (dashMap (pyStrip raw))) = true :=
    subDashWs_pairsOk (dashMap (pyStrip raw)).length _ le_rfl
  have hok3 : adjOk okPair (stripTrailing (subDashWs (dashMap (pyStrip raw)))) = true :=
    adjOk_pref (stripTrailing_pref (subDashWs (dashMap (pyStrip raw)))) hok2
  exact adjOk_infix (pyStrip_inf (wsGo false (stripTrailing (subDashWs (dashMap (pyStrip raw)))))) (wsGo_okPair (stripTrailing (subDashWs (dashMap (pyStrip raw)))) false hok3)

theorem nd4_ud (raw : List Char) : ∀ x ∈ (collapse_ws (stripTrailing (subDashWs (dashMap (pyStrip raw))))), uniDash x = false := by
  have hud2 : ∀ x ∈ subDashWs (dashMap (pyStrip raw)), uniDash x = false := by
    intro x hx
    rcases subDashWs_mem (dashMap (pyStrip raw)).length _ le_rfl x hx with hm | he
    · exact dashMap_noUni hm
    · rw [he]
      decide
  have hud3 : ∀ x ∈ (stripTrailing (subDashWs (dashMap (pyStrip raw)))), uniDash x = false :=
    fun x hx => hud2 x ((stripTrailing_pref _).subset hx)
  intro x hx
  have hx0 : x ∈ pyStrip (wsGo false (stripTrailing (subDashWs (dashMap (pyStrip raw))))) := hx
  rcases wsGo_mem (stripTrailing (subDashWs (dashMap (pyStrip raw)))) false x ((pyStrip_inf (wsGo false (stripTrailing (subDashWs (dashMap (pyStrip raw)))))).subset hx0)
    with hm | he
  · exact hud3 x hm
  · rw [he]
    decide

theorem nd4_tr (raw : List Char) :
    ∀ y, ((collapse_ws (stripTrailing (subDashWs (dashMap (pyStrip raw)))))).getLast? = some y → trailPunct y = false := by
  have htr3 : ∀ y, ((stripTrailing (subDashWs (dashMap (pyStrip raw))))).getLast? = some y → trailPunct y = false :=
    fun y hy => stripTrailing_last hy
  intro y hy
  cases hg3 : ((stripTrailing (subDashWs (dashMap (pyStrip raw))))).getLast? with
  | none =>
    have h30 : (stripTrailing (subDashWs (dashMap (pyStrip raw)))) = [] := List.getLast?_eq_none_iff.mp hg3
    rw [h30, show collapse_ws ([] : List Char) = [] from rfl] at hy
    cases hy
  | some y₀ =>
    have htr0 := htr3 y₀ hg3
    have hns0 := not_space_of_not_trail htr0
    have h1 : (wsGo false (stripTrailing (subDashWs (dashMap (pyStrip raw))))).getLast? = some y₀ :=
      wsGo_last (stripTrailing (subDashWs (dashMap (pyStrip raw)))) false hg3 hns0
    have h2 : ((collapse_ws (stripTrailing (subDashWs (dashMap (pyStrip raw)))))).getLast? = some y₀ := pyStrip_last_of_not_sp h1 hns0
    rw [hy] at h2
    injection h2 with h2'
    rw [h2']
    exact htr0

theorem nd4_hd (raw : List Char) :
    ∀ y, ((collapse_ws (stripTrailing (subDashWs (dashMap (pyStrip raw)))))).head? = some y → pySpace y = false :=
  fun y hy => pyStrip_head hy


theorem nd6_spc (raw : List Char) :
    ∀ x ∈ (sub7 false (sub6 false (collapse_ws (stripTrailing (subDashWs (dashMap (pyStrip raw))))))), pySpace x = true → x = ' ' := by
  intro x hx hsx
  exact nd4_spc raw x
    (sub6_mem ((collapse_ws (stripTrailing (subDashWs (dashMap (pyStrip raw)))))).length (collapse_ws (stripTrailing (subDashWs (dashMap (pyStrip raw))))) le_rfl false x
      (sub7_mem ((sub6 false (collapse_ws (stripTrailing (subDashWs (dashMap (pyStrip raw))))))).length (sub6 false (collapse_ws (stripTrailing (subDashWs (dashMap (pyStrip raw)))))) le_rfl false x hx)) hsx

theorem nd6_ud (raw : List Char) : ∀ x ∈ (sub7 false (sub6 false (collapse_ws (stripTrailing (subDashWs (dashMap (pyStrip raw))))))), uniDash x = false := by
  intro x hx
  exact nd4_ud raw x
    (sub6_mem ((collapse_ws (stripTrailing (subDashWs (dashMap (pyStrip raw)))))).length (collapse_ws (stripTrailing (subDashWs (dashMap (pyStrip raw))))) le_rfl false x
      (sub7_mem ((sub6 false (collapse_ws (stripTrailing (subDashWs (dashMap (pyStrip raw))))))).length (sub6 false (collapse_ws (stripTrailing (subDashWs (dashMap (pyStrip raw)))))) le_rfl false x hx))

theorem nd6_nsp (raw : List Char) : adjOk noSpPair (sub7 false (sub6 false (collapse_ws (stripTrailing (subDashWs (dashMap (pyStrip raw))))))) = true :=
  sub7_adjOk noSpPair (fun a b ha _ => noSpPair_left ha) ((sub6 false (collapse_ws (stripTrailing (subDashWs (dashMap (pyStrip raw))))))).length (sub6 false (collapse_ws (stripTrailing (subDashWs (dashMap (pyStrip raw))))))
    le_rfl false
    (sub6_adjOk noSpPair (fun a b ha _ => noSpPair_left ha) ((collapse_ws (stripTrailing (subDashWs (dashMap (pyStrip raw)))))).length (collapse_ws (stripTrailing (subDashWs (dashMap (pyStrip raw)))))
      le_rfl false (nd4_nsp raw))

theorem nd6_ok (raw : List Char) : adjOk okPair (sub7 false (sub6 false (collapse_ws (stripTrailing (subDashWs (dashMap (pyStrip raw))))))) = true :=
  sub7_adjOk okPair (fun a b ha hd => okPair_safe_left ha hd b) ((sub6 false (collapse_ws (stripTrailing (subDashWs (dashMap (pyStrip raw))))))).length
    (sub6 false (collapse_ws (stripTrailing (subDashWs (dashMap (pyStrip raw)))))) le_rfl false
    (sub6_adjOk okPair (fun a b ha hd => okPair_safe_left ha hd b) ((collapse_ws (stripTrailing (subDashWs (dashMap (pyStrip raw)))))).length
      (collapse_ws (stripTrailing (subDashWs (dashMap (pyStrip raw))))) le_rfl false (nd4_ok raw))

theorem nd6_hd (raw : List Char) :
    ∀ y, ((sub7 false (sub6 false (collapse_ws (stripTrailing (subDashWs (dashMap (pyStrip raw)))))))).head? = some y → pySpace y = false := by
  intro y hy
  rw [sub7_head?, sub6_head?] at hy
  exact nd4_hd raw y hy

theorem nd6_tr (raw : List Char) :
    ∀ y, ((sub7 false (sub6 false (collapse_ws (stripTrailing (subDashWs (dashMap (pyStrip raw)))))))).getLast? = some y → trailPunct y = false := by
  have htr5 : ∀ y, ((sub6 false (collapse_ws (stripTrailing (subDashWs (dashMap (pyStrip raw))))))).getLast? = some y → trailPunct y = false := by
    intro y hy
    have hgood := sub6_last_good (fun c => !trailPunct c)
      (fun d hd => by simp [digit_not_trail hd]) ((collapse_ws (stripTrailing (subDashWs (dashMap (pyStrip raw)))))).length (collapse_ws (stripTrailing (subDashWs (dashMap (pyStrip raw))))) le_rfl false
      (fun c' hc' => by simp [nd4_tr raw c' hc']) y hy
    simpa using hgood
  intro y hy
  have hgood := sub7_last_good (fun c => !trailPunct c)
    (fun d hd => by simp [digit_not_trail hd]) ((sub6 false (collapse_ws (stripTrailing (subDashWs (dashMap (pyStrip raw))))))).length (sub6 false (collapse_ws (stripTrailing (subDashWs (dashMap (pyStrip raw)))))) le_rfl false
    (fun c' hc' => by simp [htr5 c' hc']) y hy
  simpa using hgood

theorem nd6_fix6 (raw : List Char) : sub6 false (sub7 false (sub6 false (collapse_ws (stripTrailing (subDashWs (dashMap (pyStrip raw))))))) = (sub7 false (sub6 false (collapse_ws (stripTrailing (subDashWs (dashMap (pyStrip raw))))))) :=
  sub6_fix_sub7_aux ((sub6 false (collapse_ws (stripTrailing (subDashWs (dashMap (pyStrip raw))))))).length (sub6 false (collapse_ws (stripTrailing (subDashWs (dashMap (pyStrip raw)))))) le_rfl false
    (sub6_idem_aux ((collapse_ws (stripTrailing (subDashWs (dashMap (pyStrip raw)))))).length (collapse_ws (stripTrailing (subDashWs (dashMap (pyStrip raw))))) le_rfl false)

theorem nd6_fix7 (raw : List Char) : sub7 false (sub7 false (sub6 false (collapse_ws (stripTrailing (subDashWs (dashMap (pyStrip raw))))))) = (sub7 false (sub6 false (collapse_ws (stripTrailing (subDashWs (dashMap (pyStrip raw))))))) :=
  sub7_idem_aux ((sub6 false (collapse_ws (stripTrailing (subDashWs (dashMap (pyStrip raw))))))).length (sub6 false (collapse_ws (stripTrailing (subDashWs (dashMap (pyStrip raw)))))) le_rfl false

theorem normalize_display_idem (raw : List Char) :
    normalize_display (normalize_display raw) = normalize_display raw :=
  normalize_display_fix (nd6_spc raw) (nd6_nsp raw) (nd6_ok raw) (nd6_ud raw)
    (nd6_tr raw) (nd6_hd raw) (nd6_fix6 raw) (nd6_fix7 raw)

/-- Claim C7: the display-normalization function of model_normalize.py is
idempotent — applying `normalize_display` to its own output returns that
output unchanged, for every input string. -/
theorem claim_C7 (x : List Char) :
    normalize_display (normalize_display x) = normalize_display x :=
  normalize_display_idem x

/-! ### Claim C5: alias resolution of standalone tokens

The junk filter (`looks_like_real_model`) runs before the alias lookup, so
an alias entry whose surface form is a filtered token is never resolved. -/

theorem canonical_key_normalize_display (x : List Char) :
    canonical_key (normalize_display x) = canonical_key x := by
  unfold canonical_key
  rw [normalize_display_idem]

theorem aliasRow_fields (m : AliasMap) (doc : Doc) (tn : List Char) :
    (aliasRow m doc tn).canonical_key = (normalize m tn).1 ∧
      (aliasRow m doc tn).canonical_model = (normalize m tn).2 ∧
      (aliasRow m doc tn).method = Method.alias_token ∧
      (aliasRow m doc tn).confidence = 19 / 20 := by
  unfold aliasRow
  dsimp only
  exact ⟨rfl, rfl, rfl, rfl⟩

theorem pass2Result_row (o : Option Mention) (b : Bool) :
    (Pass2Result.mk o b).row = o := rfl

theorem pass2Result_candidate (o : Option Mention) (b : Bool) :
    (Pass2Result.mk o b).candidate = b := rfl

/-- Claim C5, counterexample: the token `5.1` appears as a standalone match
and has an alias-table entry (key `51`), yet Pass 2 emits no row for it —
the junk filter rejects it before the alias lookup is reached. -/
theorem claim_C5_counterexample :
    "5.1".toList ∈
        standaloneTokens (prepare_text_for_matching "got a 5.1 setup".toList) ∧
      has_alias [("51".toList, ⟨"51".toList, "KLIPSCH 5.1".toList⟩)]
        (pyUpper (normalize_display (pyStrip "5.1".toList))) = true ∧
      (pass2HandleToken [("51".toList, ⟨"51".toList, "KLIPSCH 5.1".toList⟩)]
          (extract_context_words "got a 5.1 setup".toList) [] []
          ⟨"got a 5.1 setup".toList, "t1".toList, "comment".toList, 0⟩
          (pyStrip "5.1".toList)).row = none := by
  refine ⟨?_, ?_, ?_⟩ <;> decide

/-- Claim C5, amended: for a standalone token whose normalized form passes
the junk filter and matches an alias-table key, Pass 2 emits the
alias-resolved row — method `alias_token`, confidence 0.95, carrying the
alias record's stored canonical key and display name — and never reaches
brand inference, whatever the speaker context and brand counters are. -/
theorem claim_C5_amended (m : AliasMap) (ctx : List (List Char))
    (tc db : List (List Char × Nat)) (doc : Doc) (token_raw : List Char)
    (hjunk : looks_like_real_model (pyUpper (normalize_display token_raw)) = true)
    (halias : has_alias m (pyUpper (normalize_display token_raw)) = true) :
    ∃ r, aliasLookup m
        (canonical_key (pyUpper (normalize_display token_raw))) = some r ∧
      (pass2HandleToken m ctx tc db doc token_raw).row =
        some (aliasRow m doc (pyUpper (normalize_display token_raw))) ∧
      (aliasRow m doc (pyUpper (normalize_display token_raw))).canonical_key =
        r.canonical_key ∧
      (aliasRow m doc (pyUpper (normalize_display token_raw))).canonical_model =
        r.display_name ∧
      (aliasRow m doc (pyUpper (normalize_display token_raw))).method =
        Method.alias_token ∧
      (aliasRow m doc (pyUpper (normalize_display token_raw))).confidence =
        19 / 20 ∧
      (pass2HandleToken m ctx tc db doc token_raw).candidate = true := by
  have hh := halias
  unfold has_alias at hh
  simp only [Bool.and_eq_true, Bool.not_eq_true'] at hh
  obtain ⟨hne, hsome⟩ := hh
  obtain ⟨r, hr⟩ := Option.isSome_iff_exists.mp hsome
  have hkd : normalize m (pyUpper (normalize_display token_raw)) =
      (r.canonical_key, r.display_name) := by
    unfold normalize
    dsimp only
    rw [canonical_key_normalize_display, if_neg (by simp [hne]), hr]
  have hp2 : pass2HandleToken m ctx tc db doc token_raw =
      ⟨some (aliasRow m doc (pyUpper (normalize_display token_raw))), true⟩ := by
    unfold pass2HandleToken
    dsimp only
    rw [hjunk, halias]
    rfl
  obtain ⟨hf1, hf2, hf3, hf4⟩ :=
    aliasRow_fields m doc (pyUpper (normalize_display token_raw))
  refine ⟨r, hr, ?_, ?_, ?_, hf3, hf4, ?_⟩
  · rw [hp2, pass2Result_row]
  · rw [hf1, hkd]
  · rw [hf2, hkd]
  · rw [hp2, pass2Result_candidate]

/-- Claim C5, witness: the alias `RP600M` (key `rp600m`, display
`KLIPSCH RP-600M`) resolves with method `alias_token` and confidence 0.95
even though the thread context is empty. -/
theorem claim_C5_witness :
    looks_like_real_model (pyUpper (normalize_display "RP600M".toList)) = true ∧
      has_alias
        [("rp600m".toList,
          ⟨"klipschrp600m".toList, "KLIPSCH RP-600M".toList⟩)]
        (pyUpper (normalize_display "RP600M".toList)) = true ∧
      ∃ r, aliasLookup
          [("rp600m".toList,
            ⟨"klipschrp600m".toList, "KLIPSCH RP-600M".toList⟩)]
          (canonical_key (pyUpper (normalize_display "RP600M".toList))) =
            some r ∧
        (pass2HandleToken
            [("rp600m".toList,
              ⟨"klipschrp600m".toList, "KLIPSCH RP-600M".toList⟩)]
            [] [] [] ⟨"demo".toList, "t1".toList, "comment".toList, 0⟩
            "RP600M".toList).row =
          some (aliasRow
            [("rp600m".toList,
              ⟨"klipschrp600m".toList, "KLIPSCH RP-600M".toList⟩)]
            ⟨"demo".toList, "t1".toList, "comment".toList, 0⟩
            (pyUpper (normalize_display "RP600M".toList))) ∧
        (aliasRow
            [("rp600m".toList,
              ⟨"klipschrp600m".toList, "KLIPSCH RP-600M".toList⟩)]
            ⟨"demo".toList, "t1".toList, "comment".toList, 0⟩
            (pyUpper (normalize_display "RP600M".toList))).canonical_key =
          r.canonical_key ∧
        (aliasRow
            [("rp600m".toList,
              ⟨"klipschrp600m".toList, "KLIPSCH RP-600M".toList⟩)]
            ⟨"demo".toList, "t1".toList, "comment".toList, 0⟩
            (pyUpper (normalize_display "RP600M".toList))).canonical_model =
          r.display_name ∧
        (aliasRow
            [("rp600m".toList,
              ⟨"klipschrp600m".toList, "KLIPSCH RP-600M".toList⟩)]
            ⟨"demo".toList, "t1".toList, "comment".toList, 0⟩
            (pyUpper (normalize_display "RP600M".toList))).method =
          Method.alias_token ∧
        (aliasRow
            [("rp600m".toList,
              ⟨"klipschrp600m".toList, "KLIPSCH RP-600M".toList⟩)]
            ⟨"demo".toList, "t1".toList, "comment".toList, 0⟩
            (pyUpper (normalize_display "RP600M".toList))).confidence =
          19 / 20 ∧
        (pass2HandleToken
            [("rp600m".toList,
              ⟨"klipschrp600m".toList, "KLIPSCH RP-600M".toList⟩)]
            [] [] [] ⟨"demo".toList, "t1".toList, "comment".toList, 0⟩
            "RP600M".toList).candidate = true :=
  ⟨by decide, by decide,
    claim_C5_amended
      [("rp600m".toList, ⟨"klipschrp600m".toList, "KLIPSCH RP-600M".toList⟩)]
      [] [] [] ⟨"demo".toList, "t1".toList, "comment".toList, 0⟩
      "RP600M".toList (by decide) (by decide)⟩

end ThreadTally
